import Mathlib

/-!
# Verification of the in-memory trie mutation engine (`updating.rs`)

Shallow embedding of `core/store/src/trie/mem/updating.rs`: the node model,
the update buffer, the mutator (`insert`, `delete`, `squash_node` /
`extend_child`), and the finalizer (`post_order_traverse_updated_nodes`,
`compute_hashes_and_serialized_nodes`, `to_trie_changes`).

External collaborators (nibble codec, protocol cost constants, hash,
serializer, arena, refcount-delta map) are not part of the source file and
are modelled from the specification; their definitions carry doc comments
starting with `Modelled from the spec:`.

Bytes are modelled as `Nat` (< 256 where produced by the codec), byte strings
as `List Nat`, and `u64` arithmetic wraps at `2 ^ 64` as in release-mode Rust.
-/

namespace MemTrie

/-- Wrapping 64-bit addition, as Rust release-mode `u64` `+`. -/
def u64add (a b : Nat) : Nat := (a + b) % 2 ^ 64

/-- Wrapping 64-bit multiplication, as Rust release-mode `u64` `*`. -/
def u64mul (a b : Nat) : Nat := (a * b) % 2 ^ 64

/-- Modelled from the spec: protocol constants `node_cost`, `byte_of_key`,
`byte_of_value` (§3 cost model). The exact numeric values live outside the
source file; representative values are fixed here. -/
structure TrieCosts where
  byte_of_value : Nat
  byte_of_key : Nat
  node_cost : Nat
deriving Repr, DecidableEq

/-- Modelled from the spec: the protocol cost constants instance. -/
def TRIE_COSTS : TrieCosts := { byte_of_value := 1, byte_of_key := 2, node_cost := 50 }

/-! ## Nibble codec

Modelled from the spec: "A key is a byte string; internally the engine
operates on its 4-bit nibble expansion. Nibble operations needed: length,
common-prefix length, index-at, drop-leading-n, concatenate, encode to a
compact byte form tagged with (is-leaf?, is-odd-length?)" (§3, §6). -/

/-- Modelled from the spec: nibble expansion of a byte string
(`NibbleSlice::new`). Each byte yields its high then low 4-bit nibble. -/
def nibblesOfBytes (key : List Nat) : List Nat :=
  key.flatMap (fun b => [b / 16 % 16, b % 16])

/-- Pack an even-length nibble list into bytes (two nibbles per byte). -/
def packPairs : List Nat → List Nat
  | a :: b :: rest => (a * 16 + b) :: packPairs rest
  | _ => []

/-- Modelled from the spec: compact encoding of a nibble sequence tagged with
(is-leaf?, is-odd-length?) (`NibbleSlice::encoded`). The header byte carries
the leaf flag (0x20), the odd flag (0x10) and, when odd, the first nibble. -/
def encodeNibbles (nibs : List Nat) (isLeaf : Bool) : List Nat :=
  let flag : Nat := if isLeaf then 32 else 0
  if nibs.length % 2 = 1 then
    (flag + 16 + nibs.headD 0) :: packPairs nibs.tail
  else
    flag :: packPairs nibs

/-- Unpack bytes into nibbles, two per byte. -/
def unpackPairs : List Nat → List Nat
  | [] => []
  | b :: rest => (b / 16 % 16) :: (b % 16) :: unpackPairs rest

/-- Modelled from the spec: decoding of the compact nibble form
(`NibbleSlice::from_encoded`), returning the nibble sequence and the leaf
flag. -/
def decodeNibbles (bytes : List Nat) : List Nat × Bool :=
  match bytes with
  | [] => ([], false)
  | h :: rest =>
    let isLeaf := decide (32 ≤ h % 64)
    let odd := decide (16 ≤ h % 32)
    (if odd then (h % 16) :: unpackPairs rest else unpackPairs rest, isLeaf)

/-- Length of the longest common prefix of two nibble sequences
(`NibbleSlice::common_prefix`). -/
def commonPrefixLen : List Nat → List Nat → Nat
  | a :: as_, b :: bs => if a = b then commonPrefixLen as_ bs + 1 else 0
  | _, _ => 0

/-- Modelled from the spec: `merge_encoded`: concatenate two nibble sequences
and encode the result with the given leaf flag. -/
def mergeEncoded (a b : List Nat) (isLeaf : Bool) : List Nat :=
  encodeNibbles (a ++ b) isLeaf

/-! ## Values and hashes -/

/-- Modelled from the spec: a 32-byte content hash; `hashBytes` is
deterministic and injective (idealizing collision resistance), and is kept
distinct from the default (all-zero) hash by its leading tag byte. -/
def hashBytes (b : List Nat) : List Nat := 1 :: b

/-- Modelled from the spec: the all-zero default hash (`CryptoHash::default`),
used as the root hash of an empty trie. -/
def zeroHash : List Nat := List.replicate 32 0

/-- Modelled from the spec: `ValueRef`: a pair (hash, length) referring to a
value stored elsewhere. -/
structure ValueRef' where
  hash : List Nat
  length : Nat
deriving Repr, DecidableEq

/-- Modelled from the spec: `FlatStateValue`: either an inline small value or
a reference (hash, length). -/
inductive FlatStateValue where
  | inlined (v : List Nat)
  | ref (r : ValueRef')
deriving Repr, DecidableEq

/-- Byte length of a value (`HasValueLength::len` / `value_len`). -/
def FlatStateValue.value_len : FlatStateValue → Nat
  | .inlined v => v.length
  | .ref r => r.length

/-- Modelled from the spec: `to_value_ref`: the (hash, length) view of a
value. -/
def FlatStateValue.to_value_ref : FlatStateValue → ValueRef'
  | .inlined v => { hash := hashBytes v, length := v.length }
  | .ref r => r

/-- Modelled from the spec: `FlatStateValue::on_disk`: small values are kept
inline, larger values become references. -/
def FlatStateValue.on_disk (v : List Nat) : FlatStateValue :=
  if v.length ≤ 4000 then .inlined v
  else .ref { hash := hashBytes v, length := v.length }

/-! ## Wire nodes and the serializer -/

/-- The canonical wire node built for hashing (`RawTrieNode`): leaf,
extension, or branch (with the optional value ref). -/
inductive RawTrieNode where
  | leafR (extension : List Nat) (valueRef : ValueRef')
  | extensionR (extension : List Nat) (childHash : List Nat)
  | branchR (childHashes : List (Option (List Nat))) (valueRef : Option ValueRef')
deriving Repr, DecidableEq

/-- Serialize an optional child hash. -/
def serOptHash : Option (List Nat) → List Nat
  | none => [0]
  | some h => 1 :: h

/-- Modelled from the spec: the deterministic binary serializer for
`(wire node, memory_usage)` (`borsh::to_vec` of `RawTrieNodeWithSize`), with
tags leaf=0, extension=1, branch=2, branch-with-value=3 (§6). -/
def serializeRawNodeWithSize : RawTrieNode → Nat → List Nat
  | .leafR ext vr, mem =>
    0 :: ext.length :: (ext ++ vr.length :: vr.hash ++ [mem])
  | .extensionR ext ch, mem =>
    1 :: ext.length :: (ext ++ ch ++ [mem])
  | .branchR chs vr, mem =>
    (match vr with | none => 2 | some _ => 3) ::
      (chs.flatMap serOptHash ++
        (match vr with | none => [] | some v => v.length :: v.hash) ++ [mem])

/-! ## The arena of immutable nodes

Modelled from the spec: the arena is an external collaborator exposing
`view(handle)` (variant, extension bytes, value-ref, children handles),
`handle.hash`, `handle.memory_usage`, `handle.serialized_bytes` (§6).
Handles are indices; in a well-formed arena every child handle is smaller
than its parent's handle (children are allocated before parents), which
makes hash, memory usage and serialized bytes computable. -/

/-- Modelled from the spec: the view of one immutable arena node
(`MemTrieNodeView`, with `Branch`/`BranchWithValue` merged as an optional
value). Extensions are stored in encoded byte form. -/
inductive ArenaNode where
  | leafA (extension : List Nat) (value : FlatStateValue)
  | extensionA (extension : List Nat) (child : Nat)
  | branchA (children : List (Option Nat)) (value : Option FlatStateValue)
deriving Repr, DecidableEq

/-- Modelled from the spec: the immutable arena: a table of nodes indexed by
handle. -/
structure Arena where
  nodes : List ArenaNode
deriving Repr, DecidableEq

/-- Errors of the embedded engine: `storage` is the recoverable storage fault
(§7); `panicE` is a programmer-error abort (`assert!`/`expect`/index panic);
`leafSquash` is specifically the `unreachable!()` arm for a leaf in
`squash_node`; `fuelE` is exhaustion of the embedding's recursion fuel. -/
inductive TErr where
  | storage
  | panicE
  | leafSquash
  | fuelE
deriving Repr, DecidableEq

/-- Modelled from the spec: computes the `(hash, memory_usage, serialized)`
triple of an arena node, recursively over children (children handles are
smaller in a well-formed arena, so `handle + 1` fuel suffices). Mirrors the
§3 cost model and the §4.5 wire-node construction. -/
def arenaInfo (A : Arena) : Nat → Nat → Except TErr (List Nat × Nat × List Nat)
  | 0, _ => .error .fuelE
  | fuel + 1, h =>
    match A.nodes.get? h with
    | none => .error .storage
    | some (.leafA ext value) =>
      let memUsage := u64add (u64add TRIE_COSTS.node_cost
          (u64mul ext.length TRIE_COSTS.byte_of_key))
        (u64add (u64mul value.value_len TRIE_COSTS.byte_of_value) TRIE_COSTS.node_cost)
      let ser := serializeRawNodeWithSize (.leafR ext value.to_value_ref) memUsage
      .ok (hashBytes ser, memUsage, ser)
    | some (.extensionA ext child) =>
      match arenaInfo A fuel child with
      | .error e => .error e
      | .ok (childHash, childMem, _) =>
        let memUsage := u64add (u64add TRIE_COSTS.node_cost
            (u64mul ext.length TRIE_COSTS.byte_of_key)) childMem
        let ser := serializeRawNodeWithSize (.extensionR ext childHash) memUsage
        .ok (hashBytes ser, memUsage, ser)
    | some (.branchA children value) =>
      match children.foldlM (fun (acc : List (Option (List Nat)) × Nat) c =>
          (match c with
          | none => .ok (acc.1 ++ [none], acc.2)
          | some ch =>
            (arenaInfo A fuel ch).map (fun info =>
              (acc.1 ++ [some info.1], u64add acc.2 info.2.1))
          : Except TErr (List (Option (List Nat)) × Nat)))
          ([], TRIE_COSTS.node_cost) with
      | .error e => .error e
      | .ok p =>
        let valueRef := value.map FlatStateValue.to_value_ref
        let memUsage := u64add p.2
          (match valueRef with
            | some vr => u64add (u64mul vr.length TRIE_COSTS.byte_of_value) TRIE_COSTS.node_cost
            | none => 0)
        let ser := serializeRawNodeWithSize (.branchR p.1 valueRef) memUsage
        .ok (hashBytes ser, memUsage, ser)

/-! ## The node model (`GenericNodeOrIndex`, `GenericUpdatedTrieNode`) -/

/-- `GenericNodeOrIndex`: an old node (arena handle) or an updated node
(index into the update buffer). -/
inductive NodeOrIndex where
  | Old (ptr : Nat)
  | Updated (id : Nat)
deriving Repr, DecidableEq

/-- `GenericUpdatedTrieNode` at the memtrie instantiation
(`UpdatedMemTrieNode`): Empty, Leaf, Extension, or Branch. Extensions are
stored in encoded byte form, as in the source. -/
inductive UpdatedMemTrieNode where
  | Empty
  | Leaf (extension : List Nat) (value : FlatStateValue)
  | Extension (extension : List Nat) (child : NodeOrIndex)
  | Branch (children : List (Option NodeOrIndex)) (value : Option FlatStateValue)
deriving Repr, DecidableEq

/-- `GenericUpdatedTrieNode::memory_usage_value`. -/
def memory_usage_value (value_length : Nat) : Nat :=
  u64add (u64mul value_length TRIE_COSTS.byte_of_value) TRIE_COSTS.node_cost

/-- `GenericUpdatedTrieNode::memory_usage_direct`: the memory usage of the
single node in trie cost terms. -/
def UpdatedMemTrieNode.memory_usage_direct : UpdatedMemTrieNode → Nat
  | .Empty => 0
  | .Leaf extension value =>
    u64add (u64add TRIE_COSTS.node_cost (u64mul extension.length TRIE_COSTS.byte_of_key))
      (memory_usage_value value.value_len)
  | .Branch _ value =>
    u64add TRIE_COSTS.node_cost
      (match value with | none => 0 | some v => memory_usage_value v.value_len)
  | .Extension extension _ =>
    u64add TRIE_COSTS.node_cost (u64mul extension.length TRIE_COSTS.byte_of_key)

/-- `UpdatedMemTrieNode::from_existing_node_view`: the updated node equivalent
to an immutable arena node; children stay `Old`. -/
def from_existing_node_view : ArenaNode → UpdatedMemTrieNode
  | .leafA extension value => .Leaf extension value
  | .branchA children value => .Branch (children.map (Option.map NodeOrIndex.Old)) value
  | .extensionA extension child => .Extension extension (.Old child)

/-! ## Refcount deltas and accessed nodes

Modelled from the spec: `refcount_changes` is "a mapping from content-hash →
(signed count, payload-bytes-for-positive-deltas)"; `accesses` maps
content-hash → serialized node bytes and content-hash → value payload
(§4.1). Maps are association lists keyed by hash. -/

/-- Modelled from the spec: the refcount-delta map (`TrieRefcountDeltaMap`). -/
def RcMap : Type := List (List Nat × Int × Option (List Nat))

instance : DecidableEq RcMap := by unfold RcMap; infer_instance

/-- Modelled from the spec: add `rc` to a hash's refcount, attaching the
payload (`TrieRefcountDeltaMap::add`). -/
def rcAdd (m : RcMap) (h : List Nat) (payload : List Nat) (rc : Int) : RcMap :=
  match m with
  | [] => [(h, rc, some payload)]
  | (k, d, p) :: rest =>
    if k = h then (k, d + rc, some payload) :: rest
    else (k, d, p) :: rcAdd rest h payload rc

/-- Modelled from the spec: subtract `rc` from a hash's refcount
(`TrieRefcountDeltaMap::subtract`). -/
def rcSub (m : RcMap) (h : List Nat) (rc : Int) : RcMap :=
  match m with
  | [] => [(h, -rc, none)]
  | (k, d, p) :: rest =>
    if k = h then (k, d - rc, p) :: rest
    else (k, d, p) :: rcSub rest h rc

/-- Net refcount delta recorded for a hash. -/
def rcLookup (m : RcMap) (h : List Nat) : Int :=
  match m with
  | [] => 0
  | (k, d, _) :: rest => if k = h then d else rcLookup rest h

/-- Modelled from the spec: split the delta map into positive (insertions,
with payloads) and negative (deletions) halves
(`TrieRefcountDeltaMap::into_changes`). -/
def rcIntoChanges (m : RcMap) : List (List Nat × List Nat × Int) × List (List Nat × Int) :=
  (m.filterMap (fun e =>
      if e.2.1 > 0 then some (e.1, (e.2.2.getD []), e.2.1) else none),
   m.filterMap (fun e => if e.2.1 < 0 then some (e.1, -e.2.1) else none))

/-- Hash-keyed association map with insert-or-replace (`HashMap::insert`). -/
def accInsert {α : Type} (m : List (List Nat × α)) (k : List Nat) (v : α) :
    List (List Nat × α) :=
  match m with
  | [] => [(k, v)]
  | (k', v') :: rest => if k' = k then (k, v) :: rest else (k', v') :: accInsert rest k v

/-- Value associated with a key in an association map. -/
def accLookup {α : Type} (m : List (List Nat × α)) (k : List Nat) : Option α :=
  match m with
  | [] => none
  | (k', v') :: rest => if k' = k then some v' else accLookup rest k

/-- `TrieAccesses`: values and internal nodes accessed during the update. -/
structure TrieAccesses where
  nodes : List (List Nat × List Nat)
  values : List (List Nat × FlatStateValue)
deriving Repr, DecidableEq

/-- `TrieChangesTracker`: refcount deltas plus accessed nodes and values. -/
structure TrieChangesTracker where
  refcount_changes : RcMap
  accesses : TrieAccesses
deriving DecidableEq

/-- `MemTrieUpdate`: the session state — original root, the update buffer
(slot 0 is the working root; `none` marks a transient hole), and the optional
change tracker. The arena is passed to each operation separately. -/
structure UpdState where
  root : Option Nat
  updated_nodes : List (Option UpdatedMemTrieNode)
  tracker : Option TrieChangesTracker
deriving DecidableEq

/-! ## Update buffer operations -/

/-- `MemTrieUpdate::take_node`: removes the node from a slot, leaving a hole;
taking a hole (or a missing slot) is a programmer error. -/
def take_node (s : UpdState) (index : Nat) : Except TErr (UpdatedMemTrieNode × UpdState) :=
  match s.updated_nodes.get? index with
  | some (some n) =>
    .ok (n, { s with updated_nodes := s.updated_nodes.set index none })
  | _ => .error .panicE

/-- `MemTrieUpdate::place_node`: restores a slot; placing over a non-hole is
a programmer error. -/
def place_node (s : UpdState) (index : Nat) (node : UpdatedMemTrieNode) :
    Except TErr UpdState :=
  match s.updated_nodes.get? index with
  | some none => .ok { s with updated_nodes := s.updated_nodes.set index (some node) }
  | _ => .error .panicE

/-- `MemTrieUpdate::new_updated_node`: appends a new updated node, returning
its index. -/
def new_updated_node (s : UpdState) (node : UpdatedMemTrieNode) : Nat × UpdState :=
  (s.updated_nodes.length,
   { s with updated_nodes := s.updated_nodes ++ [some node] })

/-- `generic_get_node` (memtrie instantiation): read-only clone of a slot;
reading a hole is a programmer error. -/
def get_node (s : UpdState) (index : Nat) : Except TErr UpdatedMemTrieNode :=
  match s.updated_nodes.get? index with
  | some (some n) => .ok n
  | _ => .error .panicE

/-- `MemTrieUpdate::convert_existing_to_updated`: allocates a new slot with a
node equivalent to the immutable node; when tracking, records the serialized
payload in the accessed-nodes map and a −1 refcount delta for its hash.
`none` marks the root of an empty trie. -/
def convert_existing_to_updated (A : Arena) (s : UpdState) (node : Option Nat) :
    Except TErr (Nat × UpdState) :=
  match node with
  | none => .ok (new_updated_node s .Empty)
  | some h =>
    match A.nodes.get? h with
    | none => .error .storage
    | some an =>
      match s.tracker with
      | none => .ok (new_updated_node s (from_existing_node_view an))
      | some tr =>
        match arenaInfo A (h + 1) h with
        | .error e => .error e
        | .ok (node_hash, _, ser) =>
          let tr := { refcount_changes := rcSub tr.refcount_changes node_hash 1,
                      accesses := { tr.accesses with
                        nodes := accInsert tr.accesses.nodes node_hash ser } }
          .ok (new_updated_node { s with tracker := some tr }
            (from_existing_node_view an))

/-- `MemTrieUpdate::ensure_updated`: an `Updated` index is returned as is; an
`Old` handle is converted. -/
def ensure_updated (A : Arena) (s : UpdState) (node : NodeOrIndex) :
    Except TErr (Nat × UpdState) :=
  match node with
  | .Old node_id => convert_existing_to_updated A s (some node_id)
  | .Updated node_id => .ok (node_id, s)

/-- `MemTrieUpdate::add_refcount_to_value`: +1 for the value's hash with the
payload attached; the payload must be present when tracking. -/
def add_refcount_to_value (s : UpdState) (h : List Nat) (value : Option (List Nat)) :
    Except TErr UpdState :=
  match s.tracker with
  | none => .ok s
  | some tr =>
    match value with
    | none => .error .panicE
    | some v =>
      let tr' := { tr with refcount_changes := rcAdd tr.refcount_changes h v 1 }
      .ok { s with tracker := some tr' }

/-- `MemTrieUpdate::subtract_refcount_for_value`: −1 for the value's hash,
recording the value in the accessed-values map. -/
def subtract_refcount_for_value (s : UpdState) (value : FlatStateValue) : UpdState :=
  match s.tracker with
  | none => s
  | some tr =>
    let h := value.to_value_ref.hash
    let tr' : TrieChangesTracker :=
      { refcount_changes := rcSub tr.refcount_changes h 1,
        accesses := { tr.accesses with
          values := accInsert tr.accesses.values h value } }
    { s with tracker := some tr' }

/-- `MemTrieUpdate::new`: fresh session; converts the original root into slot
0 (asserting that the assigned slot is 0). -/
def newUpdate (A : Arena) (root : Option Nat) (track : Bool) : Except TErr UpdState := do
  let s0 : UpdState :=
    { root := root, updated_nodes := [],
      tracker := if track then
          some { refcount_changes := [], accesses := { nodes := [], values := [] } }
        else none }
  let (id, s) ← convert_existing_to_updated A s0 root
  if id = 0 then pure s else .error .panicE

/-! ## Mutator: insertion -/

/-- Child lookup in a branch's 16-entry array; out of bounds is the Rust
index panic. -/
def childGet (children : List (Option NodeOrIndex)) (i : Nat) :
    Except TErr (Option NodeOrIndex) :=
  match children.get? i with
  | some c => .ok c
  | none => .error .panicE

/-- Child update in a branch's 16-entry array; out of bounds is the Rust
index panic. -/
def childSet (children : List (Option NodeOrIndex)) (i : Nat) (c : Option NodeOrIndex) :
    Except TErr (List (Option NodeOrIndex)) :=
  if i < children.length then .ok (children.set i c) else .error .panicE

/-- The fresh all-`None` children array (`Box::<[_; 16]>::default()`). -/
def emptyChildren : List (Option NodeOrIndex) := List.replicate 16 none

/-- `MemTrieUpdate::insert_impl`: the iterative insertion descent, as a
fuel-indexed recursion. `node_id` and `partialKey` are the loop state
(starting at slot 0 with the full nibble expansion of the key). -/
def insert_impl (A : Arena) :
    Nat → UpdState → Nat → List Nat → FlatStateValue → Option (List Nat) →
    Except TErr UpdState
  | 0, _, _, _, _, _ => .error .fuelE
  | fuel + 1, s, node_id, partialKey, flat_value, value => do
    let value_ref := flat_value.to_value_ref
    let (node, s) ← take_node s node_id
    match node with
    | .Empty => do
      -- There was no node here, create a new leaf.
      let s ← place_node s node_id (.Leaf (encodeNibbles partialKey true) flat_value)
      add_refcount_to_value s value_ref.hash value
    | .Branch children old_value =>
      if partialKey.isEmpty then do
        -- This branch node is exactly where the value should be added.
        let s := match old_value with
          | some v => subtract_refcount_for_value s v
          | none => s
        let s ← place_node s node_id (.Branch children (some flat_value))
        add_refcount_to_value s value_ref.hash value
      else do
        -- Continue descending into the branch, possibly adding a new child.
        let idx := partialKey.headD 0
        let child ← childGet children idx
        let (new_node_id, s) ← match child with
          | some c => ensure_updated A s c
          | none => pure (new_updated_node s .Empty)
        let new_children ← childSet children idx (some (.Updated new_node_id))
        let s ← place_node s node_id (.Branch new_children old_value)
        insert_impl A fuel s new_node_id (partialKey.drop 1) flat_value value
    | .Leaf extension old_value =>
      let existing_key := (decodeNibbles extension).fst
      let common_prefix := commonPrefixLen partialKey existing_key
      if common_prefix = existing_key.length ∧ common_prefix = partialKey.length then do
        -- We're at the exact leaf. Rewrite the value at this leaf.
        let s := subtract_refcount_for_value s old_value
        let s ← place_node s node_id (.Leaf extension flat_value)
        add_refcount_to_value s value_ref.hash value
      else if common_prefix = 0 then do
        -- Convert the leaf to an equivalent branch.
        if existing_key.isEmpty then do
          -- Existing key being empty means the old value now lives at the branch.
          let s ← place_node s node_id (.Branch emptyChildren (some old_value))
          insert_impl A fuel s node_id partialKey flat_value value
        else do
          let branch_idx := existing_key.headD 0
          let new_extension := encodeNibbles (existing_key.drop 1) true
          let (new_node_id, s) := new_updated_node s (.Leaf new_extension old_value)
          let children ← childSet emptyChildren branch_idx
            (some (.Updated new_node_id))
          let s ← place_node s node_id (.Branch children none)
          insert_impl A fuel s node_id partialKey flat_value value
      else do
        -- Split this leaf into an extension plus a leaf, and descend into the leaf.
        let (new_node_id, s) := new_updated_node s
          (.Leaf (encodeNibbles (existing_key.drop common_prefix) true) old_value)
        let s ← place_node s node_id
          (.Extension (encodeNibbles (partialKey.take common_prefix) false)
            (.Updated new_node_id))
        insert_impl A fuel s new_node_id (partialKey.drop common_prefix) flat_value value
    | .Extension extension old_child =>
      let existing_key := (decodeNibbles extension).fst
      let common_prefix := commonPrefixLen partialKey existing_key
      if common_prefix = 0 then do
        -- Split Extension to Branch.
        match existing_key with
        | [] => .error .panicE
        | idx :: _ => do
          let (child, s) ←
            if existing_key.length = 1 then pure (old_child, s)
            else
              let (inner_id, s) := new_updated_node s
                (.Extension (encodeNibbles (existing_key.drop 1) false) old_child)
              pure (NodeOrIndex.Updated inner_id, s)
          let children ← childSet emptyChildren idx (some child)
          let s ← place_node s node_id (.Branch children none)
          -- Start over from the same position.
          insert_impl A fuel s node_id partialKey flat_value value
      else if common_prefix = existing_key.length then do
        -- Dereference child and descend into it.
        let (child, s) ← ensure_updated A s old_child
        let s ← place_node s node_id (.Extension extension (.Updated child))
        insert_impl A fuel s child (partialKey.drop common_prefix) flat_value value
      else do
        -- Partially shared prefix. Convert to shorter extension and descend into it.
        let (inner_child_node_id, s) := new_updated_node s
          (.Extension (encodeNibbles (existing_key.drop common_prefix) false) old_child)
        let s ← place_node s node_id
          (.Extension (encodeNibbles (existing_key.take common_prefix) false)
            (.Updated inner_child_node_id))
        insert_impl A fuel s inner_child_node_id (partialKey.drop common_prefix)
          flat_value value

/-- `MemTrieUpdate::insert`: inserts a key/value pair, tracking the on-disk
value payload. -/
def insert (A : Arena) (fuel : Nat) (s : UpdState) (key value : List Nat) :
    Except TErr UpdState :=
  insert_impl A fuel s 0 (nibblesOfBytes key) (FlatStateValue.on_disk value) (some value)

/-- `MemTrieUpdate::insert_memtrie_only`: inserts updating the in-memory trie
only. -/
def insert_memtrie_only (A : Arena) (fuel : Nat) (s : UpdState) (key : List Nat)
    (value : FlatStateValue) : Except TErr UpdState :=
  insert_impl A fuel s 0 (nibblesOfBytes key) value none

/-! ## Mutator: squash -/

/-- One child of the clearing step of `squash_node` on a branch: an
`Updated` child whose slot holds `Empty` is cleared to `None`. -/
def clearOneChild (s : UpdState) (c : Option NodeOrIndex) :
    Except TErr (Option NodeOrIndex) :=
  match c with
  | some (.Updated j) =>
    match get_node s j with
    | .error e => .error e
    | .ok .Empty => .ok none
    | .ok _ => .ok c
  | _ => .ok c

/-- The child-clearing step of `squash_node` on a branch: children that are
`Updated` slots holding `Empty` are removed. -/
def clearEmptyChildren (s : UpdState) :
    List (Option NodeOrIndex) → Except TErr (List (Option NodeOrIndex))
  | [] => .ok []
  | c :: rest =>
    match clearOneChild s c with
    | .error e => .error e
    | .ok c' =>
      match clearEmptyChildren s rest with
      | .error e => .error e
      | .ok rest' => .ok (c' :: rest')

/-- `GenericTrieUpdateSquash::extend_child` (memtrie instantiation): places
an extension at `node_id` squashed against its child — an empty child
propagates Empty, a leaf child merges into a longer leaf, a branch child
stays behind an extension, an extension child merges into a longer
extension. -/
def extend_child (A : Arena) (s : UpdState) (node_id : Nat) (extension : List Nat)
    (child_id : NodeOrIndex) : Except TErr UpdState := do
  let (child_id, s) ← ensure_updated A s child_id
  let (node, s) ← take_node s child_id
  match node with
  | .Empty => place_node s node_id .Empty
  | .Leaf child_extension value =>
    let child_nibbles := (decodeNibbles child_extension).fst
    let merged := mergeEncoded (decodeNibbles extension).fst child_nibbles true
    place_node s node_id (.Leaf merged value)
  | .Branch children value => do
    let s ← place_node s child_id (.Branch children value)
    place_node s node_id (.Extension extension (.Updated child_id))
  | .Extension child_extension inner_child =>
    let child_nibbles := (decodeNibbles child_extension).fst
    let merged := mergeEncoded (decodeNibbles extension).fst child_nibbles false
    place_node s node_id (.Extension merged inner_child)

/-- `GenericTrieUpdateSquash::squash_node` (memtrie instantiation): restores
canonical form for one slot after deletion. A leaf can never be squashed
(`unreachable!()`, modelled as the `leafSquash` error). -/
def squash_node (A : Arena) (s : UpdState) (node_id : Nat) : Except TErr UpdState := do
  let (node, s) ← take_node s node_id
  match node with
  | .Empty =>
    -- Empty node will be absorbed by its parent node, so defer that.
    place_node s node_id .Empty
  | .Leaf _ _ => .error .leafSquash
  | .Branch children value => do
    -- Remove any children that are now empty (removed).
    let children ← clearEmptyChildren s children
    let num_children := (children.filter Option.isSome).length
    if num_children = 0 then
      match value with
      | none => place_node s node_id .Empty
      | some value =>
        -- Branch with zero children and a value becomes leaf.
        place_node s node_id
          (.Leaf (encodeNibbles (nibblesOfBytes []) true) value)
    else if num_children = 1 ∧ value.isNone then do
      -- Branch with 1 child but no value becomes extension.
      match (children.enum.filterMap
          (fun p => p.2.map (fun node => (p.1, node)))).head? with
      | none => .error .panicE
      | some (idx, child) =>
        let extension := encodeNibbles
          ((nibblesOfBytes [idx * 16 % 256]).take 1) false
        extend_child A s node_id extension child
    else
      -- Branch with more than 1 children stays branch.
      place_node s node_id (.Branch children value)
  | .Extension extension child => extend_child A s node_id extension child

/-! ## Mutator: deletion -/

/-- The descent loop of `MemTrieUpdate::delete`, as a fuel-indexed recursion.
Returns the state together with `some path` when the key was found and
removed (the slots visited, to be squashed child-first), or `none` when the
key is absent (the early-return no-op). -/
def deleteLoop (A : Arena) :
    Nat → UpdState → Nat → List Nat → List Nat →
    Except TErr (UpdState × Option (List Nat))
  | 0, _, _, _, _ => .error .fuelE
  | fuel + 1, s, node_id, partialKey, path => do
    let path := path ++ [node_id]
    let (node, s) ← take_node s node_id
    match node with
    | .Empty => do
      -- Nothing to delete.
      let s ← place_node s node_id .Empty
      pure (s, none)
    | .Leaf extension value =>
      if (decodeNibbles extension).fst = partialKey then do
        let s := subtract_refcount_for_value s value
        let s ← place_node s node_id .Empty
        pure (s, some path)
      else do
        -- Key being deleted doesn't exist.
        let s ← place_node s node_id (.Leaf extension value)
        pure (s, none)
    | .Branch old_children value =>
      if partialKey.isEmpty then
        match value with
        | none => do
          -- Key being deleted doesn't exist.
          let s ← place_node s node_id (.Branch old_children value)
          pure (s, none)
        | some v => do
          let s := subtract_refcount_for_value s v
          let s ← place_node s node_id (.Branch old_children none)
          -- If needed, the branch will be squashed at the end.
          pure (s, some path)
      else do
        let idx := partialKey.headD 0
        let child ← childGet old_children idx
        match child with
        | none => do
          -- Key being deleted doesn't exist.
          let s ← place_node s node_id (.Branch old_children value)
          pure (s, none)
        | some old_child_id => do
          let (new_child_id, s) ← ensure_updated A s old_child_id
          let new_children ← childSet old_children idx
            (some (.Updated new_child_id))
          let s ← place_node s node_id (.Branch new_children value)
          deleteLoop A fuel s new_child_id (partialKey.drop 1) path
    | .Extension extension child =>
      let extension_nibbles := (decodeNibbles extension).fst
      let common_prefix := commonPrefixLen extension_nibbles partialKey
      let existing_len := extension_nibbles.length
      if common_prefix = existing_len then do
        let (new_child_id, s) ← ensure_updated A s child
        let s ← place_node s node_id
          (.Extension extension (.Updated new_child_id))
        deleteLoop A fuel s new_child_id (partialKey.drop existing_len) path
      else do
        -- Key being deleted doesn't exist.
        let s ← place_node s node_id (.Extension extension child)
        pure (s, none)

/-- The squash pass at the end of `delete`: squash every slot on the path, in
reverse (child-first) order. -/
def squashPath (A : Arena) (s : UpdState) (revPath : List Nat) : Except TErr UpdState :=
  revPath.foldlM (fun s node_id => squash_node A s node_id) s

/-- `MemTrieUpdate::delete`: descends to the key, removes it if present
(deleting an absent key is a no-op), then squashes the visited path
child-first. -/
def delete (A : Arena) (fuel : Nat) (s : UpdState) (key : List Nat) :
    Except TErr UpdState := do
  let (s, found) ← deleteLoop A fuel s 0 (nibblesOfBytes key) []
  match found with
  | none => pure s
  | some path => squashPath A s path.reverse

/-! ## Finalizer -/

/-- `MemTrieUpdate::post_order_traverse_updated_nodes`: children-first
traversal of the update buffer from a slot, appending slot ids; `Old`
children and non-`Updated` references are skipped; an `Empty` node is
permitted only at the root (slot 0) and contributes nothing. -/
def post_order_traverse_updated_nodes (s : UpdState) :
    Nat → Nat → List Nat → Except TErr (List Nat)
  | 0, _, _ => .error .fuelE
  | fuel + 1, node_id, ordered_nodes => do
    let node ← get_node s node_id
    match node with
    | .Empty =>
      -- Only the root can be empty.
      if node_id = 0 then pure ordered_nodes else .error .panicE
    | .Branch children _ => do
      let ordered_nodes ← children.foldlM (fun acc child =>
        match child with
        | some (.Updated child_node_id) =>
          post_order_traverse_updated_nodes s fuel child_node_id acc
        | _ => pure acc) ordered_nodes
      pure (ordered_nodes ++ [node_id])
    | .Extension _ child =>
      match child with
      | .Updated child_node_id => do
        let ordered_nodes ←
          post_order_traverse_updated_nodes s fuel child_node_id ordered_nodes
        pure (ordered_nodes ++ [node_id])
      | .Old _ => pure (ordered_nodes ++ [node_id])
    | .Leaf _ _ => pure (ordered_nodes ++ [node_id])

/-- `get_hash_and_memory_usage` inside
`compute_hashes_and_serialized_nodes`: an `Updated` child reads the
already-computed entry of the result array; an `Old` child reads hash and
memory usage from the arena. -/
def get_hash_and_memory_usage (A : Arena) (result : List (List Nat × Nat × List Nat)) :
    NodeOrIndex → Except TErr (List Nat × Nat)
  | .Updated node_id =>
    match result.get? node_id with
    | some (h, m, _) => .ok (h, m)
    | none => .error .panicE
  | .Old node_id => (arenaInfo A (node_id + 1) node_id).map (fun i => (i.1, i.2.1))

/-- One child step of the branch arm of the finalizer's per-node
computation: a present child contributes its hash and (wrapped) adds its
memory usage; an absent child contributes `none`. -/
def branchChildStep (A : Arena) (result : List (List Nat × Nat × List Nat))
    (acc : List (Option (List Nat)) × Nat) (child : Option NodeOrIndex) :
    Except TErr (List (Option (List Nat)) × Nat) :=
  match child with
  | some c => do
    let (child_hash, child_memory_usage) ← get_hash_and_memory_usage A result c
    pure (acc.1 ++ [some child_hash], u64add acc.2 child_memory_usage)
  | none => pure (acc.1 ++ [none], acc.2)

/-- The per-node body of `compute_hashes_and_serialized_nodes`: builds the
wire node and the memory usage (cost model of §3) for one updated node. An
`Empty` node here is unreachable. -/
def computeOneNode (A : Arena) (result : List (List Nat × Nat × List Nat)) :
    UpdatedMemTrieNode → Except TErr (RawTrieNode × Nat)
  | .Empty => .error .panicE
  | .Branch children value => do
    let (child_hashes, memory_usage) ← children.foldlM
      (branchChildStep A result) ([], TRIE_COSTS.node_cost)
    let value_ref := value.map FlatStateValue.to_value_ref
    let memory_usage := u64add memory_usage (match value_ref with
      | some vr => u64add (u64mul vr.length TRIE_COSTS.byte_of_value) TRIE_COSTS.node_cost
      | none => 0)
    pure (.branchR child_hashes value_ref, memory_usage)
  | .Extension extension child => do
    let (child_hash, child_memory_usage) ← get_hash_and_memory_usage A result child
    let memory_usage := u64add
      (u64add TRIE_COSTS.node_cost (u64mul extension.length TRIE_COSTS.byte_of_key))
      child_memory_usage
    pure (.extensionR extension child_hash, memory_usage)
  | .Leaf extension value =>
    let memory_usage := u64add (u64add
      (u64add TRIE_COSTS.node_cost (u64mul extension.length TRIE_COSTS.byte_of_key))
      (u64mul value.value_len TRIE_COSTS.byte_of_value)) TRIE_COSTS.node_cost
    pure (.leafR extension value.to_value_ref, memory_usage)

/-- One step of the hashing loop of `compute_hashes_and_serialized_nodes`:
computes the wire node, memory usage, serialized form and hash of one
ordered node and stores them at its slot in the result array. -/
def computeFoldStep (A : Arena) (s : UpdState)
    (result : List (List Nat × Nat × List Nat)) (node_id : Nat) :
    Except TErr (List (List Nat × Nat × List Nat)) := do
  let node ← get_node s node_id
  let (raw_node, memory_usage) ← computeOneNode A result node
  let node_serialized := serializeRawNodeWithSize raw_node memory_usage
  let node_hash := hashBytes node_serialized
  if node_id < result.length then
    pure (result.set node_id (node_hash, memory_usage, node_serialized))
  else .error .panicE

/-- One step of the collection loop of
`compute_hashes_and_serialized_nodes`: reads a slot's computed entry,
appends `(slot, hash, serialized)`, and takes the serialized buffer out of
the array (as `std::mem::take` does). -/
def collectStep
    (acc : List (Nat × List Nat × List Nat) × List (List Nat × Nat × List Nat))
    (node_id : Nat) :
    Except TErr (List (Nat × List Nat × List Nat) × List (List Nat × Nat × List Nat)) :=
  match acc.2.get? node_id with
  | some (h, m, ser) =>
    .ok (acc.1 ++ [(node_id, h, ser)], acc.2.set node_id (h, m, []))
  | none => .error .panicE

/-- `MemTrieUpdate::compute_hashes_and_serialized_nodes`: computes, in
post-order, each updated node's hash and serialized form into a result array
indexed by slot, then collects `(slot, hash, serialized)` per ordered node. -/
def compute_hashes_and_serialized_nodes (A : Arena) (s : UpdState)
    (ordered_nodes : List Nat) :
    Except TErr (List (Nat × List Nat × List Nat)) := do
  let init : List (List Nat × Nat × List Nat) :=
    List.replicate s.updated_nodes.length (zeroHash, 0, [])
  let result ← ordered_nodes.foldlM (computeFoldStep A s) init
  let out ← ordered_nodes.foldlM collectStep ([], result)
  pure out.1

/-- `MemTrieChanges`: the ordered `(slot, hash)` list plus the updated-node
table. -/
structure MemTrieChanges' where
  node_ids_with_hashes : List (Nat × List Nat)
  updated_nodes : List (Option UpdatedMemTrieNode)
deriving DecidableEq

/-- `TrieChanges`: old and new root, refcount insertions and deletions, and
the memtrie changes. -/
structure TrieChanges' where
  old_root : List Nat
  new_root : List Nat
  insertions : List (List Nat × List Nat × Int)
  deletions : List (List Nat × Int)
  mem_trie_changes : Option MemTrieChanges'
deriving DecidableEq

/-- `MemTrieUpdate::to_mem_trie_changes_internal`: post-order traversal from
slot 0, hash computation, and assembly of `MemTrieChanges` plus the
`(hash, serialized)` list of new nodes. -/
def to_mem_trie_changes_internal (A : Arena) (fuel : Nat) (s : UpdState) :
    Except TErr (MemTrieChanges' × List (List Nat × List Nat)) := do
  let ordered_nodes ← post_order_traverse_updated_nodes s fuel 0 []
  let hashes_and_serialized_nodes ←
    compute_hashes_and_serialized_nodes A s ordered_nodes
  pure ({ node_ids_with_hashes :=
            hashes_and_serialized_nodes.map (fun t => (t.1, t.2.1)),
          updated_nodes := s.updated_nodes },
        hashes_and_serialized_nodes.map (fun t => (t.2.1, t.2.2)))

/-- `MemTrieUpdate::to_mem_trie_changes_only`. -/
def to_mem_trie_changes_only (A : Arena) (fuel : Nat) (s : UpdState) :
    Except TErr MemTrieChanges' :=
  (to_mem_trie_changes_internal A fuel s).map (fun p => p.1)

/-- `MemTrieUpdate::to_trie_changes`: emits `TrieChanges` (adding the +1
refcount for every newly serialized node and splitting the delta map) and
`TrieAccesses`. The session must have been tracking changes. -/
def to_trie_changes (A : Arena) (fuel : Nat) (s : UpdState) :
    Except TErr (TrieChanges' × TrieAccesses) := do
  let old_root ← match s.root with
    | none => pure zeroHash
    | some r => (arenaInfo A (r + 1) r).map (fun i => i.1)
  let tr ← match s.tracker with
    | none => .error .panicE
    | some tr => pure tr
  let s := { s with tracker := none }
  let (mem_trie_changes, hashes_and_serialized) ← to_mem_trie_changes_internal A fuel s
  let refcount_changes := hashes_and_serialized.foldl
    (fun rc p => rcAdd rc p.1 p.2 1) tr.refcount_changes
  let (insertions, deletions) := rcIntoChanges refcount_changes
  pure ({ old_root := old_root,
          new_root :=
            ((mem_trie_changes.node_ids_with_hashes.getLast?).map Prod.snd).getD zeroHash,
          insertions := insertions, deletions := deletions,
          mem_trie_changes := some mem_trie_changes },
        tr.accesses)

/-! ## Whole sessions -/

/-- One batch operation: an insertion or a deletion. -/
inductive Op where
  | ins (key value : List Nat)
  | del (key : List Nat)
deriving Repr, DecidableEq

/-- Apply one operation to the session state. -/
def applyOp (A : Arena) (fuel : Nat) (s : UpdState) : Op → Except TErr UpdState
  | .ins key value => insert A fuel s key value
  | .del key => delete A fuel s key

/-- Run a whole change-tracking session: open against a root, apply the
operations in program order, finalize to `TrieChanges` and `TrieAccesses`. -/
def runSession (A : Arena) (fuel : Nat) (root : Option Nat) (ops : List Op) :
    Except TErr (TrieChanges' × TrieAccesses) := do
  let s ← newUpdate A root true
  let s ← ops.foldlM (fun s op => applyOp A fuel s op) s
  to_trie_changes A fuel s

/-! ## Auxiliary predicates -/

/-- Every child reference of a node is an `Old(_)` arena reference (no
`Updated` children): the conversion of an existing node is non-recursive. -/
def childrenOld : UpdatedMemTrieNode → Bool
  | .Empty => true
  | .Leaf _ _ => true
  | .Extension _ (.Old _) => true
  | .Extension _ (.Updated _) => false
  | .Branch children _ =>
    children.all (fun c => match c with | some (.Updated _) => false | _ => true)

/-- The memory usage a child contributes in the finalizer's computation:
the second component of `get_hash_and_memory_usage` (0 if it fails, which
cannot happen in a successful computation). -/
def childMemOf (A : Arena) (result : List (List Nat × Nat × List Nat))
    (c : NodeOrIndex) : Nat :=
  (((get_hash_and_memory_usage A result c).toOption).map Prod.snd).getD 0

/-- The sum of the memory usages of the present children, in exact
arithmetic. -/
def childMemSum (A : Arena) (result : List (List Nat × Nat × List Nat))
    (cs : List (Option NodeOrIndex)) : Nat :=
  (cs.filterMap id).foldr (fun c acc => childMemOf A result c + acc) 0

/-- Refinement-side definition, written from the spec's words (§3): the
memory usage of a node is `node_cost`, plus (extension length in bytes)
times `byte_of_key` for leaf and extension nodes, plus (value length times
`byte_of_value` plus `node_cost`) when a value is present, plus the sum of
the children's memory usages for branch and extension nodes — in exact
unsigned integer arithmetic. -/
def specMemoryUsage (A : Arena) (result : List (List Nat × Nat × List Nat)) :
    UpdatedMemTrieNode → Nat
  | .Empty => 0
  | .Leaf extension value =>
    TRIE_COSTS.node_cost + extension.length * TRIE_COSTS.byte_of_key +
      (value.value_len * TRIE_COSTS.byte_of_value + TRIE_COSTS.node_cost)
  | .Extension extension child =>
    TRIE_COSTS.node_cost + extension.length * TRIE_COSTS.byte_of_key +
      childMemOf A result child
  | .Branch children value =>
    TRIE_COSTS.node_cost +
      (match value with
        | some v => v.value_len * TRIE_COSTS.byte_of_value + TRIE_COSTS.node_cost
        | none => 0) +
      childMemSum A result children

/-- Whether an updated node is a leaf. -/
def isLeafNode : UpdatedMemTrieNode → Bool
  | .Leaf _ _ => true
  | _ => false

/-- The content condition maintained on not-yet-squashed path slots: the
slot holds a non-leaf node, or is a transient hole. -/
def slotNonLeaf (s : UpdState) (p : Nat) : Prop :=
  (∃ n, s.updated_nodes.get? p = some (some n) ∧ isLeafNode n = false) ∨
  s.updated_nodes.get? p = some none

/-- The content condition established on path slots by a successful
deletion: the slot holds a non-leaf node. -/
def slotPlaced (s : UpdState) (p : Nat) : Prop :=
  ∃ n, s.updated_nodes.get? p = some (some n) ∧ isLeafNode n = false

/-! ## The recursive resolver

`refNodeInfo` resolves one buffer slot to its `(hash, memory usage,
serialized bytes)` triple by direct recursion over `Updated` children —
the same per-node formulas as `computeOneNode`, without the result-array
indirection. It is the specification the array-based finalizer is proved
against. -/

/-- Whether each arena node's children handles precede it (children are
allocated before parents), as the spec's arena contract requires. -/
def wfArena (A : Arena) : Prop :=
  ∀ h, match A.nodes.get? h with
    | none => True
    | some (.leafA _ _) => True
    | some (.extensionA _ c) => c < h
    | some (.branchA cs _) => ∀ c ∈ cs.filterMap id, c < h

/-- The `(hash, memory usage, serialized)` triple of the node in one buffer
slot, resolved recursively (fuel-indexed). An `Empty` or missing slot is a
programmer error (matching the finalizer's `unreachable!()` and the
traversal's assertion). -/
def refNodeInfo (A : Arena) (nodes : List (Option UpdatedMemTrieNode)) :
    Nat → Nat → Except TErr (List Nat × Nat × List Nat)
  | 0, _ => .error .fuelE
  | fuel + 1, i =>
    match nodes.get? i with
    | some (some (.Leaf e v)) =>
      let memory_usage := u64add (u64add
        (u64add TRIE_COSTS.node_cost (u64mul e.length TRIE_COSTS.byte_of_key))
        (u64mul v.value_len TRIE_COSTS.byte_of_value)) TRIE_COSTS.node_cost
      let ser := serializeRawNodeWithSize (.leafR e v.to_value_ref) memory_usage
      .ok (hashBytes ser, memory_usage, ser)
    | some (some (.Extension e c)) =>
      match (match c with
        | .Old h => (arenaInfo A (h + 1) h).map (fun t => (t.1, t.2.1))
        | .Updated j => (refNodeInfo A nodes fuel j).map (fun t => (t.1, t.2.1))
        : Except TErr (List Nat × Nat)) with
      | .error e2 => .error e2
      | .ok p =>
        let memory_usage := u64add (u64add TRIE_COSTS.node_cost
          (u64mul e.length TRIE_COSTS.byte_of_key)) p.2
        let ser := serializeRawNodeWithSize (.extensionR e p.1) memory_usage
        .ok (hashBytes ser, memory_usage, ser)
    | some (some (.Branch cs v)) =>
      match cs.foldlM (fun (acc : List (Option (List Nat)) × Nat) child =>
          (match child with
          | some (.Old h) => (arenaInfo A (h + 1) h).map
              (fun t => (acc.1 ++ [some t.1], u64add acc.2 t.2.1))
          | some (.Updated j) => (refNodeInfo A nodes fuel j).map
              (fun t => (acc.1 ++ [some t.1], u64add acc.2 t.2.1))
          | none => .ok (acc.1 ++ [none], acc.2)
          : Except TErr (List (Option (List Nat)) × Nat)))
          ([], TRIE_COSTS.node_cost) with
      | .error e2 => .error e2
      | .ok p =>
        let value_ref := v.map FlatStateValue.to_value_ref
        let memory_usage := u64add p.2 (match value_ref with
          | some vr => u64add (u64mul vr.length TRIE_COSTS.byte_of_value)
              TRIE_COSTS.node_cost
          | none => 0)
        let ser := serializeRawNodeWithSize (.branchR p.1 value_ref) memory_usage
        .ok (hashBytes ser, memory_usage, ser)
    | _ => .error .panicE

/-! ## Conversion steps and traversal order -/

/-- Children-before-parents: every `Updated` child of every listed slot
appears strictly earlier in the list. This is the order contract the
post-order traversal provides to the hashing loop. -/
def GoodList (nodes : List (Option UpdatedMemTrieNode)) (l : List Nat) : Prop :=
  ∀ i id n, l.get? i = some id → nodes.get? id = some (some n) →
    (∀ e j, n = .Extension e (.Updated j) → j ∈ l.take i) ∧
    (∀ cs v j, n = .Branch cs v → (some (.Updated j)) ∈ cs → j ∈ l.take i)

/-- One buffer rewrite performed by an absent-key descent: either nothing
(a node taken and put back unchanged), or the conversion of one `Old` child
of one slot — the arena node is appended as a pristine slot and the child
reference is redirected to it. -/
inductive ConvStep (A : Arena) :
    List (Option UpdatedMemTrieNode) → List (Option UpdatedMemTrieNode) → Prop
  | skip (ns : List (Option UpdatedMemTrieNode)) : ConvStep A ns ns
  | branchC (ns : List (Option UpdatedMemTrieNode)) (q idx h : Nat)
      (cs : List (Option NodeOrIndex)) (v : Option FlatStateValue) (an : ArenaNode)
      (hq : ns.get? q = some (some (.Branch cs v)))
      (hc : cs.get? idx = some (some (.Old h)))
      (hA : A.nodes.get? h = some an) :
      ConvStep A ns ((ns ++ [some (from_existing_node_view an)]).set q
        (some (.Branch (cs.set idx (some (.Updated ns.length))) v)))
  | extC (ns : List (Option UpdatedMemTrieNode)) (q h : Nat)
      (e : List Nat) (an : ArenaNode)
      (hq : ns.get? q = some (some (.Extension e (.Old h))))
      (hA : A.nodes.get? h = some an) :
      ConvStep A ns ((ns ++ [some (from_existing_node_view an)]).set q
        (some (.Extension e (.Updated ns.length))))

/-- Finitely many conversion steps. -/
inductive ConvChain (A : Arena) :
    List (Option UpdatedMemTrieNode) → List (Option UpdatedMemTrieNode) → Prop
  | refl (ns : List (Option UpdatedMemTrieNode)) : ConvChain A ns ns
  | step {ns ns' ns'' : List (Option UpdatedMemTrieNode)} :
      ConvStep A ns ns' → ConvChain A ns' ns'' → ConvChain A ns ns''

/-! ## Conversion chains of a fresh tracking session -/

/-- The tracker contents after a sequence of conversions whose arena infos
are `xs`: one −1 refcount and one accessed-node record per conversion, in
order. -/
def trackerOf (xs : List (List Nat × Nat × List Nat)) : TrieChangesTracker :=
  ⟨xs.foldl (fun m x => rcSub m x.1 1) [],
   ⟨xs.foldl (fun m x => accInsert m x.1 x.2.2) [], []⟩⟩

/-- The update buffers reachable from a fresh conversion of a root handle
by converting, at each step, one child of the last converted slot: a chain
of conversion slots. `hs` lists the source handles in slot order and `xs`
their `arenaInfo` triples. -/
inductive Chain (A : Arena) :
    List Nat → List (Option UpdatedMemTrieNode) →
    List (List Nat × Nat × List Nat) → Prop
  | base (r : Nat) (an : ArenaNode) (x : List Nat × Nat × List Nat)
      (hA : A.nodes.get? r = some an) (hx : arenaInfo A (r + 1) r = .ok x) :
      Chain A [r] [some (from_existing_node_view an)] [x]
  | stepB (hs : List Nat) (ns : List (Option UpdatedMemTrieNode))
      (xs : List (List Nat × Nat × List Nat))
      (r : Nat) (cs : List (Option Nat)) (v : Option FlatStateValue)
      (idx r2 : Nat) (an2 : ArenaNode) (x2 : List Nat × Nat × List Nat)
      (hprev : Chain A (hs ++ [r])
        (ns ++ [some (from_existing_node_view (.branchA cs v))]) xs)
      (hc : cs.get? idx = some (some r2))
      (hA2 : A.nodes.get? r2 = some an2)
      (hx2 : arenaInfo A (r2 + 1) r2 = .ok x2) :
      Chain A ((hs ++ [r]) ++ [r2])
        ((ns ++ [some (.Branch ((cs.map (Option.map NodeOrIndex.Old)).set idx
            (some (.Updated (ns.length + 1)))) v)]) ++
          [some (from_existing_node_view an2)])
        (xs ++ [x2])
  | stepE (hs : List Nat) (ns : List (Option UpdatedMemTrieNode))
      (xs : List (List Nat × Nat × List Nat))
      (r : Nat) (e : List Nat) (r2 : Nat) (an2 : ArenaNode)
      (x2 : List Nat × Nat × List Nat)
      (hprev : Chain A (hs ++ [r])
        (ns ++ [some (from_existing_node_view (.extensionA e r2))]) xs)
      (hA2 : A.nodes.get? r2 = some an2)
      (hx2 : arenaInfo A (r2 + 1) r2 = .ok x2) :
      Chain A ((hs ++ [r]) ++ [r2])
        ((ns ++ [some (.Extension e (.Updated (ns.length + 1)))]) ++
          [some (from_existing_node_view an2)])
        (xs ++ [x2])

/-- A branch children array containing exactly one `Updated` reference. -/
def oneUpdatedChild (cs : List (Option NodeOrIndex)) (j : Nat) : Prop :=
  ∃ l₁ l₂, cs = l₁ ++ (some (.Updated j)) :: l₂ ∧
    (∀ c ∈ l₁, ∀ j2, c ≠ some (.Updated j2)) ∧
    (∀ c ∈ l₂, ∀ j2, c ≠ some (.Updated j2))

/-! # Theorems -/

/-- Wrapped `u64` addition agrees with exact addition below `2 ^ 64`. -/
theorem u64add_eq {a b : Nat} (h : a + b < 2 ^ 64) : u64add a b = a + b :=
  Nat.mod_eq_of_lt h

/-- Wrapped `u64` multiplication agrees with exact multiplication below
`2 ^ 64`. -/
theorem u64mul_eq {a b : Nat} (h : a * b < 2 ^ 64) : u64mul a b = a * b :=
  Nat.mod_eq_of_lt h

/-- Net delta after `rcSub` at the subtracted hash. -/
theorem rcLookup_rcSub_self (m : RcMap) (h : List Nat) (rc : Int) :
    rcLookup (rcSub m h rc) h = rcLookup m h - rc := by
  induction m with
  | nil => simp [rcSub, rcLookup]
  | cons e rest ih =>
    obtain ⟨k, d, p⟩ := e
    by_cases hk : k = h
    · simp [rcSub, rcLookup, hk]
    · simp [rcSub, rcLookup, hk, ih]

/-- Net delta after `rcAdd` at the added hash. -/
theorem rcLookup_rcAdd_self (m : RcMap) (h : List Nat) (payload : List Nat) (rc : Int) :
    rcLookup (rcAdd m h payload rc) h = rcLookup m h + rc := by
  induction m with
  | nil => simp [rcAdd, rcLookup]
  | cons e rest ih =>
    obtain ⟨k, d, p⟩ := e
    by_cases hk : k = h
    · simp [rcAdd, rcLookup, hk]
    · simp [rcAdd, rcLookup, hk, ih]

/-- Association-map insertion is observable at the inserted key. -/
theorem accLookup_accInsert_self {α : Type} (m : List (List Nat × α)) (k : List Nat)
    (v : α) : accLookup (accInsert m k v) k = some v := by
  induction m with
  | nil => simp [accInsert, accLookup]
  | cons e rest ih =>
    obtain ⟨k', v'⟩ := e
    by_cases hk : k' = k
    · simp [accInsert, accLookup, hk]
    · simp [accInsert, accLookup, hk, ih]

/-- Helper: the conversion of an existing node leaves all children `Old`. -/
theorem childrenOld_from_existing (an : ArenaNode) :
    childrenOld (from_existing_node_view an) = true := by
  cases an with
  | leafA e v => rfl
  | extensionA e c => rfl
  | branchA cs v =>
    simp only [from_existing_node_view, childrenOld, List.all_eq_true, List.mem_map]
    rintro x ⟨c, hc, rfl⟩
    cases c with
    | none => simp
    | some p => simp

/-- C4: `ensure_updated` applied to `Updated(i)` returns `i` unchanged;
applied to `Old(h)` it appends exactly one new slot initialized to the
equivalent of the immutable node at `h`, records a −1 refcount delta for
`h`'s hash, records `h`'s serialized payload in the accessed-nodes map, and
leaves every child of the new node an `Old(_)` reference (non-recursive
conversion). -/
theorem ensure_updated_spec (A : Arena) (s : UpdState) :
    (∀ i, ensure_updated A s (.Updated i) = .ok (i, s)) ∧
    (∀ h i s', ensure_updated A s (.Old h) = .ok (i, s') →
      i = s.updated_nodes.length ∧
      s'.root = s.root ∧
      ∃ an, A.nodes.get? h = some an ∧
        s'.updated_nodes = s.updated_nodes ++ [some (from_existing_node_view an)] ∧
        childrenOld (from_existing_node_view an) = true ∧
        (s.tracker = none → s'.tracker = none) ∧
        (∀ tr, s.tracker = some tr → ∃ nh mem ser,
          arenaInfo A (h + 1) h = .ok (nh, mem, ser) ∧
          s'.tracker = some
            { refcount_changes := rcSub tr.refcount_changes nh 1,
              accesses := { nodes := accInsert tr.accesses.nodes nh ser,
                            values := tr.accesses.values } } ∧
          (∀ tr', s'.tracker = some tr' →
            rcLookup tr'.refcount_changes nh = rcLookup tr.refcount_changes nh - 1 ∧
            accLookup tr'.accesses.nodes nh = some ser))) := by
  constructor
  · intro i; rfl
  · intro h i s' hok
    simp only [ensure_updated, convert_existing_to_updated] at hok
    cases hA : A.nodes.get? h with
    | none => rw [hA] at hok; exact absurd hok (by simp)
    | some an =>
      rw [hA] at hok
      cases htr : s.tracker with
      | none =>
        rw [htr] at hok
        simp only [new_updated_node, Except.ok.injEq, Prod.mk.injEq] at hok
        obtain ⟨hi, hs⟩ := hok
        subst hi; subst hs
        exact ⟨rfl, rfl, an, rfl, rfl, childrenOld_from_existing an,
          fun _ => htr, fun tr htr' => absurd htr' (by simp [htr])⟩
      | some tr =>
        rw [htr] at hok
        cases hinfo : arenaInfo A (h + 1) h with
        | error e => rw [hinfo] at hok; exact absurd hok (by simp)
        | ok info =>
          obtain ⟨nh, mem, ser⟩ := info
          rw [hinfo] at hok
          simp only [new_updated_node, Except.ok.injEq, Prod.mk.injEq] at hok
          obtain ⟨hi, hs⟩ := hok
          subst hi; subst hs
          refine ⟨rfl, rfl, an, rfl, rfl, childrenOld_from_existing an,
            by simp [htr], ?_⟩
          intro tr' htr'
          cases htr'
          refine ⟨nh, mem, ser, rfl, rfl, ?_⟩
          intro tr'' htr''
          cases htr''
          exact ⟨rcLookup_rcSub_self _ _ _, accLookup_accInsert_self _ _ _⟩

/-- Concrete arena for witnesses: a single leaf node. -/
def wArenaC4 : Arena := ⟨[.leafA [32] (.inlined [7])]⟩

/-- Concrete non-tracking session state for the C4 witness. -/
def wStateC4 : UpdState := ⟨some 0, [], none⟩

/-- The state after converting handle 0 of `wArenaC4` in `wStateC4`. -/
def wOutC4 : UpdState := ⟨some 0, [some (.Leaf [32] (.inlined [7]))], none⟩

/-- Witness for C4 at a concrete arena and state. -/
theorem ensure_updated_spec_witness :
    0 = wStateC4.updated_nodes.length ∧
    wOutC4.root = wStateC4.root ∧
    ∃ an, wArenaC4.nodes.get? 0 = some an ∧
      wOutC4.updated_nodes = wStateC4.updated_nodes ++ [some (from_existing_node_view an)] ∧
      childrenOld (from_existing_node_view an) = true ∧
      (wStateC4.tracker = none → wOutC4.tracker = none) ∧
      (∀ tr, wStateC4.tracker = some tr → ∃ nh mem ser,
        arenaInfo wArenaC4 (0 + 1) 0 = .ok (nh, mem, ser) ∧
        wOutC4.tracker = some
          { refcount_changes := rcSub tr.refcount_changes nh 1,
            accesses := { nodes := accInsert tr.accesses.nodes nh ser,
                          values := tr.accesses.values } } ∧
        (∀ tr', wOutC4.tracker = some tr' →
          rcLookup tr'.refcount_changes nh = rcLookup tr.refcount_changes nh - 1 ∧
          accLookup tr'.accesses.nodes nh = some ser)) :=
  (ensure_updated_spec wArenaC4 wStateC4).2 0 0 wOutC4 rfl

/-- C5: for every finalized session, the `new_root` field of the emitted
`TrieChanges` equals the hash paired with the last element of the post-order
list `node_ids_with_hashes`, and equals the all-zero hash when that list is
empty. -/
theorem to_trie_changes_new_root (A : Arena) (fuel : Nat) (s : UpdState)
    (tc : TrieChanges') (acc : TrieAccesses)
    (hok : to_trie_changes A fuel s = .ok (tc, acc)) :
    ∃ mtc, tc.mem_trie_changes = some mtc ∧
      (mtc.node_ids_with_hashes = [] → tc.new_root = zeroHash) ∧
      (∀ p, mtc.node_ids_with_hashes.getLast? = some p → tc.new_root = p.2) := by
  unfold to_trie_changes at hok
  cases hroot : s.root with
  | none =>
    rw [hroot] at hok
    simp only [bind, Except.bind, pure, Except.pure] at hok
    cases htr : s.tracker with
    | none => rw [htr] at hok; exact absurd hok (by simp)
    | some tr =>
      rw [htr] at hok
      cases hint : to_mem_trie_changes_internal A fuel
          { root := none, updated_nodes := s.updated_nodes, tracker := none } with
      | error e => rw [hint] at hok; exact absurd hok (by simp)
      | ok p =>
        obtain ⟨mtc, hs⟩ := p
        rw [hint] at hok
        simp only [Except.ok.injEq, Prod.mk.injEq] at hok
        obtain ⟨htc, _⟩ := hok
        subst htc
        refine ⟨mtc, rfl, ?_, ?_⟩
        · intro hnil; simp [hnil]
        · intro p hp; simp [hp]
  | some r =>
    rw [hroot] at hok
    dsimp only at hok
    cases hari : arenaInfo A (r + 1) r with
    | error e =>
      rw [hari] at hok
      simp only [Except.map, bind, Except.bind] at hok
      exact absurd hok (by simp)
    | ok info =>
      rw [hari] at hok
      simp only [Except.map, bind, Except.bind, pure, Except.pure] at hok
      cases htr : s.tracker with
      | none => rw [htr] at hok; exact absurd hok (by simp)
      | some tr =>
        rw [htr] at hok
        cases hint : to_mem_trie_changes_internal A fuel
            { root := some r, updated_nodes := s.updated_nodes, tracker := none } with
        | error e => rw [hint] at hok; exact absurd hok (by simp)
        | ok p =>
          obtain ⟨mtc, hs⟩ := p
          rw [hint] at hok
          simp only [Except.ok.injEq, Prod.mk.injEq] at hok
          obtain ⟨htc, _⟩ := hok
          subst htc
          refine ⟨mtc, rfl, ?_, ?_⟩
          · intro hnil; simp [hnil]
          · intro p hp; simp [hp]

/-- Witness state for C5: a session holding one leaf in slot 0, tracking. -/
def wStateC5 : UpdState :=
  ⟨none, [some (.Leaf [32, 0] (.inlined [7]))],
   some { refcount_changes := [], accesses := { nodes := [], values := [] } }⟩

/-- Serialized form of the single new node in the C5 witness session. -/
def wSerC5 : List Nat :=
  serializeRawNodeWithSize (.leafR [32, 0] { hash := hashBytes [7], length := 1 }) 105

/-- The `TrieChanges` emitted by the C5 witness session. -/
def wTcC5 : TrieChanges' :=
  { old_root := zeroHash, new_root := hashBytes wSerC5,
    insertions := [(hashBytes wSerC5, wSerC5, 1)], deletions := [],
    mem_trie_changes := some
      { node_ids_with_hashes := [(0, hashBytes wSerC5)],
        updated_nodes := [some (.Leaf [32, 0] (.inlined [7]))] } }

/-- Witness for C5 at a concrete session. -/
theorem to_trie_changes_new_root_witness :
    ∃ mtc, wTcC5.mem_trie_changes = some mtc ∧
      (mtc.node_ids_with_hashes = [] → wTcC5.new_root = zeroHash) ∧
      (∀ p, mtc.node_ids_with_hashes.getLast? = some p → wTcC5.new_root = p.2) :=
  to_trie_changes_new_root ⟨[]⟩ 1 wStateC5 wTcC5 { nodes := [], values := [] } rfl

/-- C6: squashing a branch which, after clearing children whose updated
slots are `Empty`, has zero remaining children and a value, places in that
slot a leaf whose extension is the empty nibble sequence encoded with the
leaf flag set and whose value is the branch's value. -/
theorem squash_node_zero_children_value (A : Arena) (s : UpdState) (node_id : Nat)
    (children cleared : List (Option NodeOrIndex)) (v : FlatStateValue)
    (hget : s.updated_nodes.get? node_id = some (some (.Branch children (some v))))
    (hclear : clearEmptyChildren
      { s with updated_nodes := s.updated_nodes.set node_id none } children = .ok cleared)
    (hempty : (cleared.filter Option.isSome).length = 0) :
    squash_node A s node_id = .ok { s with updated_nodes := s.updated_nodes.set node_id (some (.Leaf (encodeNibbles (nibblesOfBytes []) true) v)) } := by
  have hlt : node_id < s.updated_nodes.length := by
    by_contra hge
    rw [List.get?_eq_none.mpr (Nat.le_of_not_lt hge)] at hget
    exact absurd hget (by simp)
  unfold squash_node
  simp only [take_node, hget, bind, Except.bind]
  simp only [hclear, hempty, bind, Except.bind]
  simp only [place_node, if_true]
  have hset : (s.updated_nodes.set node_id none).get? node_id = some none := by
    simp [List.get?_eq_getElem?, List.getElem?_set, hlt]
  rw [hset]
  simp [List.set_set]

/-- Witness state for C6: slot 0 holds a branch with no children and a
value. -/
def wStateC6 : UpdState := ⟨none, [some (.Branch emptyChildren (some (.inlined [9])))], none⟩

/-- Witness for C6 at a concrete state. -/
theorem squash_node_zero_children_value_witness :
    squash_node ⟨[]⟩ wStateC6 0 = .ok { wStateC6 with updated_nodes := wStateC6.updated_nodes.set 0 (some (.Leaf (encodeNibbles (nibblesOfBytes []) true) (.inlined [9]))) } :=
  squash_node_zero_children_value ⟨[]⟩ wStateC6 0 emptyChildren emptyChildren
    (.inlined [9]) rfl rfl rfl

/-- C2: two update sessions started from the same root over the same arena
contents, applying the identical sequence of insert and delete operations,
yield bit-identical outputs: the same new root hash, the same insertions
(serialized node bytes), deletions, memtrie changes, accesses, and the same
refcount-delta map. -/
theorem run_session_deterministic (A : Arena) (fuel : Nat) (root : Option Nat)
    (ops : List Op) (out1 out2 : TrieChanges' × TrieAccesses)
    (h1 : runSession A fuel root ops = .ok out1)
    (h2 : runSession A fuel root ops = .ok out2) :
    out1.1.new_root = out2.1.new_root ∧
    out1.1.insertions = out2.1.insertions ∧
    out1.1.deletions = out2.1.deletions ∧
    out1.1.mem_trie_changes = out2.1.mem_trie_changes ∧
    out1.2.nodes = out2.2.nodes ∧
    out1.2.values = out2.2.values ∧
    out1 = out2 := by
  rw [h1] at h2
  injection h2 with h
  subst h
  exact ⟨rfl, rfl, rfl, rfl, rfl, rfl, rfl⟩

/-- The output of the empty session used as the C2 witness. -/
def wOutC2 : TrieChanges' × TrieAccesses :=
  ({ old_root := zeroHash, new_root := zeroHash, insertions := [], deletions := [],
     mem_trie_changes := some { node_ids_with_hashes := [], updated_nodes := [some .Empty] } },
   { nodes := [], values := [] })

/-- Witness for C2 at a concrete session. -/
theorem run_session_deterministic_witness :
    wOutC2.1.new_root = wOutC2.1.new_root ∧
    wOutC2.1.insertions = wOutC2.1.insertions ∧
    wOutC2.1.deletions = wOutC2.1.deletions ∧
    wOutC2.1.mem_trie_changes = wOutC2.1.mem_trie_changes ∧
    wOutC2.2.nodes = wOutC2.2.nodes ∧
    wOutC2.2.values = wOutC2.2.values ∧
    wOutC2 = wOutC2 :=
  run_session_deterministic ⟨[]⟩ 1 none [] wOutC2 wOutC2 rfl rfl

/-- Helper: the post-order traversal only appends to its accumulator. -/
theorem post_order_prefix (s : UpdState) :
    ∀ fuel node_id acc l,
      post_order_traverse_updated_nodes s fuel node_id acc = .ok l →
      ∃ l', l = acc ++ l' := by
  intro fuel
  induction fuel with
  | zero =>
    intro node_id acc l h
    exact absurd h (by simp [post_order_traverse_updated_nodes])
  | succ fuel ih =>
    intro node_id acc l h
    unfold post_order_traverse_updated_nodes at h
    cases hg : get_node s node_id with
    | error e => rw [hg] at h; exact absurd h (by simp [bind, Except.bind])
    | ok n =>
      rw [hg] at h
      simp only [bind, Except.bind] at h
      cases n with
      | Empty =>
        dsimp only at h
        by_cases h0 : node_id = 0
        · simp only [h0, if_true, pure, Except.pure, Except.ok.injEq] at h
          exact ⟨[], by simp [h]⟩
        · simp [h0] at h
      | Leaf e v =>
        dsimp only at h
        simp only [pure, Except.pure, Except.ok.injEq] at h
        exact ⟨[node_id], h.symm⟩
      | Extension e c =>
        dsimp only at h
        cases c with
        | Old p =>
          dsimp only at h
          simp only [pure, Except.pure, Except.ok.injEq] at h
          exact ⟨[node_id], h.symm⟩
        | Updated cid =>
          dsimp only at h
          cases hrec : post_order_traverse_updated_nodes s fuel cid acc with
          | error e => rw [hrec] at h; simp at h
          | ok mid =>
            rw [hrec] at h
            simp only [pure, Except.pure, Except.ok.injEq] at h
            obtain ⟨m, rfl⟩ := ih cid acc mid hrec
            exact ⟨m ++ [node_id], by simp [h.symm]⟩
      | Branch children v =>
        dsimp only at h
        have fold_prefix : ∀ (cs : List (Option NodeOrIndex)) acc out,
            cs.foldlM (fun a child =>
              match child with
              | some (.Updated cid) => post_order_traverse_updated_nodes s fuel cid a
              | _ => pure a) acc = .ok out → ∃ l', out = acc ++ l' := by
          intro cs
          induction cs with
          | nil =>
            intro acc out hf
            simp only [List.foldlM_nil, pure, Except.pure, Except.ok.injEq] at hf
            exact ⟨[], by simp [hf]⟩
          | cons c rest ihc =>
            intro acc out hf
            rw [List.foldlM_cons] at hf
            cases c with
            | none =>
              simp only [bind, Except.bind, pure, Except.pure] at hf
              exact ihc acc out hf
            | some x =>
              cases x with
              | Old p =>
                simp only [bind, Except.bind, pure, Except.pure] at hf
                exact ihc acc out hf
              | Updated cid =>
                simp only [bind, Except.bind] at hf
                cases hrec : post_order_traverse_updated_nodes s fuel cid acc with
                | error e => rw [hrec] at hf; simp at hf
                | ok mid =>
                  rw [hrec] at hf
                  obtain ⟨m1, rfl⟩ := ih cid acc mid hrec
                  obtain ⟨m2, rfl⟩ := ihc (acc ++ m1) out hf
                  exact ⟨m1 ++ m2, by simp⟩
        cases hfold : children.foldlM (fun a child =>
            match child with
            | some (.Updated cid) => post_order_traverse_updated_nodes s fuel cid a
            | _ => pure a) acc with
        | error e => rw [hfold] at h; simp at h
        | ok mid =>
          rw [hfold] at h
          simp only [pure, Except.pure, Except.ok.injEq] at h
          obtain ⟨m, rfl⟩ := fold_prefix children acc mid hfold
          exact ⟨m ++ [node_id], by simp [h.symm]⟩

/-- Helper: a successful post-order traversal of a non-`Empty` node ends in
that node's id. -/
theorem post_order_last (s : UpdState) (fuel node_id : Nat) (acc l : List Nat)
    (n : UpdatedMemTrieNode) (hg : get_node s node_id = .ok n)
    (hne : n ≠ .Empty)
    (hok : post_order_traverse_updated_nodes s fuel node_id acc = .ok l) :
    ∃ l₀, l = l₀ ++ [node_id] := by
  cases fuel with
  | zero => exact absurd hok (by simp [post_order_traverse_updated_nodes])
  | succ fuel =>
    unfold post_order_traverse_updated_nodes at hok
    rw [hg] at hok
    simp only [bind, Except.bind] at hok
    cases n with
    | Empty => exact absurd rfl hne
    | Leaf e v =>
      dsimp only at hok
      simp only [pure, Except.pure, Except.ok.injEq] at hok
      exact ⟨acc, hok.symm⟩
    | Extension e c =>
      dsimp only at hok
      cases c with
      | Old p =>
        dsimp only at hok
        simp only [pure, Except.pure, Except.ok.injEq] at hok
        exact ⟨acc, hok.symm⟩
      | Updated cid =>
        dsimp only at hok
        cases hrec : post_order_traverse_updated_nodes s fuel cid acc with
        | error e => rw [hrec] at hok; simp at hok
        | ok mid =>
          rw [hrec] at hok
          simp only [pure, Except.pure, Except.ok.injEq] at hok
          exact ⟨mid, hok.symm⟩
    | Branch children v =>
      dsimp only at hok
      cases hfold : children.foldlM (fun a child =>
          match child with
          | some (.Updated cid) => post_order_traverse_updated_nodes s fuel cid a
          | _ => pure a) acc with
      | error e => rw [hfold] at hok; simp at hok
      | ok mid =>
        rw [hfold] at hok
        simp only [pure, Except.pure, Except.ok.injEq] at hok
        exact ⟨mid, hok.symm⟩

/-- Helper: a successful traversal evaluates `get_node` at its root. -/
theorem post_order_get_node (s : UpdState) (fuel node_id : Nat) (acc l : List Nat)
    (hok : post_order_traverse_updated_nodes s fuel node_id acc = .ok l) :
    ∃ n, get_node s node_id = .ok n := by
  cases fuel with
  | zero => exact absurd hok (by simp [post_order_traverse_updated_nodes])
  | succ fuel =>
    unfold post_order_traverse_updated_nodes at hok
    cases hg : get_node s node_id with
    | error e => rw [hg] at hok; exact absurd hok (by simp [bind, Except.bind])
    | ok n => exact ⟨n, rfl⟩

/-- Helper: traversing an `Empty` root returns the accumulator unchanged. -/
theorem post_order_empty_root (s : UpdState) (fuel : Nat) (acc : List Nat)
    (hg : get_node s 0 = .ok .Empty) (hf : 0 < fuel) :
    post_order_traverse_updated_nodes s fuel 0 acc = .ok acc := by
  cases fuel with
  | zero => exact absurd hf (by simp)
  | succ fuel =>
    unfold post_order_traverse_updated_nodes
    rw [hg]
    rfl

/-- Helper: the collection loop appends exactly the ordered slot ids. -/
theorem collect_fold_ids :
    ∀ (rest : List Nat)
      (acc fin : List (Nat × List Nat × List Nat) × List (List Nat × Nat × List Nat)),
      rest.foldlM collectStep acc = .ok fin →
      fin.1.map Prod.fst = acc.1.map Prod.fst ++ rest := by
  intro rest
  induction rest with
  | nil =>
    intro acc fin hf
    simp only [List.foldlM_nil, pure, Except.pure, Except.ok.injEq] at hf
    simp [← hf]
  | cons x xs ihx =>
    intro acc fin hf
    rw [List.foldlM_cons] at hf
    unfold collectStep at hf
    cases hgr : acc.2.get? x with
    | none => rw [hgr] at hf; simp [bind, Except.bind] at hf
    | some t =>
      obtain ⟨h, m, ser⟩ := t
      rw [hgr] at hf
      simp only [bind, Except.bind] at hf
      have := ihx _ _ hf
      simpa using this

/-- Helper: the hash computation returns one output entry per ordered node,
with matching slot ids in order. -/
theorem compute_hashes_ids (A : Arena) (s : UpdState) (ordered : List Nat)
    (out : List (Nat × List Nat × List Nat))
    (hok : compute_hashes_and_serialized_nodes A s ordered = .ok out) :
    out.map Prod.fst = ordered := by
  unfold compute_hashes_and_serialized_nodes at hok
  simp only [bind, Except.bind] at hok
  cases hfold : ordered.foldlM (computeFoldStep A s)
      (List.replicate s.updated_nodes.length (zeroHash, 0, [])) with
  | error e => rw [hfold] at hok; simp at hok
  | ok result =>
    rw [hfold] at hok
    dsimp only at hok
    cases hcol : ordered.foldlM collectStep
        (([] : List (Nat × List Nat × List Nat)), result) with
    | error e => rw [hcol] at hok; simp at hok
    | ok fin =>
      rw [hcol] at hok
      dsimp only at hok
      simp only [pure, Except.pure, Except.ok.injEq] at hok
      have := collect_fold_ids ordered _ _ hcol
      simp only [List.map_nil, List.nil_append] at this
      rw [← hok]
      exact this

/-- Helper: `getLast?` commutes with `map`. -/
theorem getLast?_map' {α β : Type} (f : α → β) :
    ∀ l : List α, (l.map f).getLast? = (l.getLast?).map f := by
  intro l
  induction l with
  | nil => rfl
  | cons a t ih =>
    cases t with
    | nil => rfl
    | cons b t' =>
      rw [List.map_cons, List.map_cons, List.getLast?_cons_cons,
        List.getLast?_cons_cons, ← List.map_cons]
      exact ih

/-- Helper: success of `get_node` in terms of the raw buffer. -/
theorem get_node_ok_iff (s : UpdState) (i : Nat) (n : UpdatedMemTrieNode) :
    get_node s i = .ok n ↔ s.updated_nodes.get? i = some (some n) := by
  unfold get_node
  cases h : s.updated_nodes.get? i with
  | none => simp
  | some o =>
    cases o with
    | none => simp
    | some m => simp

/-- C9: in every emitted `MemTrieChanges`, the list `node_ids_with_hashes`
is empty iff the final trie is empty (slot 0 holds `Empty`), and when
non-empty its last entry's node id is 0 (the root slot), so the new root
hash is always the hash computed for slot 0. -/
theorem mem_trie_changes_root_slot (A : Arena) (fuel : Nat) (s : UpdState)
    (mtc : MemTrieChanges') (hs : List (List Nat × List Nat))
    (hok : to_mem_trie_changes_internal A fuel s = .ok (mtc, hs)) :
    (mtc.node_ids_with_hashes = [] ↔ s.updated_nodes.get? 0 = some (some .Empty)) ∧
    (∀ p, mtc.node_ids_with_hashes.getLast? = some p → p.1 = 0) := by
  unfold to_mem_trie_changes_internal at hok
  simp only [bind, Except.bind] at hok
  cases hpo : post_order_traverse_updated_nodes s fuel 0 [] with
  | error e => rw [hpo] at hok; simp at hok
  | ok ordered =>
    rw [hpo] at hok
    dsimp only at hok
    cases hch : compute_hashes_and_serialized_nodes A s ordered with
    | error e => rw [hch] at hok; simp at hok
    | ok out =>
      rw [hch] at hok
      dsimp only at hok
      simp only [pure, Except.pure, Except.ok.injEq, Prod.mk.injEq] at hok
      obtain ⟨hmtc, _⟩ := hok
      subst hmtc
      have hids : out.map Prod.fst = ordered := compute_hashes_ids A s ordered out hch
      have hfuel : 0 < fuel := by
        cases fuel with
        | zero => exact absurd hpo (by simp [post_order_traverse_updated_nodes])
        | succ f => exact Nat.succ_pos f
      obtain ⟨n, hn⟩ := post_order_get_node s fuel 0 [] ordered hpo
      have hids2 : (out.map (fun t => (t.1, t.2.1))).map Prod.fst = ordered := by
        rw [List.map_map]
        exact hids
      constructor
      · constructor
        · intro hnil
          have hout : out = [] := by
            cases out with
            | nil => rfl
            | cons a t => simp at hnil
          have hord : ordered = [] := by rw [← hids, hout]; rfl
          have hnE : n = .Empty := by
            by_contra hne
            obtain ⟨l₀, hl₀⟩ := post_order_last s fuel 0 [] ordered n hn hne hpo
            rw [hord] at hl₀
            exact absurd hl₀.symm (by simp)
          exact (get_node_ok_iff s 0 .Empty).mp (hnE ▸ hn)
        · intro hslot
          have hE : get_node s 0 = .ok .Empty := (get_node_ok_iff s 0 .Empty).mpr hslot
          have : post_order_traverse_updated_nodes s fuel 0 [] = .ok [] :=
            post_order_empty_root s fuel [] hE hfuel
          rw [hpo] at this
          injection this with hord
          have hout : out = [] := by
            cases out with
            | nil => rfl
            | cons a t =>
              rw [hord] at hids
              simp at hids
          rw [hout]
          rfl
      · intro p hp
        rw [getLast?_map'] at hp
        cases hlast : out.getLast? with
        | none => rw [hlast] at hp; simp at hp
        | some t =>
          rw [hlast] at hp
          simp at hp
          have hordlast : ordered.getLast? = some t.1 := by
            rw [← hids, getLast?_map', hlast]
            rfl
          have hnE : n ≠ .Empty := by
            intro hEq
            subst hEq
            have : post_order_traverse_updated_nodes s fuel 0 [] = .ok [] :=
              post_order_empty_root s fuel [] hn hfuel
            rw [hpo] at this
            injection this with hord
            rw [hord] at hordlast
            simp at hordlast
          obtain ⟨l₀, hl₀⟩ := post_order_last s fuel 0 [] ordered n hn hnE hpo
          rw [hl₀] at hordlast
          rw [List.getLast?_concat] at hordlast
          injection hordlast with ht
          rw [← hp]
          exact ht.symm

/-- Witness state for C9: a session holding one leaf in slot 0. -/
def wStateC9 : UpdState := ⟨none, [some (.Leaf [32, 0] (.inlined [7]))], none⟩

/-- Serialized form of the C9 witness node. -/
def wSerC9 : List Nat :=
  serializeRawNodeWithSize (.leafR [32, 0] { hash := hashBytes [7], length := 1 }) 105

/-- The `MemTrieChanges` of the C9 witness session. -/
def wMtcC9 : MemTrieChanges' :=
  { node_ids_with_hashes := [(0, hashBytes wSerC9)],
    updated_nodes := [some (.Leaf [32, 0] (.inlined [7]))] }

/-- Witness for C9 at a concrete session. -/
theorem mem_trie_changes_root_slot_witness :
    (wMtcC9.node_ids_with_hashes = [] ↔
      wStateC9.updated_nodes.get? 0 = some (some .Empty)) ∧
    (∀ p, wMtcC9.node_ids_with_hashes.getLast? = some p → p.1 = 0) :=
  mem_trie_changes_root_slot ⟨[]⟩ 1 wStateC9 wMtcC9
    [(hashBytes wSerC9, wSerC9)] rfl

/-- Helper: `childMemSum` over a leading absent child. -/
theorem childMemSum_none (A : Arena) (result : List (List Nat × Nat × List Nat))
    (rest : List (Option NodeOrIndex)) :
    childMemSum A result (none :: rest) = childMemSum A result rest := by
  simp [childMemSum]

/-- Helper: `childMemSum` over a leading present child. -/
theorem childMemSum_some (A : Arena) (result : List (List Nat × Nat × List Nat))
    (x : NodeOrIndex) (rest : List (Option NodeOrIndex)) :
    childMemSum A result (some x :: rest) =
      childMemOf A result x + childMemSum A result rest := by
  simp [childMemSum]

/-- Helper: the branch child fold accumulates exactly the children's memory
usages when the exact total stays below `2 ^ 64`. -/
theorem branch_fold_mem (A : Arena) (result : List (List Nat × Nat × List Nat)) :
    ∀ (cs : List (Option NodeOrIndex)) (acc out : List (Option (List Nat)) × Nat),
      cs.foldlM (branchChildStep A result) acc = .ok out →
      acc.2 + childMemSum A result cs < 2 ^ 64 →
      out.2 = acc.2 + childMemSum A result cs := by
  intro cs
  induction cs with
  | nil =>
    intro acc out h hb
    simp only [List.foldlM_nil, pure, Except.pure, Except.ok.injEq] at h
    simp [← h, childMemSum]
  | cons c rest ih =>
    intro acc out h hb
    rw [List.foldlM_cons] at h
    cases c with
    | none =>
      unfold branchChildStep at h
      simp only [bind, Except.bind, pure, Except.pure] at h
      rw [childMemSum_none] at hb ⊢
      exact ih (acc.1 ++ [none], acc.2) out h hb
    | some x =>
      unfold branchChildStep at h
      simp only [bind, Except.bind] at h
      cases hg : get_hash_and_memory_usage A result x with
      | error e => rw [hg] at h; simp at h
      | ok pr =>
        obtain ⟨ph, pm⟩ := pr
        rw [hg] at h
        dsimp only at h
        have hcm : childMemOf A result x = pm := by
          simp [childMemOf, hg, Except.toOption]
        rw [childMemSum_some, hcm] at hb ⊢
        have hadd : u64add acc.2 pm = acc.2 + pm := by
          apply u64add_eq
          have : 0 ≤ childMemSum A result rest := Nat.zero_le _
          omega
        have := ih (acc.1 ++ [some ph], u64add acc.2 pm) out h (by rw [hadd]; omega)
        rw [this, hadd]
        omega

/-- Helper: the length of a value's ref equals the value's length. -/
theorem to_value_ref_length (v : FlatStateValue) :
    (FlatStateValue.to_value_ref v).length = v.value_len := by
  cases v <;> rfl

/-- C8: for every node hashed by the finalizer, its memory usage equals
`node_cost`, plus (extension length in bytes) times `byte_of_key` for leaf
and extension nodes, plus (value length times `byte_of_value` plus
`node_cost`) when a value is present, plus the sum of the children's memory
usages for branch and extension nodes, computed with exact unsigned integer
arithmetic (given that the exact total fits in a `u64`). -/
theorem computeOneNode_memory_usage (A : Arena)
    (result : List (List Nat × Nat × List Nat)) (node : UpdatedMemTrieNode)
    (raw : RawTrieNode) (mem : Nat)
    (hok : computeOneNode A result node = .ok (raw, mem))
    (hbound : specMemoryUsage A result node < 2 ^ 64) :
    mem = specMemoryUsage A result node := by
  cases node with
  | Empty => simp [computeOneNode] at hok
  | Leaf e v =>
    simp only [computeOneNode, pure, Except.pure] at hok
    injection hok with hok
    injection hok with hraw hmem
    simp only [specMemoryUsage] at hbound ⊢
    have hb : e.length * TRIE_COSTS.byte_of_key < 2 ^ 64 := by omega
    have hc : v.value_len * TRIE_COSTS.byte_of_value < 2 ^ 64 := by omega
    rw [← hmem, u64mul_eq hb, u64mul_eq hc,
      @u64add_eq TRIE_COSTS.node_cost (e.length * TRIE_COSTS.byte_of_key) (by omega),
      @u64add_eq (TRIE_COSTS.node_cost + e.length * TRIE_COSTS.byte_of_key)
        (v.value_len * TRIE_COSTS.byte_of_value) (by omega),
      @u64add_eq (TRIE_COSTS.node_cost + e.length * TRIE_COSTS.byte_of_key +
        v.value_len * TRIE_COSTS.byte_of_value) TRIE_COSTS.node_cost (by omega)]
    omega
  | Extension e c =>
    simp only [computeOneNode, bind, Except.bind] at hok
    cases hg : get_hash_and_memory_usage A result c with
    | error err => rw [hg] at hok; simp at hok
    | ok pr =>
      obtain ⟨ph, pm⟩ := pr
      rw [hg] at hok
      dsimp only at hok
      simp only [pure, Except.pure] at hok
      injection hok with hok
      injection hok with hraw hmem
      have hcm : childMemOf A result c = pm := by
        simp [childMemOf, hg, Except.toOption]
      simp only [specMemoryUsage] at hbound ⊢
      rw [hcm] at hbound ⊢
      have hb : e.length * TRIE_COSTS.byte_of_key < 2 ^ 64 := by omega
      rw [← hmem, u64mul_eq hb,
        @u64add_eq TRIE_COSTS.node_cost (e.length * TRIE_COSTS.byte_of_key) (by omega),
        @u64add_eq (TRIE_COSTS.node_cost + e.length * TRIE_COSTS.byte_of_key) pm
          (by omega)]
  | Branch children v =>
    simp only [computeOneNode, bind, Except.bind] at hok
    cases hf : children.foldlM (branchChildStep A result)
        (([] : List (Option (List Nat))), TRIE_COSTS.node_cost) with
    | error err => rw [hf] at hok; simp at hok
    | ok pr =>
      obtain ⟨chashes, m⟩ := pr
      rw [hf] at hok
      dsimp only at hok
      simp only [pure, Except.pure] at hok
      injection hok with hok
      injection hok with hraw hmem
      simp only [specMemoryUsage] at hbound ⊢
      have hsum : m = TRIE_COSTS.node_cost + childMemSum A result children := by
        apply branch_fold_mem A result children _ _ hf
        cases v with
        | none => simp only at hbound; omega
        | some vv => simp only at hbound; omega
      cases v with
      | none =>
        simp only [Option.map_none'] at hmem
        simp only at hbound ⊢
        rw [← hmem, hsum]
        have hlt : TRIE_COSTS.node_cost + childMemSum A result children < 2 ^ 64 := by
          omega
        rw [@u64add_eq (TRIE_COSTS.node_cost + childMemSum A result children) 0
          (by omega)]
        omega
      | some vv =>
        simp only [Option.map_some'] at hmem
        simp only [to_value_ref_length] at hmem
        simp only at hbound ⊢
        have hc : vv.value_len * TRIE_COSTS.byte_of_value < 2 ^ 64 := by omega
        rw [← hmem, hsum, u64mul_eq hc,
          @u64add_eq (vv.value_len * TRIE_COSTS.byte_of_value) TRIE_COSTS.node_cost
            (by omega),
          @u64add_eq (TRIE_COSTS.node_cost + childMemSum A result children)
            (vv.value_len * TRIE_COSTS.byte_of_value + TRIE_COSTS.node_cost) (by omega)]
        omega

/-- Witness for C8 at a concrete leaf node. -/
theorem computeOneNode_memory_usage_witness :
    105 = specMemoryUsage ⟨[]⟩ [] (.Leaf [32, 0] (.inlined [7])) :=
  computeOneNode_memory_usage ⟨[]⟩ [] (.Leaf [32, 0] (.inlined [7]))
    (.leafR [32, 0] { hash := hashBytes [7], length := 1 }) 105 rfl (by decide)

/-! ## Error classification: no function but the leaf arm of `squash_node`
produces the `leafSquash` error. -/

/-- Helper: `foldlM` never produces an error its steps cannot produce. -/
theorem foldlM_no_err {α β : Type} (f : β → α → Except TErr β) (bad : TErr)
    (hf : ∀ b a, f b a ≠ .error bad) :
    ∀ (l : List α) (b : β), l.foldlM f b ≠ .error bad := by
  intro l
  induction l with
  | nil => intro b; simp [List.foldlM_nil, pure, Except.pure]
  | cons a t ih =>
    intro b
    rw [List.foldlM_cons]
    cases hfa : f b a with
    | error e =>
      simp only [bind, Except.bind]
      intro hcon
      injection hcon with he
      exact hf b a (by rw [hfa, he])
    | ok b2 =>
      simp only [bind, Except.bind]
      exact ih b2

/-- `arenaInfo` never produces `leafSquash`. -/
theorem arenaInfo_no_leafSquash (A : Arena) :
    ∀ fuel h, arenaInfo A fuel h ≠ .error .leafSquash := by
  intro fuel
  induction fuel with
  | zero => intro h; simp [arenaInfo]
  | succ fuel ih =>
    intro h
    unfold arenaInfo
    cases hA : A.nodes.get? h with
    | none => simp
    | some an =>
      cases an with
      | leafA e v => simp
      | extensionA e c =>
        cases hc : arenaInfo A fuel c with
        | error e2 =>
          simp only [hc]
          intro hcon
          injection hcon with he
          exact ih c (by rw [hc, he])
        | ok info => simp [hc]
      | branchA cs v =>
        have hm := foldlM_no_err (fun (acc : List (Option (List Nat)) × Nat) c =>
          (match c with
          | none => .ok (acc.1 ++ [none], acc.2)
          | some ch =>
            (arenaInfo A fuel ch).map (fun info =>
              (acc.1 ++ [some info.1], u64add acc.2 info.2.1))
          : Except TErr (List (Option (List Nat)) × Nat))) .leafSquash ?_ cs
            ([], TRIE_COSTS.node_cost)
        · cases hmm : cs.foldlM (fun (acc : List (Option (List Nat)) × Nat) c =>
              (match c with
              | none => .ok (acc.1 ++ [none], acc.2)
              | some ch =>
                (arenaInfo A fuel ch).map (fun info =>
                  (acc.1 ++ [some info.1], u64add acc.2 info.2.1))
              : Except TErr (List (Option (List Nat)) × Nat)))
              ([], TRIE_COSTS.node_cost) with
          | error e2 =>
            simp only [hmm]
            intro hcon
            injection hcon with he
            exact hm (by rw [hmm, he])
          | ok infos => simp [hmm]
        · intro b a
          cases a with
          | none => simp
          | some ch =>
            cases hch : arenaInfo A fuel ch with
            | error e2 =>
              simp only [Except.map, hch]
              intro hcon
              injection hcon with he
              exact ih ch (by rw [hch, he])
            | ok info => simp [Except.map, hch]

/-- `take_node` errors only with a programmer-error panic. -/
theorem take_node_no_leafSquash (s : UpdState) (i : Nat) :
    take_node s i ≠ .error .leafSquash := by
  unfold take_node
  cases h : s.updated_nodes.get? i with
  | none => simp
  | some o => cases o with
    | none => simp
    | some n => simp

/-- `place_node` errors only with a programmer-error panic. -/
theorem place_node_no_leafSquash (s : UpdState) (i : Nat) (n : UpdatedMemTrieNode) :
    place_node s i n ≠ .error .leafSquash := by
  unfold place_node
  cases h : s.updated_nodes.get? i with
  | none => simp
  | some o => cases o with
    | none => simp
    | some m => simp

/-- `get_node` errors only with a programmer-error panic. -/
theorem get_node_no_leafSquash (s : UpdState) (i : Nat) :
    get_node s i ≠ .error .leafSquash := by
  unfold get_node
  cases h : s.updated_nodes.get? i with
  | none => simp
  | some o => cases o with
    | none => simp
    | some m => simp

/-- `convert_existing_to_updated` never produces `leafSquash`. -/
theorem convert_no_leafSquash (A : Arena) (s : UpdState) (node : Option Nat) :
    convert_existing_to_updated A s node ≠ .error .leafSquash := by
  intro hcon
  simp only [convert_existing_to_updated] at hcon
  cases node with
  | none => dsimp only at hcon; exact absurd hcon (by simp)
  | some h =>
    dsimp only at hcon
    cases hA : A.nodes.get? h with
    | none => rw [hA] at hcon; exact absurd hcon (by simp)
    | some an =>
      rw [hA] at hcon
      cases htr : s.tracker with
      | none => rw [htr] at hcon; exact absurd hcon (by simp)
      | some tr =>
        rw [htr] at hcon
        cases hinfo : arenaInfo A (h + 1) h with
        | error e =>
          rw [hinfo] at hcon
          injection hcon with he
          exact arenaInfo_no_leafSquash A (h + 1) h (by rw [hinfo, he])
        | ok info =>
          obtain ⟨nh, mm, ser⟩ := info
          rw [hinfo] at hcon
          exact absurd hcon (by simp)

/-- `ensure_updated` never produces `leafSquash`. -/
theorem ensure_updated_no_leafSquash (A : Arena) (s : UpdState) (c : NodeOrIndex) :
    ensure_updated A s c ≠ .error .leafSquash := by
  cases c with
  | Old h => exact convert_no_leafSquash A s (some h)
  | Updated j => simp [ensure_updated]

/-- `clearEmptyChildren` never produces `leafSquash`. -/
theorem clearEmptyChildren_no_leafSquash (s : UpdState) :
    ∀ cs, clearEmptyChildren s cs ≠ .error .leafSquash := by
  intro cs
  induction cs with
  | nil => simp [clearEmptyChildren]
  | cons c rest ih =>
    intro hcon
    unfold clearEmptyChildren at hcon
    have hone : clearOneChild s c ≠ .error .leafSquash := by
      intro hc
      unfold clearOneChild at hc
      cases c with
      | none => exact absurd hc (by simp)
      | some x =>
        cases x with
        | Old pp => exact absurd hc (by simp)
        | Updated j =>
          dsimp only at hc
          cases hg : get_node s j with
          | error e =>
            rw [hg] at hc
            injection hc with he
            exact get_node_no_leafSquash s j (by rw [hg, he])
          | ok n =>
            rw [hg] at hc
            cases n <;> exact absurd hc (by simp)
    cases hoc : clearOneChild s c with
    | error e =>
      rw [hoc] at hcon
      injection hcon with he
      exact hone (by rw [hoc, he])
    | ok c' =>
      rw [hoc] at hcon
      cases hr : clearEmptyChildren s rest with
      | error e2 =>
        rw [hr] at hcon
        injection hcon with he
        exact ih (by rw [hr, he])
      | ok rest' =>
        rw [hr] at hcon
        exact absurd hcon (by simp)

/-- Characterization of a successful `take_node`. -/
theorem take_node_ok (s : UpdState) (i : Nat) (n : UpdatedMemTrieNode) (s₂ : UpdState)
    (h : take_node s i = .ok (n, s₂)) :
    s.updated_nodes.get? i = some (some n) ∧
    s₂ = { s with updated_nodes := s.updated_nodes.set i none } := by
  unfold take_node at h
  cases hg : s.updated_nodes.get? i with
  | none => rw [hg] at h; exact absurd h (by simp)
  | some o =>
    cases o with
    | none => rw [hg] at h; exact absurd h (by simp)
    | some m =>
      rw [hg] at h
      simp only [Except.ok.injEq, Prod.mk.injEq] at h
      obtain ⟨hm, hs⟩ := h
      subst hm
      exact ⟨rfl, hs.symm⟩

/-- Characterization of a successful `place_node`. -/
theorem place_node_ok (s : UpdState) (i : Nat) (n : UpdatedMemTrieNode) (s₂ : UpdState)
    (h : place_node s i n = .ok s₂) :
    s.updated_nodes.get? i = some none ∧
    s₂ = { s with updated_nodes := s.updated_nodes.set i (some n) } := by
  unfold place_node at h
  cases hg : s.updated_nodes.get? i with
  | none => rw [hg] at h; exact absurd h (by simp)
  | some o =>
    cases o with
    | none =>
      rw [hg] at h
      simp only [Except.ok.injEq] at h
      exact ⟨rfl, h.symm⟩
    | some m => rw [hg] at h; exact absurd h (by simp)

/-- A present slot survives a `set` at another index. -/
theorem get?_set_ne {α : Type} (l : List α) (i p : Nat) (x : α) (hne : p ≠ i) :
    (l.set i x).get? p = l.get? p := by
  simp [List.get?_eq_getElem?, List.getElem?_set, Ne.symm hne]

/-- A present slot survives appending. -/
theorem get?_append_of_some {α : Type} (l l2 : List α) (p : Nat) (y : α)
    (h : l.get? p = some y) : (l ++ l2).get? p = some y := by
  have hlt : p < l.length := by
    by_contra hge
    rw [List.get?_eq_none.mpr (Nat.le_of_not_lt hge)] at h
    exact absurd h (by simp)
  rw [List.get?_append hlt]
  exact h

/-- `take_node` preserves the non-leaf-or-hole slot condition. -/
theorem take_node_pres (s : UpdState) (i : Nat) (n : UpdatedMemTrieNode)
    (s₂ : UpdState) (h : take_node s i = .ok (n, s₂)) (p : Nat)
    (hp : slotNonLeaf s p) : slotNonLeaf s₂ p := by
  obtain ⟨-, hs⟩ := take_node_ok s i n s₂ h
  subst hs
  by_cases hpi : p = i
  · subst hpi
    right
    obtain ⟨m, hm, -⟩ | hh := hp
    all_goals
      have hlt : p < s.updated_nodes.length := by
        by_contra hge
        rw [List.get?_eq_none.mpr (Nat.le_of_not_lt hge)] at *
        simp_all
    all_goals simp [List.get?_eq_getElem?, List.getElem?_set, hlt]
  · obtain ⟨m, hm, hml⟩ | hh := hp
    · exact Or.inl ⟨m, by rw [get?_set_ne _ _ _ _ hpi]; exact hm, hml⟩
    · exact Or.inr (by rw [get?_set_ne _ _ _ _ hpi]; exact hh)

/-- `place_node` preserves the slot condition away from the placed slot. -/
theorem place_node_pres_ne (s : UpdState) (i : Nat) (n : UpdatedMemTrieNode)
    (s₂ : UpdState) (h : place_node s i n = .ok s₂) (p : Nat) (hne : p ≠ i)
    (hp : slotNonLeaf s p) : slotNonLeaf s₂ p := by
  obtain ⟨-, hs⟩ := place_node_ok s i n s₂ h
  subst hs
  obtain ⟨m, hm, hml⟩ | hh := hp
  · exact Or.inl ⟨m, by rw [get?_set_ne _ _ _ _ hne]; exact hm, hml⟩
  · exact Or.inr (by rw [get?_set_ne _ _ _ _ hne]; exact hh)

/-- `place_node` of a non-leaf node preserves the slot condition everywhere. -/
theorem place_node_pres_nonleaf (s : UpdState) (i : Nat) (n : UpdatedMemTrieNode)
    (s₂ : UpdState) (h : place_node s i n = .ok s₂) (hn : isLeafNode n = false)
    (p : Nat) (hp : slotNonLeaf s p) : slotNonLeaf s₂ p := by
  by_cases hpi : p = i
  · subst hpi
    obtain ⟨hg, hs⟩ := place_node_ok s p n s₂ h
    subst hs
    have hlt : p < s.updated_nodes.length := by
      by_contra hge
      rw [List.get?_eq_none.mpr (Nat.le_of_not_lt hge)] at hg
      exact absurd hg (by simp)
    exact Or.inl ⟨n, by simp [List.get?_eq_getElem?, List.getElem?_set, hlt], hn⟩
  · exact place_node_pres_ne s i n s₂ h p hpi hp

/-- `convert_existing_to_updated` only appends; present slots keep their
content. -/
theorem convert_get? (A : Arena) (s : UpdState) (node : Option Nat) (j : Nat)
    (s₂ : UpdState) (h : convert_existing_to_updated A s node = .ok (j, s₂))
    (p : Nat) (y : Option UpdatedMemTrieNode)
    (hp : s.updated_nodes.get? p = some y) :
    s₂.updated_nodes.get? p = some y := by
  unfold convert_existing_to_updated at h
  cases node with
  | none =>
    dsimp only at h
    simp only [new_updated_node, Except.ok.injEq, Prod.mk.injEq] at h
    obtain ⟨-, hs⟩ := h
    subst hs
    exact get?_append_of_some _ _ _ _ hp
  | some hh =>
    dsimp only at h
    cases hA : A.nodes.get? hh with
    | none => rw [hA] at h; exact absurd h (by simp)
    | some an =>
      rw [hA] at h
      cases htr : s.tracker with
      | none =>
        rw [htr] at h
        simp only [new_updated_node, Except.ok.injEq, Prod.mk.injEq] at h
        obtain ⟨-, hs⟩ := h
        subst hs
        exact get?_append_of_some _ _ _ _ hp
      | some tr =>
        rw [htr] at h
        cases hinfo : arenaInfo A (hh + 1) hh with
        | error e => rw [hinfo] at h; exact absurd h (by simp)
        | ok info =>
          obtain ⟨nh, mm, ser⟩ := info
          rw [hinfo] at h
          simp only [new_updated_node, Except.ok.injEq, Prod.mk.injEq] at h
          obtain ⟨-, hs⟩ := h
          subst hs
          exact get?_append_of_some _ _ _ _ hp

/-- `ensure_updated` preserves present slots' contents. -/
theorem ensure_updated_get? (A : Arena) (s : UpdState) (c : NodeOrIndex) (j : Nat)
    (s₂ : UpdState) (h : ensure_updated A s c = .ok (j, s₂))
    (p : Nat) (y : Option UpdatedMemTrieNode)
    (hp : s.updated_nodes.get? p = some y) :
    s₂.updated_nodes.get? p = some y := by
  cases c with
  | Old hh => exact convert_get? A s (some hh) j s₂ h p y hp
  | Updated i =>
    simp only [ensure_updated, Except.ok.injEq, Prod.mk.injEq] at h
    obtain ⟨-, hs⟩ := h
    subst hs
    exact hp

/-- `ensure_updated` preserves the non-leaf-or-hole slot condition. -/
theorem ensure_updated_pres (A : Arena) (s : UpdState) (c : NodeOrIndex) (j : Nat)
    (s₂ : UpdState) (h : ensure_updated A s c = .ok (j, s₂)) (p : Nat)
    (hp : slotNonLeaf s p) : slotNonLeaf s₂ p := by
  obtain ⟨m, hm, hml⟩ | hh := hp
  · exact Or.inl ⟨m, ensure_updated_get? A s c j s₂ h p _ hm, hml⟩
  · exact Or.inr (ensure_updated_get? A s c j s₂ h p _ hh)

/-- `extend_child` never produces `leafSquash`. -/
theorem extend_child_no_leafSquash (A : Arena) (s : UpdState) (node_id : Nat)
    (ext : List Nat) (c : NodeOrIndex) :
    extend_child A s node_id ext c ≠ .error .leafSquash := by
  intro hcon
  unfold extend_child at hcon
  simp only [bind, Except.bind] at hcon
  cases he : ensure_updated A s c with
  | error e =>
    rw [he] at hcon
    injection hcon with h2
    exact ensure_updated_no_leafSquash A s c (by rw [he, h2])
  | ok pr =>
    obtain ⟨cid, s1⟩ := pr
    rw [he] at hcon
    dsimp only at hcon
    cases ht : take_node s1 cid with
    | error e =>
      rw [ht] at hcon
      injection hcon with h2
      exact take_node_no_leafSquash s1 cid (by rw [ht, h2])
    | ok q =>
      obtain ⟨n, s2⟩ := q
      rw [ht] at hcon
      dsimp only at hcon
      cases n with
      | Empty => exact place_node_no_leafSquash _ _ _ hcon
      | Leaf ce v => exact place_node_no_leafSquash _ _ _ hcon
      | Extension ce ic => exact place_node_no_leafSquash _ _ _ hcon
      | Branch cc v =>
        dsimp only at hcon
        cases hp : place_node s2 cid (.Branch cc v) with
        | error e =>
          rw [hp] at hcon
          injection hcon with h2
          exact place_node_no_leafSquash s2 cid (.Branch cc v) (by rw [hp, h2])
        | ok s3 =>
          rw [hp] at hcon
          exact place_node_no_leafSquash _ _ _ hcon

/-- A slot holding a non-leaf node (or a hole) is never squashed through the
leaf arm: `squash_node` cannot return `leafSquash` there. -/
theorem squash_node_no_leafSquash (A : Arena) (s : UpdState) (q : Nat)
    (hcontent : slotNonLeaf s q) :
    squash_node A s q ≠ .error .leafSquash := by
  intro hcon
  unfold squash_node at hcon
  simp only [bind, Except.bind] at hcon
  cases ht : take_node s q with
  | error e =>
    rw [ht] at hcon
    injection hcon with h2
    exact take_node_no_leafSquash s q (by rw [ht, h2])
  | ok pr =>
    obtain ⟨n, s1⟩ := pr
    rw [ht] at hcon
    dsimp only at hcon
    have hnl : isLeafNode n = false := by
      obtain ⟨hget, -⟩ := take_node_ok s q n s1 ht
      obtain ⟨m, hm, hml⟩ | hh := hcontent
      · rw [hget] at hm
        injection hm with hm
        injection hm with hm
        rw [← hm] at hml
        exact hml
      · rw [hget] at hh
        exact absurd hh (by simp)
    cases n with
    | Leaf e v => exact absurd hnl (by simp [isLeafNode])
    | Empty => exact place_node_no_leafSquash _ _ _ hcon
    | Extension e c => exact extend_child_no_leafSquash _ _ _ _ _ hcon
    | Branch cs v =>
      dsimp only at hcon
      cases hcl : clearEmptyChildren s1 cs with
      | error e =>
        rw [hcl] at hcon
        injection hcon with h2
        exact clearEmptyChildren_no_leafSquash s1 cs (by rw [hcl, h2])
      | ok cleared =>
        rw [hcl] at hcon
        dsimp only at hcon
        by_cases h0 : (cleared.filter Option.isSome).length = 0
        · rw [if_pos h0] at hcon
          cases v with
          | none => exact place_node_no_leafSquash _ _ _ hcon
          | some vv => exact place_node_no_leafSquash _ _ _ hcon
        · rw [if_neg h0] at hcon
          by_cases h1 : (cleared.filter Option.isSome).length = 1 ∧ v.isNone = true
          · rw [if_pos h1] at hcon
            cases hhead : (cleared.enum.filterMap
                (fun p => p.2.map (fun node => (p.1, node)))).head? with
            | none => rw [hhead] at hcon; exact absurd hcon (by simp)
            | some t =>
              obtain ⟨idx, child⟩ := t
              rw [hhead] at hcon
              exact extend_child_no_leafSquash _ _ _ _ _ hcon
          · rw [if_neg h1] at hcon
            exact place_node_no_leafSquash _ _ _ hcon

/-- `extend_child` preserves the slot condition away from its own slot. -/
theorem extend_child_pres (A : Arena) (s : UpdState) (node_id : Nat)
    (ext : List Nat) (c : NodeOrIndex) (s₂ : UpdState)
    (hok : extend_child A s node_id ext c = .ok s₂) (p : Nat) (hne : p ≠ node_id)
    (hp : slotNonLeaf s p) : slotNonLeaf s₂ p := by
  unfold extend_child at hok
  simp only [bind, Except.bind] at hok
  cases he : ensure_updated A s c with
  | error e => rw [he] at hok; exact absurd hok (by simp)
  | ok pr =>
    obtain ⟨cid, s1⟩ := pr
    rw [he] at hok
    dsimp only at hok
    have hp1 : slotNonLeaf s1 p := ensure_updated_pres A s c cid s1 he p hp
    cases ht : take_node s1 cid with
    | error e => rw [ht] at hok; exact absurd hok (by simp)
    | ok q =>
      obtain ⟨n, s2⟩ := q
      rw [ht] at hok
      dsimp only at hok
      have hp2 : slotNonLeaf s2 p := take_node_pres s1 cid n s2 ht p hp1
      cases n with
      | Empty => exact place_node_pres_ne _ _ _ _ hok p hne hp2
      | Leaf ce v => exact place_node_pres_ne _ _ _ _ hok p hne hp2
      | Extension ce ic => exact place_node_pres_ne _ _ _ _ hok p hne hp2
      | Branch cc v =>
        dsimp only at hok
        cases hpl : place_node s2 cid (.Branch cc v) with
        | error e => rw [hpl] at hok; exact absurd hok (by simp)
        | ok s3 =>
          rw [hpl] at hok
          have hp3 : slotNonLeaf s3 p :=
            place_node_pres_nonleaf s2 cid (.Branch cc v) s3 hpl (by simp [isLeafNode])
              p hp2
          exact place_node_pres_ne _ _ _ _ hok p hne hp3

/-- `squash_node` preserves the slot condition away from the squashed
slot. -/
theorem squash_node_pres (A : Arena) (s : UpdState) (q : Nat) (s₂ : UpdState)
    (hok : squash_node A s q = .ok s₂) (p : Nat) (hne : p ≠ q)
    (hp : slotNonLeaf s p) : slotNonLeaf s₂ p := by
  unfold squash_node at hok
  simp only [bind, Except.bind] at hok
  cases ht : take_node s q with
  | error e => rw [ht] at hok; exact absurd hok (by simp)
  | ok pr =>
    obtain ⟨n, s1⟩ := pr
    rw [ht] at hok
    dsimp only at hok
    have hp1 : slotNonLeaf s1 p := take_node_pres s q n s1 ht p hp
    cases n with
    | Empty => exact place_node_pres_ne _ _ _ _ hok p hne hp1
    | Leaf e v => exact absurd hok (by simp)
    | Extension e c => exact extend_child_pres _ _ _ _ _ _ hok p hne hp1
    | Branch cs v =>
      dsimp only at hok
      cases hcl : clearEmptyChildren s1 cs with
      | error e => rw [hcl] at hok; exact absurd hok (by simp)
      | ok cleared =>
        rw [hcl] at hok
        dsimp only at hok
        by_cases h0 : (cleared.filter Option.isSome).length = 0
        · rw [if_pos h0] at hok
          cases v with
          | none => exact place_node_pres_ne _ _ _ _ hok p hne hp1
          | some vv => exact place_node_pres_ne _ _ _ _ hok p hne hp1
        · rw [if_neg h0] at hok
          by_cases h1 : (cleared.filter Option.isSome).length = 1 ∧ v.isNone = true
          · rw [if_pos h1] at hok
            cases hhead : (cleared.enum.filterMap
                (fun pp => pp.2.map (fun node => (pp.1, node)))).head? with
            | none => rw [hhead] at hok; exact absurd hok (by simp)
            | some t =>
              obtain ⟨idx, child⟩ := t
              rw [hhead] at hok
              exact extend_child_pres _ _ _ _ _ _ hok p hne hp1
          · rw [if_neg h1] at hok
            exact place_node_pres_ne _ _ _ _ hok p hne hp1

/-- The child-first squash pass over a duplicate-free list of slots holding
non-leaf nodes never reaches the leaf arm of `squash_node`. -/
theorem squashPath_no_leafSquash (A : Arena) :
    ∀ (rev : List Nat) (s : UpdState), rev.Nodup →
      (∀ p ∈ rev, slotNonLeaf s p) →
      squashPath A s rev ≠ .error .leafSquash := by
  intro rev
  induction rev with
  | nil => intro s _ _; simp [squashPath, List.foldlM_nil, pure, Except.pure]
  | cons q rest ih =>
    intro s hnd hall hcon
    unfold squashPath at hcon
    rw [List.foldlM_cons] at hcon
    cases hsq : squash_node A s q with
    | error e =>
      rw [hsq] at hcon
      simp only [bind, Except.bind] at hcon
      injection hcon with h2
      exact squash_node_no_leafSquash A s q (hall q (by simp))
        (by rw [hsq, h2])
    | ok s2 =>
      rw [hsq] at hcon
      simp only [bind, Except.bind] at hcon
      have hnd2 := List.nodup_cons.mp hnd
      refine ih s2 hnd2.2 ?_ hcon
      intro p hpmem
      have hpq : p ≠ q := by
        intro heq
        exact hnd2.1 (heq ▸ hpmem)
      exact squash_node_pres A s q s2 hsq p hpq (hall p (by simp [hpmem]))

/-- `subtract_refcount_for_value` does not touch the update buffer. -/
theorem subtract_refcount_nodes (s : UpdState) (v : FlatStateValue) :
    (subtract_refcount_for_value s v).updated_nodes = s.updated_nodes := by
  unfold subtract_refcount_for_value
  cases s.tracker <;> rfl

/-- A successful deletion leaves a non-leaf node in every slot of the
returned path. -/
theorem deleteLoop_path_nonleaf (A : Arena) :
    ∀ fuel s node_id partialKey path0 s' path,
      deleteLoop A fuel s node_id partialKey path0 = .ok (s', some path) →
      (∀ p ∈ path0, slotPlaced s p) →
      ∀ p ∈ path, slotPlaced s' p := by
  intro fuel
  induction fuel with
  | zero =>
    intro s node_id pk path0 s' path h _
    exact absurd h (by simp [deleteLoop])
  | succ fuel ih =>
    intro s node_id pk path0 s' path h hinv
    unfold deleteLoop at h
    simp only [bind, Except.bind] at h
    cases ht : take_node s node_id with
    | error e => rw [ht] at h; exact absurd h (by simp)
    | ok pr =>
      obtain ⟨n, s1⟩ := pr
      rw [ht] at h
      dsimp only at h
      obtain ⟨hget, hs1⟩ := take_node_ok s node_id n s1 ht
      have hlen : node_id < s.updated_nodes.length := by
        by_contra hge
        rw [List.get?_eq_none.mpr (Nat.le_of_not_lt hge)] at hget
        exact absurd hget (by simp)
      -- common helper: invariant transfer to a state that re-placed node_id
      -- with a non-leaf node over the(possibly extended) buffer
      have htrans : ∀ (s2 : UpdState) (X : UpdatedMemTrieNode),
          isLeafNode X = false →
          (∀ p y, s.updated_nodes.get? p = some y → p ≠ node_id →
            s2.updated_nodes.get? p = some y) →
          (s2.updated_nodes.get? node_id = some (some X)) →
          ∀ p ∈ path0 ++ [node_id], slotPlaced s2 p := by
        intro s2 X hX hpres hat p hpmem
        rcases List.mem_append.mp hpmem with hp0 | hpn
        · by_cases hpn : p = node_id
          · exact ⟨X, hpn ▸ hat, hX⟩
          · obtain ⟨m, hm, hml⟩ := hinv p hp0
            exact ⟨m, hpres p _ hm hpn, hml⟩
        · have : p = node_id := by simpa using hpn
          exact ⟨X, this ▸ hat, hX⟩
      cases n with
      | Empty =>
        dsimp only at h
        cases hp : place_node s1 node_id .Empty with
        | error e => rw [hp] at h; exact absurd h (by simp)
        | ok s2 =>
          rw [hp] at h
          simp only [pure, Except.pure, Except.ok.injEq, Prod.mk.injEq] at h
          exact absurd h.2 (by simp)
      | Leaf ext v =>
        dsimp only at h
        by_cases hmatch : (decodeNibbles ext).fst = pk
        · rw [if_pos hmatch] at h
          cases hp : place_node (subtract_refcount_for_value s1 v) node_id .Empty with
          | error e => rw [hp] at h; exact absurd h (by simp)
          | ok s3 =>
            rw [hp] at h
            simp only [pure, Except.pure, Except.ok.injEq, Prod.mk.injEq] at h
            obtain ⟨hs', hpath⟩ := h
            subst hs'
            have hpath' : path = path0 ++ [node_id] := by
              simpa using hpath.symm
            subst hpath'
            obtain ⟨hg3, hs3⟩ := place_node_ok _ _ _ _ hp
            refine htrans s3 .Empty rfl ?_ ?_
            · intro p y hy hpn
              rw [hs3]
              simp only
              rw [get?_set_ne _ _ _ _ hpn, subtract_refcount_nodes, hs1]
              simp only
              rw [get?_set_ne _ _ _ _ hpn]
              exact hy
            · rw [hs3]
              simp only
              have : node_id < (subtract_refcount_for_value s1 v).updated_nodes.length := by
                rw [subtract_refcount_nodes, hs1]
                simpa using hlen
              simp [List.get?_eq_getElem?, List.getElem?_set, this]
        · rw [if_neg hmatch] at h
          cases hp : place_node s1 node_id (.Leaf ext v) with
          | error e => rw [hp] at h; exact absurd h (by simp)
          | ok s2 =>
            rw [hp] at h
            simp only [pure, Except.pure, Except.ok.injEq, Prod.mk.injEq] at h
            exact absurd h.2 (by simp)
      | Branch old_children v =>
        dsimp only at h
        by_cases hempty : pk.isEmpty = true
        · rw [if_pos hempty] at h
          cases v with
          | none =>
            dsimp only at h
            cases hp : place_node s1 node_id (.Branch old_children none) with
            | error e => rw [hp] at h; exact absurd h (by simp)
            | ok s2 =>
              rw [hp] at h
              simp only [pure, Except.pure, Except.ok.injEq, Prod.mk.injEq] at h
              exact absurd h.2 (by simp)
          | some vv =>
            dsimp only at h
            cases hp : place_node (subtract_refcount_for_value s1 vv) node_id
                (.Branch old_children none) with
            | error e => rw [hp] at h; exact absurd h (by simp)
            | ok s3 =>
              rw [hp] at h
              simp only [pure, Except.pure, Except.ok.injEq, Prod.mk.injEq] at h
              obtain ⟨hs', hpath⟩ := h
              subst hs'
              have hpath' : path = path0 ++ [node_id] := by
                simpa using hpath.symm
              subst hpath'
              obtain ⟨hg3, hs3⟩ := place_node_ok _ _ _ _ hp
              refine htrans s3 (.Branch old_children none) rfl ?_ ?_
              · intro p y hy hpn
                rw [hs3]
                simp only
                rw [get?_set_ne _ _ _ _ hpn, subtract_refcount_nodes, hs1]
                simp only
                rw [get?_set_ne _ _ _ _ hpn]
                exact hy
              · rw [hs3]
                simp only
                have : node_id <
                    (subtract_refcount_for_value s1 vv).updated_nodes.length := by
                  rw [subtract_refcount_nodes, hs1]
                  simpa using hlen
                simp [List.get?_eq_getElem?, List.getElem?_set, this]
        · rw [if_neg hempty] at h
          cases hcg : childGet old_children (pk.headD 0) with
          | error e => rw [hcg] at h; exact absurd h (by simp)
          | ok child =>
            rw [hcg] at h
            dsimp only at h
            cases child with
            | none =>
              dsimp only at h
              cases hp : place_node s1 node_id (.Branch old_children v) with
              | error e => rw [hp] at h; exact absurd h (by simp)
              | ok s2 =>
                rw [hp] at h
                simp only [pure, Except.pure, Except.ok.injEq, Prod.mk.injEq] at h
                exact absurd h.2 (by simp)
            | some old_child_id =>
              dsimp only at h
              cases hen : ensure_updated A s1 old_child_id with
              | error e => rw [hen] at h; exact absurd h (by simp)
              | ok pr2 =>
                obtain ⟨ncid, s2⟩ := pr2
                rw [hen] at h
                dsimp only at h
                cases hcs : childSet old_children (pk.headD 0)
                    (some (.Updated ncid)) with
                | error e => rw [hcs] at h; exact absurd h (by simp)
                | ok new_children =>
                  rw [hcs] at h
                  dsimp only at h
                  cases hp : place_node s2 node_id (.Branch new_children v) with
                  | error e => rw [hp] at h; exact absurd h (by simp)
                  | ok s3 =>
                    rw [hp] at h
                    refine ih s3 ncid (pk.drop 1) (path0 ++ [node_id]) s' path h ?_
                    obtain ⟨hg3, hs3⟩ := place_node_ok _ _ _ _ hp
                    refine htrans s3 (.Branch new_children v) rfl ?_ ?_
                    · intro p y hy hpn
                      rw [hs3]
                      simp only
                      rw [get?_set_ne _ _ _ _ hpn]
                      refine ensure_updated_get? A s1 old_child_id ncid s2 hen p y ?_
                      rw [hs1]
                      simp only
                      rw [get?_set_ne _ _ _ _ hpn]
                      exact hy
                    · rw [hs3]
                      simp only
                      have hlt2 : node_id < s2.updated_nodes.length := by
                        have h1 : s1.updated_nodes.get? node_id = some none := by
                          rw [hs1]
                          simp [List.get?_eq_getElem?, List.getElem?_set, hlen]
                        have h2 := ensure_updated_get? A s1 old_child_id ncid s2 hen
                          node_id none h1
                        by_contra hge
                        rw [List.get?_eq_none.mpr (Nat.le_of_not_lt hge)] at h2
                        exact absurd h2 (by simp)
                      simp [List.get?_eq_getElem?, List.getElem?_set, hlt2]
      | Extension ext child =>
        dsimp only at h
        by_cases hcp : commonPrefixLen (decodeNibbles ext).fst pk =
            (decodeNibbles ext).fst.length
        · rw [if_pos hcp] at h
          cases hen : ensure_updated A s1 child with
          | error e => rw [hen] at h; exact absurd h (by simp)
          | ok pr2 =>
            obtain ⟨ncid, s2⟩ := pr2
            rw [hen] at h
            dsimp only at h
            cases hp : place_node s2 node_id (.Extension ext (.Updated ncid)) with
            | error e => rw [hp] at h; exact absurd h (by simp)
            | ok s3 =>
              rw [hp] at h
              refine ih s3 ncid (pk.drop (decodeNibbles ext).fst.length)
                (path0 ++ [node_id]) s' path h ?_
              obtain ⟨hg3, hs3⟩ := place_node_ok _ _ _ _ hp
              refine htrans s3 (.Extension ext (.Updated ncid)) rfl ?_ ?_
              · intro p y hy hpn
                rw [hs3]
                simp only
                rw [get?_set_ne _ _ _ _ hpn]
                refine ensure_updated_get? A s1 child ncid s2 hen p y ?_
                rw [hs1]
                simp only
                rw [get?_set_ne _ _ _ _ hpn]
                exact hy
              · rw [hs3]
                simp only
                have hlt2 : node_id < s2.updated_nodes.length := by
                  have h1 : s1.updated_nodes.get? node_id = some none := by
                    rw [hs1]
                    simp [List.get?_eq_getElem?, List.getElem?_set, hlen]
                  have h2 := ensure_updated_get? A s1 child ncid s2 hen
                    node_id none h1
                  by_contra hge
                  rw [List.get?_eq_none.mpr (Nat.le_of_not_lt hge)] at h2
                  exact absurd h2 (by simp)
                simp [List.get?_eq_getElem?, List.getElem?_set, hlt2]
        · rw [if_neg hcp] at h
          cases hp : place_node s1 node_id (.Extension ext child) with
          | error e => rw [hp] at h; exact absurd h (by simp)
          | ok s2 =>
            rw [hp] at h
            simp only [pure, Except.pure, Except.ok.injEq, Prod.mk.injEq] at h
            exact absurd h.2 (by simp)

/-- `childGet` errors only with a programmer-error panic. -/
theorem childGet_no_leafSquash (cs : List (Option NodeOrIndex)) (i : Nat) :
    childGet cs i ≠ .error .leafSquash := by
  unfold childGet
  cases h : cs.get? i <;> simp

/-- `childSet` errors only with a programmer-error panic. -/
theorem childSet_no_leafSquash (cs : List (Option NodeOrIndex)) (i : Nat)
    (c : Option NodeOrIndex) : childSet cs i c ≠ .error .leafSquash := by
  unfold childSet
  by_cases h : i < cs.length <;> simp [h]

/-- The deletion descent itself never produces `leafSquash` (it only takes,
places, and converts). -/
theorem deleteLoop_no_leafSquash (A : Arena) :
    ∀ fuel s node_id partialKey path0,
      deleteLoop A fuel s node_id partialKey path0 ≠ .error .leafSquash := by
  intro fuel
  induction fuel with
  | zero => intro s n pk p0; simp [deleteLoop]
  | succ fuel ih =>
    intro s node_id pk path0 hcon
    unfold deleteLoop at hcon
    simp only [bind, Except.bind] at hcon
    cases ht : take_node s node_id with
    | error e =>
      rw [ht] at hcon
      injection hcon with h2
      exact take_node_no_leafSquash s node_id (by rw [ht, h2])
    | ok pr =>
      obtain ⟨n, s1⟩ := pr
      rw [ht] at hcon
      dsimp only at hcon
      cases n with
      | Empty =>
        dsimp only at hcon
        cases hp : place_node s1 node_id .Empty with
        | error e =>
          rw [hp] at hcon
          injection hcon with h2
          exact place_node_no_leafSquash _ _ _ (by rw [hp, h2])
        | ok s2 => rw [hp] at hcon; exact absurd hcon (by simp [pure, Except.pure])
      | Leaf ext v =>
        dsimp only at hcon
        by_cases hmatch : (decodeNibbles ext).fst = pk
        · rw [if_pos hmatch] at hcon
          cases hp : place_node (subtract_refcount_for_value s1 v) node_id .Empty with
          | error e =>
            rw [hp] at hcon
            injection hcon with h2
            exact place_node_no_leafSquash _ _ _ (by rw [hp, h2])
          | ok s2 =>
            rw [hp] at hcon
            exact absurd hcon (by simp [pure, Except.pure])
        · rw [if_neg hmatch] at hcon
          cases hp : place_node s1 node_id (.Leaf ext v) with
          | error e =>
            rw [hp] at hcon
            injection hcon with h2
            exact place_node_no_leafSquash _ _ _ (by rw [hp, h2])
          | ok s2 =>
            rw [hp] at hcon
            exact absurd hcon (by simp [pure, Except.pure])
      | Branch old_children v =>
        dsimp only at hcon
        by_cases hempty : pk.isEmpty = true
        · rw [if_pos hempty] at hcon
          cases v with
          | none =>
            dsimp only at hcon
            cases hp : place_node s1 node_id (.Branch old_children none) with
            | error e =>
              rw [hp] at hcon
              injection hcon with h2
              exact place_node_no_leafSquash _ _ _ (by rw [hp, h2])
            | ok s2 =>
              rw [hp] at hcon
              exact absurd hcon (by simp [pure, Except.pure])
          | some vv =>
            dsimp only at hcon
            cases hp : place_node (subtract_refcount_for_value s1 vv) node_id
                (.Branch old_children none) with
            | error e =>
              rw [hp] at hcon
              injection hcon with h2
              exact place_node_no_leafSquash _ _ _ (by rw [hp, h2])
            | ok s2 =>
              rw [hp] at hcon
              exact absurd hcon (by simp [pure, Except.pure])
        · rw [if_neg hempty] at hcon
          cases hcg : childGet old_children (pk.headD 0) with
          | error e =>
            rw [hcg] at hcon
            injection hcon with h2
            exact childGet_no_leafSquash old_children (pk.headD 0) (by rw [hcg, h2])
          | ok child =>
            rw [hcg] at hcon
            dsimp only at hcon
            cases child with
            | none =>
              dsimp only at hcon
              cases hp : place_node s1 node_id (.Branch old_children v) with
              | error e =>
                rw [hp] at hcon
                injection hcon with h2
                exact place_node_no_leafSquash _ _ _ (by rw [hp, h2])
              | ok s2 =>
                rw [hp] at hcon
                exact absurd hcon (by simp [pure, Except.pure])
            | some old_child_id =>
              dsimp only at hcon
              cases hen : ensure_updated A s1 old_child_id with
              | error e =>
                rw [hen] at hcon
                injection hcon with h2
                exact ensure_updated_no_leafSquash A s1 old_child_id (by rw [hen, h2])
              | ok pr2 =>
                obtain ⟨ncid, s2⟩ := pr2
                rw [hen] at hcon
                dsimp only at hcon
                cases hcs : childSet old_children (pk.headD 0)
                    (some (.Updated ncid)) with
                | error e =>
                  rw [hcs] at hcon
                  injection hcon with h2
                  exact childSet_no_leafSquash old_children (pk.headD 0)
                    (some (.Updated ncid)) (by rw [hcs, h2])
                | ok new_children =>
                  rw [hcs] at hcon
                  dsimp only at hcon
                  cases hp : place_node s2 node_id (.Branch new_children v) with
                  | error e =>
                    rw [hp] at hcon
                    injection hcon with h2
                    exact place_node_no_leafSquash _ _ _ (by rw [hp, h2])
                  | ok s3 =>
                    rw [hp] at hcon
                    exact ih s3 ncid (pk.drop 1) (path0 ++ [node_id]) hcon
      | Extension ext child =>
        dsimp only at hcon
        by_cases hcp : commonPrefixLen (decodeNibbles ext).fst pk =
            (decodeNibbles ext).fst.length
        · rw [if_pos hcp] at hcon
          cases hen : ensure_updated A s1 child with
          | error e =>
            rw [hen] at hcon
            injection hcon with h2
            exact ensure_updated_no_leafSquash A s1 child (by rw [hen, h2])
          | ok pr2 =>
            obtain ⟨ncid, s2⟩ := pr2
            rw [hen] at hcon
            dsimp only at hcon
            cases hp : place_node s2 node_id (.Extension ext (.Updated ncid)) with
            | error e =>
              rw [hp] at hcon
              injection hcon with h2
              exact place_node_no_leafSquash _ _ _ (by rw [hp, h2])
            | ok s3 =>
              rw [hp] at hcon
              exact ih s3 ncid (pk.drop (decodeNibbles ext).fst.length)
                (path0 ++ [node_id]) hcon
        · rw [if_neg hcp] at hcon
          cases hp : place_node s1 node_id (.Extension ext child) with
          | error e =>
            rw [hp] at hcon
            injection hcon with h2
            exact place_node_no_leafSquash _ _ _ (by rw [hp, h2])
          | ok s2 =>
            rw [hp] at hcon
            exact absurd hcon (by simp [pure, Except.pure])

/-- C7: during the post-deletion squash pass over the visited path of a
successful deletion (whose path visits distinct slots, as any tree-shaped
session does), the node found at every squashed slot is Empty, Branch, or
Extension — never a Leaf — so `delete` can never fail through the
`unreachable!()` leaf arm of `squash_node`. -/
theorem delete_no_leaf_squash (A : Arena) (fuel : Nat) (s : UpdState)
    (key : List Nat)
    (hnodup : ∀ s' path,
      deleteLoop A fuel s 0 (nibblesOfBytes key) [] = .ok (s', some path) →
      path.Nodup) :
    delete A fuel s key ≠ .error .leafSquash := by
  intro hcon
  unfold delete at hcon
  simp only [bind, Except.bind] at hcon
  cases hdl : deleteLoop A fuel s 0 (nibblesOfBytes key) [] with
  | error e =>
    rw [hdl] at hcon
    injection hcon with h2
    exact deleteLoop_no_leafSquash A fuel s 0 (nibblesOfBytes key) []
      (by rw [hdl, h2])
  | ok pr =>
    obtain ⟨s', found⟩ := pr
    rw [hdl] at hcon
    dsimp only at hcon
    cases found with
    | none => exact absurd hcon (by simp [pure, Except.pure])
    | some path =>
      refine squashPath_no_leafSquash A path.reverse s' ?_ ?_ hcon
      · exact (List.nodup_reverse).mpr (hnodup s' path hdl)
      · intro p hpmem
        have hpm : p ∈ path := List.mem_reverse.mp hpmem
        obtain ⟨m, hm, hml⟩ := deleteLoop_path_nonleaf A fuel s 0
          (nibblesOfBytes key) [] s' path hdl (by simp) p hpm
        exact Or.inl ⟨m, hm, hml⟩

/-- Witness for C7: deleting the only key of a one-leaf session. -/
theorem delete_no_leaf_squash_witness :
    delete ⟨[]⟩ 5 ⟨none, [some (.Leaf [32, 0] (.inlined [7]))], none⟩ [0] ≠
      .error .leafSquash :=
  delete_no_leaf_squash ⟨[]⟩ 5 ⟨none, [some (.Leaf [32, 0] (.inlined [7]))], none⟩ [0]
    (fun s' path h => by
      have he : deleteLoop ⟨[]⟩ 5
          ⟨none, [some (.Leaf [32, 0] (.inlined [7]))], none⟩ 0
          (nibblesOfBytes [0]) [] =
          .ok ((⟨none, [some .Empty], none⟩ : UpdState), some [0]) := rfl
      rw [he] at h
      have h2 := Except.ok.inj h
      have h3 := congrArg Prod.snd h2
      simp only at h3
      have h4 := Option.some.inj h3
      rw [← h4]
      decide)

/-- `arenaInfo` is monotone in fuel: a successful run keeps its value with
more fuel. -/
theorem arenaInfo_mono (A : Arena) :
    ∀ f1 f2 h x, f1 ≤ f2 → arenaInfo A f1 h = .ok x → arenaInfo A f2 h = .ok x := by
  intro f1
  induction f1 with
  | zero => intro f2 h x _ hx; simp [arenaInfo] at hx
  | succ f1 ih =>
    intro f2 h x hle hx
    obtain ⟨f2', rfl⟩ : ∃ f2', f2 = f2' + 1 := ⟨f2 - 1, by omega⟩
    have hle' : f1 ≤ f2' := by omega
    unfold arenaInfo at hx ⊢
    cases hA : A.nodes.get? h with
    | none => simp only [hA] at hx; exact absurd hx (by simp)
    | some an =>
      simp only [hA] at hx ⊢
      cases an with
      | leafA e v => exact hx
      | extensionA e c =>
        dsimp only at hx ⊢
        cases hc : arenaInfo A f1 c with
        | error e2 => rw [hc] at hx; simp at hx
        | ok y =>
          rw [hc] at hx
          rw [ih f2' c y hle' hc]
          exact hx
      | branchA cs v =>
        dsimp only at hx ⊢
        have hfold : ∀ (l : List (Option Nat)) (acc out : List (Option (List Nat)) × Nat),
            l.foldlM (fun (acc : List (Option (List Nat)) × Nat) c =>
              (match c with
              | none => .ok (acc.1 ++ [none], acc.2)
              | some ch =>
                (arenaInfo A f1 ch).map (fun info =>
                  (acc.1 ++ [some info.1], u64add acc.2 info.2.1))
              : Except TErr (List (Option (List Nat)) × Nat))) acc = .ok out →
            l.foldlM (fun (acc : List (Option (List Nat)) × Nat) c =>
              (match c with
              | none => .ok (acc.1 ++ [none], acc.2)
              | some ch =>
                (arenaInfo A f2' ch).map (fun info =>
                  (acc.1 ++ [some info.1], u64add acc.2 info.2.1))
              : Except TErr (List (Option (List Nat)) × Nat))) acc = .ok out := by
          intro l
          induction l with
          | nil => intro acc out hf; exact hf
          | cons c rest ihl =>
            intro acc out hf
            rw [List.foldlM_cons] at hf ⊢
            cases c with
            | none =>
              simp only [bind, Except.bind] at hf ⊢
              exact ihl _ _ hf
            | some ch =>
              dsimp only at hf ⊢
              cases hch : arenaInfo A f1 ch with
              | error e2 =>
                rw [hch] at hf
                simp [bind, Except.bind, Except.map] at hf
              | ok y =>
                rw [hch] at hf
                rw [ih f2' ch y hle' hch]
                simp only [bind, Except.bind, Except.map] at hf ⊢
                exact ihl _ _ hf
        cases hf : cs.foldlM (fun (acc : List (Option (List Nat)) × Nat) c =>
            (match c with
            | none => .ok (acc.1 ++ [none], acc.2)
            | some ch =>
              (arenaInfo A f1 ch).map (fun info =>
                (acc.1 ++ [some info.1], u64add acc.2 info.2.1))
            : Except TErr (List (Option (List Nat)) × Nat)))
            ([], TRIE_COSTS.node_cost) with
        | error e2 => rw [hf] at hx; simp at hx
        | ok p =>
          rw [hf] at hx
          rw [hfold cs ([], TRIE_COSTS.node_cost) p hf]
          exact hx

/-- `refNodeInfo` is monotone in fuel. -/
theorem refNodeInfo_mono (A : Arena) (nodes : List (Option UpdatedMemTrieNode)) :
    ∀ f1 f2 i x, f1 ≤ f2 → refNodeInfo A nodes f1 i = .ok x →
      refNodeInfo A nodes f2 i = .ok x := by
  intro f1
  induction f1 with
  | zero => intro f2 i x _ hx; simp [refNodeInfo] at hx
  | succ f1 ih =>
    intro f2 i x hle hx
    obtain ⟨f2', rfl⟩ : ∃ f2', f2 = f2' + 1 := ⟨f2 - 1, by omega⟩
    have hle' : f1 ≤ f2' := by omega
    unfold refNodeInfo at hx ⊢
    cases hg : nodes.get? i with
    | none => simp only [hg] at hx; exact absurd hx (by simp)
    | some o =>
      cases o with
      | none => simp only [hg] at hx; exact absurd hx (by simp)
      | some n =>
        simp only [hg] at hx ⊢
        cases n with
        | Empty => exact absurd hx (by simp)
        | Leaf e v => exact hx
        | Extension e c =>
          dsimp only at hx ⊢
          cases c with
          | Old hh => exact hx
          | Updated j =>
            dsimp only at hx ⊢
            cases hc : refNodeInfo A nodes f1 j with
            | error e2 =>
              rw [hc] at hx
              simp [Except.map] at hx
            | ok y =>
              rw [hc] at hx
              rw [ih f2' j y hle' hc]
              exact hx
        | Branch cs v =>
          dsimp only at hx ⊢
          have hfold : ∀ (l : List (Option NodeOrIndex))
              (acc out : List (Option (List Nat)) × Nat),
              l.foldlM (fun (acc : List (Option (List Nat)) × Nat) child =>
                (match child with
                | some (.Old h) => (arenaInfo A (h + 1) h).map
                    (fun t => (acc.1 ++ [some t.1], u64add acc.2 t.2.1))
                | some (.Updated j) => (refNodeInfo A nodes f1 j).map
                    (fun t => (acc.1 ++ [some t.1], u64add acc.2 t.2.1))
                | none => .ok (acc.1 ++ [none], acc.2)
                : Except TErr (List (Option (List Nat)) × Nat)))
                acc = .ok out →
              l.foldlM (fun (acc : List (Option (List Nat)) × Nat) child =>
                (match child with
                | some (.Old h) => (arenaInfo A (h + 1) h).map
                    (fun t => (acc.1 ++ [some t.1], u64add acc.2 t.2.1))
                | some (.Updated j) => (refNodeInfo A nodes f2' j).map
                    (fun t => (acc.1 ++ [some t.1], u64add acc.2 t.2.1))
                | none => .ok (acc.1 ++ [none], acc.2)
                : Except TErr (List (Option (List Nat)) × Nat)))
                acc = .ok out := by
            intro l
            induction l with
            | nil => intro acc out hf; exact hf
            | cons c rest ihl =>
              intro acc out hf
              rw [List.foldlM_cons] at hf ⊢
              cases c with
              | none =>
                simp only [bind, Except.bind] at hf ⊢
                exact ihl _ _ hf
              | some x2 =>
                cases x2 with
                | Old hh =>
                  dsimp only at hf ⊢
                  simp only [bind, Except.bind] at hf ⊢
                  cases hch : arenaInfo A (hh + 1) hh with
                  | error e2 =>
                    simp only [hch] at hf
                    simp [Except.map] at hf
                  | ok y =>
                    simp only [hch] at hf ⊢
                    simp only [Except.map] at hf ⊢
                    exact ihl _ _ hf
                | Updated j =>
                  dsimp only at hf ⊢
                  simp only [bind, Except.bind] at hf ⊢
                  cases hch : refNodeInfo A nodes f1 j with
                  | error e2 =>
                    simp only [hch] at hf
                    simp [Except.map] at hf
                  | ok y =>
                    simp only [hch] at hf
                    simp only [ih f2' j y hle' hch]
                    simp only [Except.map] at hf ⊢
                    exact ihl _ _ hf
          cases hf : cs.foldlM (fun (acc : List (Option (List Nat)) × Nat) child =>
              (match child with
              | some (.Old h) => (arenaInfo A (h + 1) h).map
                  (fun t => (acc.1 ++ [some t.1], u64add acc.2 t.2.1))
              | some (.Updated j) => (refNodeInfo A nodes f1 j).map
                  (fun t => (acc.1 ++ [some t.1], u64add acc.2 t.2.1))
              | none => .ok (acc.1 ++ [none], acc.2)
              : Except TErr (List (Option (List Nat)) × Nat)))
              ([], TRIE_COSTS.node_cost) with
          | error e2 => rw [hf] at hx; simp at hx
          | ok p =>
            rw [hf] at hx
            rw [hfold cs ([], TRIE_COSTS.node_cost) p hf]
            exact hx


/-- Setting a slot to the value it already holds is the identity. -/
theorem set_same {α : Type} :
    ∀ (l : List α) (p : Nat) (x : α), l.get? p = some x → l.set p x = l := by
  intro l
  induction l with
  | nil => intro p x h; simp at h
  | cons a t ih =>
    intro p x h
    cases p with
    | zero =>
      simp only [List.get?] at h
      injection h with h
      simp [h]
    | succ p =>
      simp only [List.get?] at h
      show a :: t.set p x = a :: t
      rw [ih p x h]

/-- Reading back a just-set slot. -/
theorem get?_set_self {α : Type} (l : List α) (p : Nat) (x : α) (h : p < l.length) :
    (l.set p x).get? p = some x := by
  simp [List.get?_eq_getElem?, List.getElem?_set, h]

/-- Reading the appended element. -/
theorem get?_append_self {α : Type} (l : List α) (x : α) :
    (l ++ [x]).get? l.length = some x := by
  rw [List.get?_append_right (le_refl _)]
  simp

/-- `set` on the left part commutes with appending. -/
theorem set_append_left {α : Type} :
    ∀ (l : List α) (l2 : List α) (p : Nat) (x : α), p < l.length →
      l.set p x ++ l2 = (l ++ l2).set p x := by
  intro l
  induction l with
  | nil => intro l2 p x h; simp at h
  | cons a t ih =>
    intro l2 p x h
    cases p with
    | zero => simp
    | succ p =>
      show a :: (t.set p x ++ l2) = a :: ((t ++ l2).set p x)
      rw [ih l2 p x (by simpa using h)]

/-- Wrapped `u64` addition is associative. -/
theorem u64add_assoc (a b c : Nat) : u64add (u64add a b) c = u64add a (u64add b c) := by
  show ((a + b) % 2 ^ 64 + c) % 2 ^ 64 = (a + (b + c) % 2 ^ 64) % 2 ^ 64
  rw [Nat.mod_add_mod, Nat.add_mod_mod, Nat.add_assoc]

/-- Every element of a successfully folded list was processed successfully
at some accumulator. -/
theorem foldlM_mem_ok {α β : Type} (f : β → α → Except TErr β) :
    ∀ (l : List α) (b r : β), l.foldlM f b = .ok r →
      ∀ a ∈ l, ∃ acc r', f acc a = .ok r' := by
  intro l
  induction l with
  | nil => intro b r _ a ha; simp at ha
  | cons c rest ih =>
    intro b r hf a ha
    rw [List.foldlM_cons] at hf
    cases hc : f b c with
    | error e => rw [hc] at hf; simp [bind, Except.bind] at hf
    | ok b' =>
      rw [hc] at hf
      simp only [bind, Except.bind] at hf
      rcases List.mem_cons.mp ha with rfl | ha'
      · exact ⟨b, b', hc⟩
      · exact ih b' r hf a ha'

/-- In a well-formed arena a successful `arenaInfo` at any fuel is already
obtained at the canonical fuel `h + 1` (children handles are smaller than
their parents'). -/
theorem arenaInfo_canon (A : Arena) (hwf : wfArena A) :
    ∀ f h x, arenaInfo A f h = .ok x → arenaInfo A (h + 1) h = .ok x := by
  intro f
  induction f with
  | zero => intro h x hx; simp [arenaInfo] at hx
  | succ f ih =>
    intro h x hx
    unfold arenaInfo at hx ⊢
    cases hA : A.nodes.get? h with
    | none => simp only [hA] at hx; exact absurd hx (by simp)
    | some an =>
      simp only [hA] at hx ⊢
      cases an with
      | leafA e v => exact hx
      | extensionA e c =>
        dsimp only at hx ⊢
        have hlt : c < h := by have := hwf h; rw [hA] at this; exact this
        cases hc : arenaInfo A f c with
        | error e2 => rw [hc] at hx; simp at hx
        | ok y =>
          rw [hc] at hx
          rw [arenaInfo_mono A (c + 1) h c y (by omega) (ih c y hc)]
          exact hx
      | branchA cs v =>
        dsimp only at hx ⊢
        have hwfh : ∀ c ∈ cs.filterMap id, c < h := by
          have := hwf h; rw [hA] at this; exact this
        have hfold : ∀ (l : List (Option Nat)), (∀ ch, some ch ∈ l → ch < h) →
            ∀ (acc out : List (Option (List Nat)) × Nat),
            l.foldlM (fun (acc : List (Option (List Nat)) × Nat) c =>
              (match c with
              | none => .ok (acc.1 ++ [none], acc.2)
              | some ch =>
                (arenaInfo A f ch).map (fun info =>
                  (acc.1 ++ [some info.1], u64add acc.2 info.2.1))
              : Except TErr (List (Option (List Nat)) × Nat))) acc = .ok out →
            l.foldlM (fun (acc : List (Option (List Nat)) × Nat) c =>
              (match c with
              | none => .ok (acc.1 ++ [none], acc.2)
              | some ch =>
                (arenaInfo A h ch).map (fun info =>
                  (acc.1 ++ [some info.1], u64add acc.2 info.2.1))
              : Except TErr (List (Option (List Nat)) × Nat))) acc = .ok out := by
          intro l
          induction l with
          | nil => intro _ acc out hf; exact hf
          | cons c rest ihl =>
            intro hmem acc out hf
            rw [List.foldlM_cons] at hf ⊢
            cases c with
            | none =>
              simp only [bind, Except.bind] at hf ⊢
              exact ihl (fun ch hch => hmem ch (List.mem_cons_of_mem _ hch)) _ _ hf
            | some ch =>
              dsimp only at hf ⊢
              simp only [bind, Except.bind] at hf ⊢
              cases hch : arenaInfo A f ch with
              | error e2 =>
                rw [hch] at hf
                simp [Except.map] at hf
              | ok y =>
                rw [hch] at hf
                have hlt : ch < h := hmem ch (List.mem_cons_self _ _)
                rw [arenaInfo_mono A (ch + 1) h ch y (by omega) (ih ch y hch)]
                simp only [Except.map] at hf ⊢
                exact ihl (fun c2 hc2 => hmem c2 (List.mem_cons_of_mem _ hc2)) _ _ hf
        cases hfcs : cs.foldlM (fun (acc : List (Option (List Nat)) × Nat) c =>
            (match c with
            | none => .ok (acc.1 ++ [none], acc.2)
            | some ch =>
              (arenaInfo A f ch).map (fun info =>
                (acc.1 ++ [some info.1], u64add acc.2 info.2.1))
            : Except TErr (List (Option (List Nat)) × Nat)))
            ([], TRIE_COSTS.node_cost) with
        | error e2 => rw [hfcs] at hx; simp at hx
        | ok p =>
          rw [hfcs] at hx
          rw [hfold cs
            (fun ch hch => hwfh ch (List.mem_filterMap.mpr ⟨some ch, hch, rfl⟩))
            ([], TRIE_COSTS.node_cost) p hfcs]
          exact hx

/-- Two successful resolutions of the same slot (at any fuels) agree. -/
theorem refNodeInfo_det (A : Arena) (nodes : List (Option UpdatedMemTrieNode))
    (f1 f2 i : Nat) (x y : List Nat × Nat × List Nat)
    (h1 : refNodeInfo A nodes f1 i = .ok x) (h2 : refNodeInfo A nodes f2 i = .ok y) :
    x = y := by
  have e1 := refNodeInfo_mono A nodes f1 (f1 + f2) i x (by omega) h1
  have e2 := refNodeInfo_mono A nodes f2 (f1 + f2) i y (by omega) h2
  rw [e1] at e2
  injection e2

/-- A pristine conversion slot (an arena node copied with `Old` children)
resolves to exactly the arena node's `(hash, memory usage, serialized)`
triple, at any positive fuel. -/
theorem refNodeInfo_pristine (A : Arena) (hwf : wfArena A)
    (ns : List (Option UpdatedMemTrieNode)) (fuel L h : Nat) (an : ArenaNode)
    (x : List Nat × Nat × List Nat)
    (hA : A.nodes.get? h = some an)
    (hL : ns.get? L = some (some (from_existing_node_view an)))
    (hinfo : arenaInfo A (h + 1) h = .ok x) :
    refNodeInfo A ns (fuel + 1) L = .ok x := by
  unfold arenaInfo at hinfo
  rw [hA] at hinfo
  cases an with
  | leafA e v =>
    simp only [from_existing_node_view] at hL
    unfold refNodeInfo
    rw [hL]
    dsimp only at hinfo ⊢
    rw [u64add_assoc (u64add TRIE_COSTS.node_cost
      (u64mul e.length TRIE_COSTS.byte_of_key))
      (u64mul v.value_len TRIE_COSTS.byte_of_value) TRIE_COSTS.node_cost]
    exact hinfo
  | extensionA e c =>
    simp only [from_existing_node_view] at hL
    unfold refNodeInfo
    rw [hL]
    dsimp only at hinfo ⊢
    cases hc : arenaInfo A h c with
    | error e2 => rw [hc] at hinfo; exact absurd hinfo (by simp)
    | ok y =>
      rw [hc] at hinfo
      rw [arenaInfo_canon A hwf h c y hc]
      simp only [Except.map]
      exact hinfo
  | branchA cs v =>
    simp only [from_existing_node_view] at hL
    unfold refNodeInfo
    rw [hL]
    dsimp only at hinfo ⊢
    have hfold : ∀ (l : List (Option Nat)) (acc out : List (Option (List Nat)) × Nat),
        l.foldlM (fun (acc : List (Option (List Nat)) × Nat) c =>
          (match c with
          | none => .ok (acc.1 ++ [none], acc.2)
          | some ch =>
            (arenaInfo A h ch).map (fun info =>
              (acc.1 ++ [some info.1], u64add acc.2 info.2.1))
          : Except TErr (List (Option (List Nat)) × Nat))) acc = .ok out →
        (l.map (Option.map NodeOrIndex.Old)).foldlM
          (fun (acc : List (Option (List Nat)) × Nat) child =>
          (match child with
          | some (.Old h2) => (arenaInfo A (h2 + 1) h2).map
              (fun t => (acc.1 ++ [some t.1], u64add acc.2 t.2.1))
          | some (.Updated j) => (refNodeInfo A ns fuel j).map
              (fun t => (acc.1 ++ [some t.1], u64add acc.2 t.2.1))
          | none => .ok (acc.1 ++ [none], acc.2)
          : Except TErr (List (Option (List Nat)) × Nat))) acc = .ok out := by
      intro l
      induction l with
      | nil => intro acc out hf; exact hf
      | cons c rest ihl =>
        intro acc out hf
        rw [List.foldlM_cons] at hf
        rw [List.map_cons, List.foldlM_cons]
        cases c with
        | none =>
          simp only [bind, Except.bind, Option.map_none'] at hf ⊢
          exact ihl _ _ hf
        | some ch =>
          simp only [bind, Except.bind, Option.map_some'] at hf ⊢
          cases hc : arenaInfo A h ch with
          | error e2 =>
            rw [hc] at hf
            simp [Except.map] at hf
          | ok y =>
            rw [hc] at hf
            rw [arenaInfo_canon A hwf h ch y hc]
            simp only [Except.map] at hf ⊢
            exact ihl _ _ hf
    cases hfcs : cs.foldlM (fun (acc : List (Option (List Nat)) × Nat) c =>
        (match c with
        | none => .ok (acc.1 ++ [none], acc.2)
        | some ch =>
          (arenaInfo A h ch).map (fun info =>
            (acc.1 ++ [some info.1], u64add acc.2 info.2.1))
        : Except TErr (List (Option (List Nat)) × Nat)))
        ([], TRIE_COSTS.node_cost) with
    | error e2 => rw [hfcs] at hinfo; exact absurd hinfo (by simp)
    | ok p =>
      rw [hfcs] at hinfo
      rw [hfold cs ([], TRIE_COSTS.node_cost) p hfcs]
      exact hinfo

/-- A present slot index is in bounds. -/
theorem get?_some_lt {α : Type} (l : List α) (p : Nat) (x : α)
    (h : l.get? p = some x) : p < l.length := by
  by_contra hge
  rw [List.get?_eq_none.mpr (Nat.le_of_not_lt hge)] at h
  exact absurd h (by simp)

/-- A successful resolution implies the slot holds a non-`Empty` node. -/
theorem refNodeInfo_some (A : Arena) (ns : List (Option UpdatedMemTrieNode))
    (F i : Nat) (x : List Nat × Nat × List Nat)
    (hx : refNodeInfo A ns F i = .ok x) :
    ∃ n, ns.get? i = some (some n) ∧ n ≠ .Empty := by
  cases F with
  | zero => simp [refNodeInfo] at hx
  | succ F =>
    unfold refNodeInfo at hx
    cases hg : ns.get? i with
    | none => simp only [hg] at hx; exact absurd hx (by simp)
    | some o =>
      cases o with
      | none => simp only [hg] at hx; exact absurd hx (by simp)
      | some n =>
        refine ⟨n, rfl, ?_⟩
        intro hne
        subst hne
        simp only [hg] at hx
        exact absurd hx (by simp)

/-- One conversion step preserves the resolution of every slot: the
converted child resolves, through the pristine slot, to the same triple the
arena gave for the `Old` handle. -/
theorem refNodeInfo_convStep (A : Arena) (hwf : wfArena A)
    (ns ns' : List (Option UpdatedMemTrieNode)) (hstep : ConvStep A ns ns') :
    ∀ F i x, refNodeInfo A ns F i = .ok x → refNodeInfo A ns' (2 * F) i = .ok x := by
  cases hstep with
  | skip => exact fun F i x hx => refNodeInfo_mono A ns F (2 * F) i x (by omega) hx
  | branchC q idx h cs v an hq hc hA =>
    have hqlt : q < ns.length := get?_some_lt _ _ _ hq
    set P : Option UpdatedMemTrieNode := some (from_existing_node_view an) with hP
    set n2 : UpdatedMemTrieNode :=
      .Branch (cs.set idx (some (.Updated ns.length))) v with hn2
    set ns2 : List (Option UpdatedMemTrieNode) := (ns ++ [P]).set q (some n2) with hns2
    have hns2q : ns2.get? q = some (some n2) := by
      rw [hns2]
      exact get?_set_self _ _ _ (by simp; omega)
    have hns2L : ns2.get? ns.length = some P := by
      rw [hns2, get?_set_ne _ _ _ _ (by omega)]
      exact get?_append_self _ _
    have hns2o : ∀ j y, j ≠ q → ns.get? j = some y → ns2.get? j = some y := by
      intro j y hne hy
      rw [hns2, get?_set_ne _ _ _ _ hne]
      exact get?_append_of_some _ _ _ _ hy
    intro F
    induction F with
    | zero => intro i x hx; simp [refNodeInfo] at hx
    | succ F ihF =>
      intro i x hx
      have h2 : 2 * (F + 1) = (2 * F + 1) + 1 := by omega
      rw [h2]
      have htrans : ∀ (l : List (Option NodeOrIndex))
          (acc out : List (Option (List Nat)) × Nat),
          l.foldlM (fun (acc : List (Option (List Nat)) × Nat) child =>
            (match child with
            | some (.Old h3) => (arenaInfo A (h3 + 1) h3).map
                (fun t => (acc.1 ++ [some t.1], u64add acc.2 t.2.1))
            | some (.Updated j) => (refNodeInfo A ns F j).map
                (fun t => (acc.1 ++ [some t.1], u64add acc.2 t.2.1))
            | none => .ok (acc.1 ++ [none], acc.2)
            : Except TErr (List (Option (List Nat)) × Nat)))
            acc = .ok out →
          l.foldlM (fun (acc : List (Option (List Nat)) × Nat) child =>
            (match child with
            | some (.Old h3) => (arenaInfo A (h3 + 1) h3).map
                (fun t => (acc.1 ++ [some t.1], u64add acc.2 t.2.1))
            | some (.Updated j) => (refNodeInfo A ns2 (2 * F + 1) j).map
                (fun t => (acc.1 ++ [some t.1], u64add acc.2 t.2.1))
            | none => .ok (acc.1 ++ [none], acc.2)
            : Except TErr (List (Option (List Nat)) × Nat)))
            acc = .ok out := by
        intro l
        induction l with
        | nil => intro acc out hf; exact hf
        | cons c rest ihl =>
          intro acc out hf
          rw [List.foldlM_cons] at hf ⊢
          cases c with
          | none =>
            simp only [bind, Except.bind] at hf ⊢
            exact ihl _ _ hf
          | some x2 =>
            cases x2 with
            | Old hh =>
              dsimp only at hf ⊢
              simp only [bind, Except.bind] at hf ⊢
              cases hch : arenaInfo A (hh + 1) hh with
              | error e2 =>
                simp only [hch] at hf
                simp [Except.map] at hf
              | ok y =>
                simp only [hch] at hf ⊢
                simp only [Except.map] at hf ⊢
                exact ihl _ _ hf
            | Updated j =>
              dsimp only at hf ⊢
              simp only [bind, Except.bind] at hf ⊢
              cases hch : refNodeInfo A ns F j with
              | error e2 =>
                simp only [hch] at hf
                simp [Except.map] at hf
              | ok y =>
                simp only [hch] at hf
                simp only [refNodeInfo_mono A ns2 (2 * F) (2 * F + 1) j y
                  (by omega) (ihF j y hch)]
                simp only [Except.map] at hf ⊢
                exact ihl _ _ hf
      have hset : ∀ (l : List (Option NodeOrIndex)) (k : Nat)
          (acc out : List (Option (List Nat)) × Nat),
          l.get? k = some (some (.Old h)) →
          l.foldlM (fun (acc : List (Option (List Nat)) × Nat) child =>
            (match child with
            | some (.Old h3) => (arenaInfo A (h3 + 1) h3).map
                (fun t => (acc.1 ++ [some t.1], u64add acc.2 t.2.1))
            | some (.Updated j) => (refNodeInfo A ns F j).map
                (fun t => (acc.1 ++ [some t.1], u64add acc.2 t.2.1))
            | none => .ok (acc.1 ++ [none], acc.2)
            : Except TErr (List (Option (List Nat)) × Nat)))
            acc = .ok out →
          (l.set k (some (.Updated ns.length))).foldlM
            (fun (acc : List (Option (List Nat)) × Nat) child =>
            (match child with
            | some (.Old h3) => (arenaInfo A (h3 + 1) h3).map
                (fun t => (acc.1 ++ [some t.1], u64add acc.2 t.2.1))
            | some (.Updated j) => (refNodeInfo A ns2 (2 * F + 1) j).map
                (fun t => (acc.1 ++ [some t.1], u64add acc.2 t.2.1))
            | none => .ok (acc.1 ++ [none], acc.2)
            : Except TErr (List (Option (List Nat)) × Nat)))
            acc = .ok out := by
        intro l
        induction l with
        | nil => intro k acc out hk hf; simp at hk
        | cons c rest ihl =>
          intro k acc out hk hf
          cases k with
          | zero =>
            simp only [List.get?] at hk
            injection hk with hk
            subst hk
            rw [List.foldlM_cons] at hf
            rw [List.set_cons_zero, List.foldlM_cons]
            dsimp only at hf ⊢
            simp only [bind, Except.bind] at hf ⊢
            cases harena : arenaInfo A (h + 1) h with
            | error e2 =>
              simp only [harena] at hf
              simp [Except.map] at hf
            | ok t =>
              simp only [harena] at hf
              simp only [refNodeInfo_pristine A hwf ns2 (2 * F) ns.length h an t
                hA hns2L harena]
              simp only [Except.map] at hf ⊢
              exact htrans _ _ _ hf
          | succ k =>
            simp only [List.get?] at hk
            rw [List.foldlM_cons] at hf
            rw [List.set_cons_succ, List.foldlM_cons]
            cases c with
            | none =>
              simp only [bind, Except.bind] at hf ⊢
              exact ihl k _ _ hk hf
            | some x2 =>
              cases x2 with
              | Old hh =>
                dsimp only at hf ⊢
                simp only [bind, Except.bind] at hf ⊢
                cases hch : arenaInfo A (hh + 1) hh with
                | error e2 =>
                  simp only [hch] at hf
                  simp [Except.map] at hf
                | ok y =>
                  simp only [hch] at hf ⊢
                  simp only [Except.map] at hf ⊢
                  exact ihl k _ _ hk hf
              | Updated j =>
                dsimp only at hf ⊢
                simp only [bind, Except.bind] at hf ⊢
                cases hch : refNodeInfo A ns F j with
                | error e2 =>
                  simp only [hch] at hf
                  simp [Except.map] at hf
                | ok y =>
                  simp only [hch] at hf
                  simp only [refNodeInfo_mono A ns2 (2 * F) (2 * F + 1) j y
                    (by omega) (ihF j y hch)]
                  simp only [Except.map] at hf ⊢
                  exact ihl k _ _ hk hf
      unfold refNodeInfo at hx ⊢
      cases hgi : ns.get? i with
      | none => simp only [hgi] at hx; exact absurd hx (by simp)
      | some o =>
        cases o with
        | none => simp only [hgi] at hx; exact absurd hx (by simp)
        | some n =>
          simp only [hgi] at hx
          by_cases hiq : i = q
          · subst hiq
            have hnb : n = .Branch cs v := by
              have hh2 := hq.symm.trans hgi
              injection hh2 with hh2
              injection hh2 with hh2
              exact hh2.symm
            subst hnb
            rw [hns2q]
            dsimp only at hx ⊢
            cases hfx : cs.foldlM (fun (acc : List (Option (List Nat)) × Nat) child =>
                (match child with
                | some (.Old h3) => (arenaInfo A (h3 + 1) h3).map
                    (fun t => (acc.1 ++ [some t.1], u64add acc.2 t.2.1))
                | some (.Updated j) => (refNodeInfo A ns F j).map
                    (fun t => (acc.1 ++ [some t.1], u64add acc.2 t.2.1))
                | none => .ok (acc.1 ++ [none], acc.2)
                : Except TErr (List (Option (List Nat)) × Nat)))
                ([], TRIE_COSTS.node_cost) with
            | error e2 => rw [hfx] at hx; simp at hx
            | ok p =>
              rw [hfx] at hx
              rw [hset cs idx ([], TRIE_COSTS.node_cost) p hc hfx]
              exact hx
          · have hg2 : ns2.get? i = some (some n) := hns2o i _ hiq hgi
            rw [hg2]
            cases n with
            | Empty => exact absurd hx (by simp)
            | Leaf e v2 => exact hx
            | Extension e c =>
              dsimp only at hx ⊢
              cases c with
              | Old hh => exact hx
              | Updated j =>
                dsimp only at hx ⊢
                cases hch : refNodeInfo A ns F j with
                | error e2 =>
                  simp only [hch] at hx
                  simp [Except.map] at hx
                | ok y =>
                  simp only [hch] at hx
                  simp only [refNodeInfo_mono A ns2 (2 * F) (2 * F + 1) j y
                    (by omega) (ihF j y hch)]
                  exact hx
            | Branch cs2 v2 =>
              dsimp only at hx ⊢
              cases hfx : cs2.foldlM (fun (acc : List (Option (List Nat)) × Nat) child =>
                  (match child with
                  | some (.Old h3) => (arenaInfo A (h3 + 1) h3).map
                      (fun t => (acc.1 ++ [some t.1], u64add acc.2 t.2.1))
                  | some (.Updated j) => (refNodeInfo A ns F j).map
                      (fun t => (acc.1 ++ [some t.1], u64add acc.2 t.2.1))
                  | none => .ok (acc.1 ++ [none], acc.2)
                  : Except TErr (List (Option (List Nat)) × Nat)))
                  ([], TRIE_COSTS.node_cost) with
              | error e2 => rw [hfx] at hx; simp at hx
              | ok p =>
                rw [hfx] at hx
                rw [htrans cs2 ([], TRIE_COSTS.node_cost) p hfx]
                exact hx
  | extC q h e an hq hA =>
    have hqlt : q < ns.length := get?_some_lt _ _ _ hq
    set P : Option UpdatedMemTrieNode := some (from_existing_node_view an) with hP
    set n2 : UpdatedMemTrieNode := .Extension e (.Updated ns.length) with hn2
    set ns2 : List (Option UpdatedMemTrieNode) := (ns ++ [P]).set q (some n2) with hns2
    have hns2q : ns2.get? q = some (some n2) := by
      rw [hns2]
      exact get?_set_self _ _ _ (by simp; omega)
    have hns2L : ns2.get? ns.length = some P := by
      rw [hns2, get?_set_ne _ _ _ _ (by omega)]
      exact get?_append_self _ _
    have hns2o : ∀ j y, j ≠ q → ns.get? j = some y → ns2.get? j = some y := by
      intro j y hne hy
      rw [hns2, get?_set_ne _ _ _ _ hne]
      exact get?_append_of_some _ _ _ _ hy
    intro F
    induction F with
    | zero => intro i x hx; simp [refNodeInfo] at hx
    | succ F ihF =>
      intro i x hx
      have h2 : 2 * (F + 1) = (2 * F + 1) + 1 := by omega
      rw [h2]
      have htrans : ∀ (l : List (Option NodeOrIndex))
          (acc out : List (Option (List Nat)) × Nat),
          l.foldlM (fun (acc : List (Option (List Nat)) × Nat) child =>
            (match child with
            | some (.Old h3) => (arenaInfo A (h3 + 1) h3).map
                (fun t => (acc.1 ++ [some t.1], u64add acc.2 t.2.1))
            | some (.Updated j) => (refNodeInfo A ns F j).map
                (fun t => (acc.1 ++ [some t.1], u64add acc.2 t.2.1))
            | none => .ok (acc.1 ++ [none], acc.2)
            : Except TErr (List (Option (List Nat)) × Nat)))
            acc = .ok out →
          l.foldlM (fun (acc : List (Option (List Nat)) × Nat) child =>
            (match child with
            | some (.Old h3) => (arenaInfo A (h3 + 1) h3).map
                (fun t => (acc.1 ++ [some t.1], u64add acc.2 t.2.1))
            | some (.Updated j) => (refNodeInfo A ns2 (2 * F + 1) j).map
                (fun t => (acc.1 ++ [some t.1], u64add acc.2 t.2.1))
            | none => .ok (acc.1 ++ [none], acc.2)
            : Except TErr (List (Option (List Nat)) × Nat)))
            acc = .ok out := by
        intro l
        induction l with
        | nil => intro acc out hf; exact hf
        | cons c rest ihl =>
          intro acc out hf
          rw [List.foldlM_cons] at hf ⊢
          cases c with
          | none =>
            simp only [bind, Except.bind] at hf ⊢
            exact ihl _ _ hf
          | some x2 =>
            cases x2 with
            | Old hh =>
              dsimp only at hf ⊢
              simp only [bind, Except.bind] at hf ⊢
              cases hch : arenaInfo A (hh + 1) hh with
              | error e2 =>
                simp only [hch] at hf
                simp [Except.map] at hf
              | ok y =>
                simp only [hch] at hf ⊢
                simp only [Except.map] at hf ⊢
                exact ihl _ _ hf
            | Updated j =>
              dsimp only at hf ⊢
              simp only [bind, Except.bind] at hf ⊢
              cases hch : refNodeInfo A ns F j with
              | error e2 =>
                simp only [hch] at hf
                simp [Except.map] at hf
              | ok y =>
                simp only [hch] at hf
                simp only [refNodeInfo_mono A ns2 (2 * F) (2 * F + 1) j y
                  (by omega) (ihF j y hch)]
                simp only [Except.map] at hf ⊢
                exact ihl _ _ hf
      unfold refNodeInfo at hx ⊢
      cases hgi : ns.get? i with
      | none => simp only [hgi] at hx; exact absurd hx (by simp)
      | some o =>
        cases o with
        | none => simp only [hgi] at hx; exact absurd hx (by simp)
        | some n =>
          simp only [hgi] at hx
          by_cases hiq : i = q
          · subst hiq
            have hnb : n = .Extension e (.Old h) := by
              have hh2 := hq.symm.trans hgi
              injection hh2 with hh2
              injection hh2 with hh2
              exact hh2.symm
            subst hnb
            rw [hns2q]
            dsimp only at hx ⊢
            cases harena : arenaInfo A (h + 1) h with
            | error e2 =>
              simp only [harena] at hx
              simp [Except.map] at hx
            | ok t =>
              simp only [harena] at hx
              simp only [refNodeInfo_pristine A hwf ns2 (2 * F) ns.length h an t
                hA hns2L harena]
              simp only [Except.map] at hx ⊢
              exact hx
          · have hg2 : ns2.get? i = some (some n) := hns2o i _ hiq hgi
            rw [hg2]
            cases n with
            | Empty => exact absurd hx (by simp)
            | Leaf e2 v2 => exact hx
            | Extension e2 c =>
              dsimp only at hx ⊢
              cases c with
              | Old hh => exact hx
              | Updated j =>
                dsimp only at hx ⊢
                cases hch : refNodeInfo A ns F j with
                | error e2 =>
                  simp only [hch] at hx
                  simp [Except.map] at hx
                | ok y =>
                  simp only [hch] at hx
                  simp only [refNodeInfo_mono A ns2 (2 * F) (2 * F + 1) j y
                    (by omega) (ihF j y hch)]
                  exact hx
            | Branch cs2 v2 =>
              dsimp only at hx ⊢
              cases hfx : cs2.foldlM (fun (acc : List (Option (List Nat)) × Nat) child =>
                  (match child with
                  | some (.Old h3) => (arenaInfo A (h3 + 1) h3).map
                      (fun t => (acc.1 ++ [some t.1], u64add acc.2 t.2.1))
                  | some (.Updated j) => (refNodeInfo A ns F j).map
                      (fun t => (acc.1 ++ [some t.1], u64add acc.2 t.2.1))
                  | none => .ok (acc.1 ++ [none], acc.2)
                  : Except TErr (List (Option (List Nat)) × Nat)))
                  ([], TRIE_COSTS.node_cost) with
              | error e2 => rw [hfx] at hx; simp at hx
              | ok p =>
                rw [hfx] at hx
                rw [htrans cs2 ([], TRIE_COSTS.node_cost) p hfx]
                exact hx

/-- A chain of conversion steps preserves every slot's resolution. -/
theorem refNodeInfo_convChain (A : Arena) (hwf : wfArena A) :
    ∀ (ns ns' : List (Option UpdatedMemTrieNode)), ConvChain A ns ns' →
      ∀ F i x, refNodeInfo A ns F i = .ok x →
        ∃ F2, refNodeInfo A ns' F2 i = .ok x := by
  intro ns ns' hch
  induction hch with
  | refl ns => exact fun F i x hx => ⟨F, hx⟩
  | step hstep _ ih =>
    intro F i x hx
    exact ih (2 * F) i x (refNodeInfo_convStep A hwf _ _ hstep F i x hx)

/-- Characterization of a successful `childGet`. -/
theorem childGet_ok (cs : List (Option NodeOrIndex)) (i : Nat) (c : Option NodeOrIndex)
    (h : childGet cs i = .ok c) : cs.get? i = some c := by
  unfold childGet at h
  cases hg : cs.get? i with
  | none => rw [hg] at h; exact absurd h (by simp)
  | some c2 => rw [hg] at h; injection h with h; rw [h]

/-- Characterization of a successful `childSet`. -/
theorem childSet_ok (cs : List (Option NodeOrIndex)) (i : Nat) (c : Option NodeOrIndex)
    (out : List (Option NodeOrIndex)) (h : childSet cs i c = .ok out) :
    out = cs.set i c := by
  unfold childSet at h
  by_cases hlt : i < cs.length
  · rw [if_pos hlt] at h; injection h with h; exact h.symm
  · rw [if_neg hlt] at h; exact absurd h (by simp)

/-- Taking a node and placing it back unchanged is the identity on the
session state. -/
theorem take_place_same (s : UpdState) (p : Nat) (n : UpdatedMemTrieNode)
    (s1 s2 : UpdState) (ht : take_node s p = .ok (n, s1))
    (hp : place_node s1 p n = .ok s2) : s2 = s := by
  obtain ⟨hg, hs1⟩ := take_node_ok s p n s1 ht
  obtain ⟨-, hs2⟩ := place_node_ok s1 p n s2 hp
  subst hs2
  subst hs1
  have hnn : (s.updated_nodes.set p none).set p (some n) = s.updated_nodes := by
    rw [List.set_set]
    exact set_same _ _ _ hg
  show { s with updated_nodes := (s.updated_nodes.set p none).set p (some n) } = s
  rw [hnn]

/-- Characterization of a successful conversion of an existing handle. -/
theorem convert_some_ok (A : Arena) (s : UpdState) (h j : Nat) (s₂ : UpdState)
    (hc : convert_existing_to_updated A s (some h) = .ok (j, s₂)) :
    ∃ an, A.nodes.get? h = some an ∧ j = s.updated_nodes.length ∧
      s₂.updated_nodes = s.updated_nodes ++ [some (from_existing_node_view an)] ∧
      s₂.root = s.root := by
  unfold convert_existing_to_updated at hc
  dsimp only at hc
  cases hA : A.nodes.get? h with
  | none => rw [hA] at hc; exact absurd hc (by simp)
  | some an =>
    rw [hA] at hc
    refine ⟨an, rfl, ?_⟩
    cases htr : s.tracker with
    | none =>
      rw [htr] at hc
      simp only [new_updated_node, Except.ok.injEq, Prod.mk.injEq] at hc
      obtain ⟨hj, hs⟩ := hc
      exact ⟨hj.symm, by rw [← hs], by rw [← hs]⟩
    | some tr =>
      rw [htr] at hc
      cases hinfo : arenaInfo A (h + 1) h with
      | error e => rw [hinfo] at hc; exact absurd hc (by simp)
      | ok info =>
        obtain ⟨nh, mm, ser⟩ := info
        rw [hinfo] at hc
        simp only [new_updated_node, Except.ok.injEq, Prod.mk.injEq] at hc
        obtain ⟨hj, hs⟩ := hc
        exact ⟨hj.symm, by rw [← hs], by rw [← hs]⟩

/-- A descent that found the key absent only performs conversion steps on
the update buffer, and keeps the recorded original root. -/
theorem deleteLoop_absent_chain (A : Arena) :
    ∀ fuel s p pk path s',
      deleteLoop A fuel s p pk path = .ok (s', none) →
      ConvChain A s.updated_nodes s'.updated_nodes ∧ s'.root = s.root := by
  intro fuel
  induction fuel with
  | zero => intro s p pk path s' h; simp [deleteLoop] at h
  | succ fuel ih =>
    intro s p pk path s' h
    unfold deleteLoop at h
    simp only [bind, Except.bind] at h
    cases ht : take_node s p with
    | error e => rw [ht] at h; exact absurd h (by simp)
    | ok pr =>
      obtain ⟨n, s1⟩ := pr
      rw [ht] at h
      dsimp only at h
      cases n with
      | Empty =>
        dsimp only at h
        cases hp : place_node s1 p .Empty with
        | error e => rw [hp] at h; exact absurd h (by simp)
        | ok s2 =>
          rw [hp] at h
          simp only [pure, Except.pure, Except.ok.injEq, Prod.mk.injEq] at h
          rw [← h.1, take_place_same s p .Empty s1 s2 ht hp]
          exact ⟨ConvChain.refl _, rfl⟩
      | Leaf ext v =>
        dsimp only at h
        by_cases hmatch : (decodeNibbles ext).fst = pk
        · rw [if_pos hmatch] at h
          cases hp : place_node (subtract_refcount_for_value s1 v) p .Empty with
          | error e => rw [hp] at h; exact absurd h (by simp)
          | ok s2 =>
            rw [hp] at h
            simp only [pure, Except.pure, Except.ok.injEq, Prod.mk.injEq] at h
            exact absurd h.2 (by simp)
        · rw [if_neg hmatch] at h
          cases hp : place_node s1 p (.Leaf ext v) with
          | error e => rw [hp] at h; exact absurd h (by simp)
          | ok s2 =>
            rw [hp] at h
            simp only [pure, Except.pure, Except.ok.injEq, Prod.mk.injEq] at h
            rw [← h.1, take_place_same s p (.Leaf ext v) s1 s2 ht hp]
            exact ⟨ConvChain.refl _, rfl⟩
      | Branch old_children v =>
        dsimp only at h
        by_cases hempty : pk.isEmpty = true
        · rw [if_pos hempty] at h
          cases v with
          | none =>
            dsimp only at h
            cases hp : place_node s1 p (.Branch old_children none) with
            | error e => rw [hp] at h; exact absurd h (by simp)
            | ok s2 =>
              rw [hp] at h
              simp only [pure, Except.pure, Except.ok.injEq, Prod.mk.injEq] at h
              rw [← h.1, take_place_same s p (.Branch old_children none) s1 s2 ht hp]
              exact ⟨ConvChain.refl _, rfl⟩
          | some vv =>
            dsimp only at h
            cases hp : place_node (subtract_refcount_for_value s1 vv) p
                (.Branch old_children none) with
            | error e => rw [hp] at h; exact absurd h (by simp)
            | ok s2 =>
              rw [hp] at h
              simp only [pure, Except.pure, Except.ok.injEq, Prod.mk.injEq] at h
              exact absurd h.2 (by simp)
        · rw [if_neg hempty] at h
          cases hcg : childGet old_children (pk.headD 0) with
          | error e => rw [hcg] at h; exact absurd h (by simp)
          | ok child =>
            rw [hcg] at h
            dsimp only at h
            cases child with
            | none =>
              dsimp only at h
              cases hp : place_node s1 p (.Branch old_children v) with
              | error e => rw [hp] at h; exact absurd h (by simp)
              | ok s2 =>
                rw [hp] at h
                simp only [pure, Except.pure, Except.ok.injEq, Prod.mk.injEq] at h
                rw [← h.1, take_place_same s p (.Branch old_children v) s1 s2 ht hp]
                exact ⟨ConvChain.refl _, rfl⟩
            | some old_child_id =>
              dsimp only at h
              obtain ⟨hgq, hs1⟩ := take_node_ok s p _ s1 ht
              have hplt : p < s.updated_nodes.length := get?_some_lt _ _ _ hgq
              have hcidx := childGet_ok old_children (pk.headD 0) _ hcg
              cases old_child_id with
              | Updated jj =>
                rw [show ensure_updated A s1 (.Updated jj) = .ok (jj, s1) from rfl] at h
                dsimp only at h
                cases hcs : childSet old_children (pk.headD 0)
                    (some (.Updated jj)) with
                | error e => rw [hcs] at h; exact absurd h (by simp)
                | ok new_children =>
                  rw [hcs] at h
                  dsimp only at h
                  have hncs : new_children = old_children := by
                    rw [childSet_ok _ _ _ _ hcs]
                    exact set_same _ _ _ hcidx
                  rw [hncs] at h
                  cases hp : place_node s1 p (.Branch old_children v) with
                  | error e => rw [hp] at h; exact absurd h (by simp)
                  | ok s2 =>
                    rw [hp] at h
                    have hs2 : s2 = s := take_place_same s p _ s1 s2 ht hp
                    subst hs2
                    exact ih s2 jj (pk.drop 1) (path ++ [p]) s' h
              | Old hh =>
                cases hen : convert_existing_to_updated A s1 (some hh) with
                | error e =>
                  rw [show ensure_updated A s1 (.Old hh) =
                    convert_existing_to_updated A s1 (some hh) from rfl, hen] at h
                  exact absurd h (by simp)
                | ok pr2 =>
                  obtain ⟨ncid, s2⟩ := pr2
                  rw [show ensure_updated A s1 (.Old hh) =
                    convert_existing_to_updated A s1 (some hh) from rfl, hen] at h
                  dsimp only at h
                  obtain ⟨an, hA, hncid, hs2nodes, hs2root⟩ :=
                    convert_some_ok A s1 hh ncid s2 hen
                  cases hcs : childSet old_children (pk.headD 0)
                      (some (.Updated ncid)) with
                  | error e => rw [hcs] at h; exact absurd h (by simp)
                  | ok new_children =>
                    rw [hcs] at h
                    dsimp only at h
                    cases hp : place_node s2 p (.Branch new_children v) with
                    | error e => rw [hp] at h; exact absurd h (by simp)
                    | ok s3 =>
                      rw [hp] at h
                      obtain ⟨-, hs3⟩ := place_node_ok s2 p _ s3 hp
                      have hstep : ConvStep A s.updated_nodes s3.updated_nodes := by
                        have hns3 : s3.updated_nodes =
                            (s.updated_nodes ++ [some (from_existing_node_view an)]).set p
                              (some (.Branch (old_children.set (pk.headD 0)
                                (some (.Updated s.updated_nodes.length))) v)) := by
                          rw [hs3]
                          show s2.updated_nodes.set p (some (.Branch new_children v)) = _
                          rw [hs2nodes, childSet_ok _ _ _ _ hcs, hncid, hs1]
                          dsimp only
                          simp only [List.length_set]
                          rw [set_append_left _ _ _ _ hplt, List.set_set]
                        rw [hns3]
                        exact ConvStep.branchC s.updated_nodes p (pk.headD 0) hh
                          old_children v an hgq hcidx hA
                      obtain ⟨hchain, hroot⟩ :=
                        ih s3 ncid (pk.drop 1) (path ++ [p]) s' h
                      refine ⟨ConvChain.step hstep hchain, ?_⟩
                      rw [hroot, hs3]
                      show s2.root = s.root
                      rw [hs2root, hs1]
      | Extension ext child =>
        dsimp only at h
        by_cases hcp : commonPrefixLen (decodeNibbles ext).fst pk =
            (decodeNibbles ext).fst.length
        · rw [if_pos hcp] at h
          obtain ⟨hgq, hs1⟩ := take_node_ok s p _ s1 ht
          have hplt : p < s.updated_nodes.length := get?_some_lt _ _ _ hgq
          cases child with
          | Updated jj =>
            rw [show ensure_updated A s1 (.Updated jj) = .ok (jj, s1) from rfl] at h
            dsimp only at h
            cases hp : place_node s1 p (.Extension ext (.Updated jj)) with
            | error e => rw [hp] at h; exact absurd h (by simp)
            | ok s2 =>
              rw [hp] at h
              have hs2 : s2 = s := take_place_same s p _ s1 s2 ht hp
              subst hs2
              exact ih s2 jj (pk.drop ((decodeNibbles ext).fst.length))
                (path ++ [p]) s' h
          | Old hh =>
            cases hen : convert_existing_to_updated A s1 (some hh) with
            | error e =>
              rw [show ensure_updated A s1 (.Old hh) =
                convert_existing_to_updated A s1 (some hh) from rfl, hen] at h
              exact absurd h (by simp)
            | ok pr2 =>
              obtain ⟨ncid, s2⟩ := pr2
              rw [show ensure_updated A s1 (.Old hh) =
                convert_existing_to_updated A s1 (some hh) from rfl, hen] at h
              dsimp only at h
              obtain ⟨an, hA, hncid, hs2nodes, hs2root⟩ :=
                convert_some_ok A s1 hh ncid s2 hen
              cases hp : place_node s2 p (.Extension ext (.Updated ncid)) with
              | error e => rw [hp] at h; exact absurd h (by simp)
              | ok s3 =>
                rw [hp] at h
                obtain ⟨-, hs3⟩ := place_node_ok s2 p _ s3 hp
                have hstep : ConvStep A s.updated_nodes s3.updated_nodes := by
                  have hns3 : s3.updated_nodes =
                      (s.updated_nodes ++ [some (from_existing_node_view an)]).set p
                        (some (.Extension ext
                          (.Updated s.updated_nodes.length))) := by
                    rw [hs3]
                    show s2.updated_nodes.set p
                      (some (.Extension ext (.Updated ncid))) = _
                    rw [hs2nodes, hncid, hs1]
                    dsimp only
                    simp only [List.length_set]
                    rw [set_append_left _ _ _ _ hplt, List.set_set]
                  rw [hns3]
                  exact ConvStep.extC s.updated_nodes p hh ext an hgq hA
                obtain ⟨hchain, hroot⟩ :=
                  ih s3 ncid (pk.drop ((decodeNibbles ext).fst.length))
                    (path ++ [p]) s' h
                refine ⟨ConvChain.step hstep hchain, ?_⟩
                rw [hroot, hs3]
                show s2.root = s.root
                rw [hs2root, hs1]
        · rw [if_neg hcp] at h
          cases hp : place_node s1 p (.Extension ext child) with
          | error e => rw [hp] at h; exact absurd h (by simp)
          | ok s2 =>
            rw [hp] at h
            simp only [pure, Except.pure, Except.ok.injEq, Prod.mk.injEq] at h
            rw [← h.1, take_place_same s p (.Extension ext child) s1 s2 ht hp]
            exact ⟨ConvChain.refl _, rfl⟩

/-- The empty list is trivially children-before-parents. -/
theorem GoodList_nil (nodes : List (Option UpdatedMemTrieNode)) : GoodList nodes [] := by
  intro i id n hget
  simp at hget

/-- Appending a slot whose updated children are already listed preserves the
children-before-parents property. -/
theorem GoodList_append (nodes : List (Option UpdatedMemTrieNode)) (l : List Nat)
    (id : Nat) (n : UpdatedMemTrieNode)
    (hg : GoodList nodes l) (hn : nodes.get? id = some (some n))
    (hext : ∀ e j, n = .Extension e (.Updated j) → j ∈ l)
    (hbr : ∀ cs v j, n = .Branch cs v → (some (.Updated j)) ∈ cs → j ∈ l) :
    GoodList nodes (l ++ [id]) := by
  intro i id' n' hget hn'
  rcases Nat.lt_trichotomy i l.length with hlt | heq | hgt
  · rw [List.get?_append hlt] at hget
    have htake : (l ++ [id]).take i = l.take i := by
      rw [List.take_append_eq_append_take]
      have hz : i - l.length = 0 := by omega
      rw [hz]
      simp
    rw [htake]
    exact hg i id' n' hget hn'
  · subst heq
    rw [get?_append_self] at hget
    injection hget with hget
    subst hget
    have hnn : n' = n := by
      rw [hn] at hn'
      injection hn' with hn'
      injection hn' with hn'
      exact hn'.symm
    subst hnn
    rw [List.take_left]
    exact ⟨hext, hbr⟩
  · rw [List.get?_eq_none.mpr (by simp; omega)] at hget
    exact absurd hget (by simp)

/-- Resolving an extension with an updated child resolves the child. -/
theorem refNodeInfo_ext_child (A : Arena) (ns : List (Option UpdatedMemTrieNode))
    (F i j : Nat) (e : List Nat) (x : List Nat × Nat × List Nat)
    (hg : ns.get? i = some (some (.Extension e (.Updated j))))
    (hx : refNodeInfo A ns (F + 1) i = .ok x) :
    ∃ y, refNodeInfo A ns F j = .ok y := by
  unfold refNodeInfo at hx
  rw [hg] at hx
  dsimp only at hx
  cases hc : refNodeInfo A ns F j with
  | error e2 =>
    simp only [hc] at hx
    simp [Except.map] at hx
  | ok y => exact ⟨y, rfl⟩

/-- Resolving a branch resolves every updated child. -/
theorem refNodeInfo_branch_child (A : Arena) (ns : List (Option UpdatedMemTrieNode))
    (F i j : Nat) (cs : List (Option NodeOrIndex)) (v : Option FlatStateValue)
    (x : List Nat × Nat × List Nat)
    (hg : ns.get? i = some (some (.Branch cs v)))
    (hmem : (some (.Updated j)) ∈ cs)
    (hx : refNodeInfo A ns (F + 1) i = .ok x) :
    ∃ y, refNodeInfo A ns F j = .ok y := by
  unfold refNodeInfo at hx
  rw [hg] at hx
  dsimp only at hx
  cases hf : cs.foldlM (fun (acc : List (Option (List Nat)) × Nat) child =>
      (match child with
      | some (.Old h) => (arenaInfo A (h + 1) h).map
          (fun t => (acc.1 ++ [some t.1], u64add acc.2 t.2.1))
      | some (.Updated j) => (refNodeInfo A ns F j).map
          (fun t => (acc.1 ++ [some t.1], u64add acc.2 t.2.1))
      | none => .ok (acc.1 ++ [none], acc.2)
      : Except TErr (List (Option (List Nat)) × Nat)))
      ([], TRIE_COSTS.node_cost) with
  | error e2 => rw [hf] at hx; simp at hx
  | ok p =>
    obtain ⟨acc, r, hstep⟩ := foldlM_mem_ok _ cs _ p hf _ hmem
    dsimp only at hstep
    cases hc : refNodeInfo A ns F j with
    | error e2 =>
      simp only [hc] at hstep
      simp [Except.map] at hstep
    | ok y => exact ⟨y, rfl⟩

/-- A post-order traversal from a resolvable slot, started from a
children-before-parents accumulator, returns a children-before-parents list
containing that slot. -/
theorem post_order_good (A : Arena) (s : UpdState) :
    ∀ fuel id acc l F x,
      post_order_traverse_updated_nodes s fuel id acc = .ok l →
      refNodeInfo A s.updated_nodes F id = .ok x →
      GoodList s.updated_nodes acc →
      GoodList s.updated_nodes l ∧ id ∈ l := by
  intro fuel
  induction fuel with
  | zero => intro id acc l F x h; simp [post_order_traverse_updated_nodes] at h
  | succ fuel ih =>
    intro id acc l F x h href hacc
    obtain ⟨n, hgn, hnE⟩ := refNodeInfo_some A _ F id x href
    obtain ⟨F2, rfl⟩ : ∃ F2, F = F2 + 1 := by
      cases F with
      | zero => simp [refNodeInfo] at href
      | succ F2 => exact ⟨F2, rfl⟩
    have hgnode : get_node s id = .ok n := (get_node_ok_iff s id n).mpr hgn
    unfold post_order_traverse_updated_nodes at h
    rw [hgnode] at h
    simp only [bind, Except.bind] at h
    cases n with
    | Empty => exact absurd rfl hnE
    | Leaf e v =>
      dsimp only at h
      simp only [pure, Except.pure, Except.ok.injEq] at h
      subst h
      refine ⟨GoodList_append _ _ _ _ hacc hgn ?_ ?_, by simp⟩
      · intro e2 j hEq; exact absurd hEq (by simp)
      · intro cs v2 j hEq hmem; exact absurd hEq (by simp)
    | Extension e c =>
      dsimp only at h
      cases c with
      | Old pc =>
        dsimp only at h
        simp only [pure, Except.pure, Except.ok.injEq] at h
        subst h
        refine ⟨GoodList_append _ _ _ _ hacc hgn ?_ ?_, by simp⟩
        · intro e2 j hEq
          injection hEq with h1 h2
          exact absurd h2 (by simp)
        · intro cs v2 j hEq hmem; exact absurd hEq (by simp)
      | Updated cid =>
        dsimp only at h
        obtain ⟨y, hy⟩ := refNodeInfo_ext_child A _ F2 id cid e x hgn href
        cases hrec : post_order_traverse_updated_nodes s fuel cid acc with
        | error e2 => rw [hrec] at h; simp at h
        | ok mid =>
          rw [hrec] at h
          simp only [pure, Except.pure, Except.ok.injEq] at h
          subst h
          obtain ⟨hgmid, hcidmem⟩ := ih cid acc mid F2 y hrec hy hacc
          refine ⟨GoodList_append _ _ _ _ hgmid hgn ?_ ?_, by simp⟩
          · intro e2 j hEq
            injection hEq with h1 h2
            injection h2 with h2
            subst h2
            exact hcidmem
          · intro cs v2 j hEq hmem; exact absurd hEq (by simp)
    | Branch children v =>
      dsimp only at h
      have hchild : ∀ j, (some (.Updated j)) ∈ children →
          ∃ y, refNodeInfo A s.updated_nodes F2 j = .ok y :=
        fun j hm => refNodeInfo_branch_child A _ F2 id j children v x hgn hm href
      have hfold : ∀ (l0 : List (Option NodeOrIndex)) acc0,
          (∀ j, (some (.Updated j)) ∈ l0 →
            ∃ y, refNodeInfo A s.updated_nodes F2 j = .ok y) →
          GoodList s.updated_nodes acc0 →
          ∀ out, l0.foldlM (fun a child =>
            match child with
            | some (.Updated cid) => post_order_traverse_updated_nodes s fuel cid a
            | _ => pure a) acc0 = .ok out →
          GoodList s.updated_nodes out ∧ (∃ l2, out = acc0 ++ l2) ∧
          (∀ j, (some (.Updated j)) ∈ l0 → j ∈ out) := by
        intro l0
        induction l0 with
        | nil =>
          intro acc0 _ hg0 out hf
          simp only [List.foldlM_nil, pure, Except.pure, Except.ok.injEq] at hf
          subst hf
          exact ⟨hg0, ⟨[], by simp⟩, fun j hm => absurd hm (by simp)⟩
        | cons c rest ihl =>
          intro acc0 hres hg0 out hf
          rw [List.foldlM_cons] at hf
          cases c with
          | none =>
            simp only [bind, Except.bind, pure, Except.pure] at hf
            obtain ⟨hgo, hpre, hmm⟩ := ihl acc0
              (fun j hm => hres j (List.mem_cons_of_mem _ hm)) hg0 out hf
            refine ⟨hgo, hpre, fun j hm => ?_⟩
            rcases List.mem_cons.mp hm with hEq | hm2
            · exact absurd hEq (by simp)
            · exact hmm j hm2
          | some x2 =>
            cases x2 with
            | Old pc =>
              simp only [bind, Except.bind, pure, Except.pure] at hf
              obtain ⟨hgo, hpre, hmm⟩ := ihl acc0
                (fun j hm => hres j (List.mem_cons_of_mem _ hm)) hg0 out hf
              refine ⟨hgo, hpre, fun j hm => ?_⟩
              rcases List.mem_cons.mp hm with hEq | hm2
              · injection hEq with hEq
                exact absurd hEq (by simp)
              · exact hmm j hm2
            | Updated cid =>
              simp only [bind, Except.bind] at hf
              cases hrec : post_order_traverse_updated_nodes s fuel cid acc0 with
              | error e2 => rw [hrec] at hf; simp at hf
              | ok mid =>
                rw [hrec] at hf
                obtain ⟨y, hy⟩ := hres cid (List.mem_cons_self _ _)
                obtain ⟨hgmid, hcidmem⟩ := ih cid acc0 mid F2 y hrec hy hg0
                obtain ⟨hgo, hpre, hmm⟩ := ihl mid
                  (fun j hm => hres j (List.mem_cons_of_mem _ hm)) hgmid out hf
                refine ⟨hgo, ?_, ?_⟩
                · obtain ⟨m1, rfl⟩ := post_order_prefix s fuel cid acc0 mid hrec
                  obtain ⟨m2, rfl⟩ := hpre
                  exact ⟨m1 ++ m2, by simp⟩
                · intro j hm
                  rcases List.mem_cons.mp hm with hEq | hm2
                  · injection hEq with hEq
                    injection hEq with hEq
                    subst hEq
                    obtain ⟨m2, rfl⟩ := hpre
                    exact List.mem_append_left _ hcidmem
                  · exact hmm j hm2
      cases hfold2 : children.foldlM (fun a child =>
          match child with
          | some (.Updated cid) => post_order_traverse_updated_nodes s fuel cid a
          | _ => pure a) acc with
      | error e2 => rw [hfold2] at h; simp at h
      | ok mid =>
        rw [hfold2] at h
        simp only [pure, Except.pure, Except.ok.injEq] at h
        subst h
        obtain ⟨hgmid, hpre, hmm⟩ := hfold children acc hchild hacc mid hfold2
        refine ⟨GoodList_append _ _ _ _ hgmid hgn ?_ ?_, by simp⟩
        · intro e2 j hEq; exact absurd hEq (by simp)
        · intro cs v2 j hEq hmem
          injection hEq with h1 h2
          exact hmm j (by rw [h1]; exact hmem)

/-- The finalizer's per-node computation agrees with the recursive
resolver, provided every updated child's result-array entry is the child's
resolution. -/
theorem computeOneNode_refines (A : Arena) (ns : List (Option UpdatedMemTrieNode))
    (res : List (List Nat × Nat × List Nat)) (F : Nat) :
    ∀ (node : UpdatedMemTrieNode) (id : Nat) (raw : RawTrieNode) (mem : Nat),
    ns.get? id = some (some node) →
    (∀ j, ((∃ e, node = .Extension e (.Updated j)) ∨
        (∃ cs v, node = .Branch cs v ∧ (some (.Updated j)) ∈ cs)) →
      ∃ hh mm ser, refNodeInfo A ns F j = .ok (hh, mm, ser) ∧
        res.get? j = some (hh, mm, ser)) →
    computeOneNode A res node = .ok (raw, mem) →
    refNodeInfo A ns (F + 1) id =
      .ok (hashBytes (serializeRawNodeWithSize raw mem), mem,
        serializeRawNodeWithSize raw mem) := by
  intro node id raw mem hid hchild hok
  unfold refNodeInfo
  rw [hid]
  cases node with
  | Empty => exact absurd hok (by simp [computeOneNode])
  | Leaf e v =>
    dsimp only
    simp only [computeOneNode, pure, Except.pure, Except.ok.injEq, Prod.mk.injEq] at hok
    rw [← hok.1, ← hok.2]
  | Extension e c =>
    unfold computeOneNode at hok
    simp only [bind, Except.bind] at hok
    cases hch : get_hash_and_memory_usage A res c with
    | error e2 => rw [hch] at hok; simp at hok
    | ok pr =>
      obtain ⟨ch, cm⟩ := pr
      rw [hch] at hok
      simp only [pure, Except.pure, Except.ok.injEq, Prod.mk.injEq] at hok
      cases c with
      | Old hh =>
        dsimp only
        unfold get_hash_and_memory_usage at hch
        dsimp only at hch
        cases hai : arenaInfo A (hh + 1) hh with
        | error e2 => rw [hai] at hch; simp [Except.map] at hch
        | ok t =>
          rw [hai] at hch
          simp only [Except.map, Except.ok.injEq, Prod.mk.injEq] at hch
          simp only [Except.map]
          rw [← hok.1, ← hok.2, ← hch.1, ← hch.2]
      | Updated j =>
        dsimp only
        obtain ⟨hh2, mm2, ser2, hrefj, hresj⟩ := hchild j (Or.inl ⟨e, rfl⟩)
        unfold get_hash_and_memory_usage at hch
        dsimp only at hch
        rw [hresj] at hch
        dsimp only at hch
        simp only [Except.ok.injEq, Prod.mk.injEq] at hch
        rw [hrefj]
        simp only [Except.map]
        rw [← hok.1, ← hok.2, ← hch.1, ← hch.2]
  | Branch cs v =>
    unfold computeOneNode at hok
    simp only [bind, Except.bind] at hok
    dsimp only
    have hchild2 : ∀ j, (some (.Updated j)) ∈ cs →
        ∃ hh mm ser, refNodeInfo A ns F j = .ok (hh, mm, ser) ∧
          res.get? j = some (hh, mm, ser) :=
      fun j hm => hchild j (Or.inr ⟨cs, v, rfl, hm⟩)
    have hfold : ∀ (l : List (Option NodeOrIndex)),
        (∀ j, (some (.Updated j)) ∈ l →
          ∃ hh mm ser, refNodeInfo A ns F j = .ok (hh, mm, ser) ∧
            res.get? j = some (hh, mm, ser)) →
        ∀ (acc out : List (Option (List Nat)) × Nat),
        l.foldlM (branchChildStep A res) acc = .ok out →
        l.foldlM (fun (acc : List (Option (List Nat)) × Nat) child =>
          (match child with
          | some (.Old h) => (arenaInfo A (h + 1) h).map
              (fun t => (acc.1 ++ [some t.1], u64add acc.2 t.2.1))
          | some (.Updated j) => (refNodeInfo A ns F j).map
              (fun t => (acc.1 ++ [some t.1], u64add acc.2 t.2.1))
          | none => .ok (acc.1 ++ [none], acc.2)
          : Except TErr (List (Option (List Nat)) × Nat))) acc = .ok out := by
      intro l
      induction l with
      | nil => intro _ acc out hf; exact hf
      | cons c rest ihl =>
        intro hres acc out hf
        rw [List.foldlM_cons] at hf ⊢
        cases c with
        | none =>
          simp only [branchChildStep, bind, Except.bind, pure, Except.pure] at hf ⊢
          exact ihl (fun j hm => hres j (List.mem_cons_of_mem _ hm)) _ _ hf
        | some x2 =>
          cases x2 with
          | Old hh =>
            simp only [branchChildStep, bind, Except.bind] at hf ⊢
            unfold get_hash_and_memory_usage at hf
            dsimp only at hf
            cases hai : arenaInfo A (hh + 1) hh with
            | error e2 =>
              rw [hai] at hf
              simp [Except.map] at hf
            | ok t =>
              rw [hai] at hf
              simp only [Except.map, pure, Except.pure] at hf ⊢
              exact ihl (fun j hm => hres j (List.mem_cons_of_mem _ hm)) _ _ hf
          | Updated j =>
            obtain ⟨hh2, mm2, ser2, hrefj, hresj⟩ :=
              hres j (List.mem_cons_self _ _)
            simp only [branchChildStep, bind, Except.bind] at hf ⊢
            unfold get_hash_and_memory_usage at hf
            dsimp only at hf
            rw [hresj] at hf
            rw [hrefj]
            simp only [Except.map, pure, Except.pure] at hf ⊢
            exact ihl (fun j2 hm => hres j2 (List.mem_cons_of_mem _ hm)) _ _ hf
    cases hfc : cs.foldlM (branchChildStep A res) ([], TRIE_COSTS.node_cost) with
    | error e2 => rw [hfc] at hok; simp at hok
    | ok p =>
      rw [hfc] at hok
      dsimp only at hok
      simp only [pure, Except.pure, Except.ok.injEq, Prod.mk.injEq] at hok
      rw [hfold cs hchild2 ([], TRIE_COSTS.node_cost) p hfc]
      rw [← hok.1, ← hok.2]

/-- The finalizer's hashing loop stores, in each processed slot, exactly
that slot's recursive resolution (all at one common fuel). -/
theorem compute_fold_refines (A : Arena) (s : UpdState) :
    ∀ (rest done : List Nat) (res res₂ : List (List Nat × Nat × List Nat)),
      GoodList s.updated_nodes (done ++ rest) →
      res.length = s.updated_nodes.length →
      (∃ F, ∀ id, id ∈ done → ∃ hh mm ser,
        refNodeInfo A s.updated_nodes F id = .ok (hh, mm, ser) ∧
        res.get? id = some (hh, mm, ser)) →
      rest.foldlM (computeFoldStep A s) res = .ok res₂ →
      res₂.length = s.updated_nodes.length ∧
      ∃ F, ∀ id, id ∈ done ++ rest → ∃ hh mm ser,
        refNodeInfo A s.updated_nodes F id = .ok (hh, mm, ser) ∧
        res₂.get? id = some (hh, mm, ser) := by
  intro rest
  induction rest with
  | nil =>
    intro done res res₂ hgood hlen hinv hf
    simp only [List.foldlM_nil, pure, Except.pure, Except.ok.injEq] at hf
    subst hf
    simp only [List.append_nil]
    exact ⟨hlen, hinv⟩
  | cons id rest ihr =>
    intro done res res₂ hgood hlen hinv hf
    rw [List.foldlM_cons] at hf
    cases hstep : computeFoldStep A s res id with
    | error e => rw [hstep] at hf; simp [bind, Except.bind] at hf
    | ok res1 =>
      rw [hstep] at hf
      simp only [bind, Except.bind] at hf
      unfold computeFoldStep at hstep
      simp only [bind, Except.bind] at hstep
      cases hgn : get_node s id with
      | error e => rw [hgn] at hstep; simp at hstep
      | ok node =>
        rw [hgn] at hstep
        dsimp only at hstep
        cases hcomp : computeOneNode A res node with
        | error e => rw [hcomp] at hstep; simp at hstep
        | ok pr =>
          obtain ⟨raw, mem⟩ := pr
          rw [hcomp] at hstep
          dsimp only at hstep
          by_cases hlt : id < res.length
          · rw [if_pos hlt] at hstep
            simp only [pure, Except.pure, Except.ok.injEq] at hstep
            obtain ⟨F, hF⟩ := hinv
            have hgetpos : (done ++ id :: rest).get? done.length = some id := by
              rw [List.get?_append_right (le_refl _)]
              simp
            have hgid : s.updated_nodes.get? id = some (some node) :=
              (get_node_ok_iff s id node).mp hgn
            have hchild : ∀ j, ((∃ e, node = .Extension e (.Updated j)) ∨
                (∃ cs v, node = .Branch cs v ∧ (some (.Updated j)) ∈ cs)) →
                ∃ hh mm ser, refNodeInfo A s.updated_nodes F j = .ok (hh, mm, ser) ∧
                  res.get? j = some (hh, mm, ser) := by
              intro j hj
              have hgg := hgood done.length id node hgetpos hgid
              have hjdone : j ∈ done := by
                rcases hj with ⟨e, hEq⟩ | ⟨cs, v, hEq, hm⟩
                · have hmem2 := hgg.1 e j hEq
                  rwa [List.take_left] at hmem2
                · have hmem2 := hgg.2 cs v j hEq hm
                  rwa [List.take_left] at hmem2
              exact hF j hjdone
            have hrefid := computeOneNode_refines A s.updated_nodes res F node id
              raw mem hgid hchild hcomp
            have hinv1 : ∀ id2, id2 ∈ done ++ [id] → ∃ hh mm ser,
                refNodeInfo A s.updated_nodes (F + 1) id2 = .ok (hh, mm, ser) ∧
                res1.get? id2 = some (hh, mm, ser) := by
              intro id2 hid2
              rcases List.mem_append.mp hid2 with hid2 | hid2
              · obtain ⟨hh, mm, ser, hr, hg⟩ := hF id2 hid2
                have hr1 := refNodeInfo_mono A s.updated_nodes F (F + 1) id2 _
                  (by omega) hr
                by_cases hii : id2 = id
                · subst hii
                  have hdet := refNodeInfo_det A s.updated_nodes (F + 1) (F + 1)
                    id2 _ _ hr1 hrefid
                  refine ⟨hh, mm, ser, hr1, ?_⟩
                  rw [← hstep, hdet]
                  exact get?_set_self _ _ _ hlt
                · refine ⟨hh, mm, ser, hr1, ?_⟩
                  rw [← hstep, get?_set_ne _ _ _ _ hii]
                  exact hg
              · have hii : id2 = id := by simpa using hid2
                subst hii
                refine ⟨_, _, _, hrefid, ?_⟩
                rw [← hstep]
                exact get?_set_self _ _ _ hlt
            have hlen1 : res1.length = s.updated_nodes.length := by
              rw [← hstep]
              simp [hlen]
            have hgood1 : GoodList s.updated_nodes ((done ++ [id]) ++ rest) := by
              rw [List.append_assoc]
              simpa using hgood
            obtain ⟨hlen2, F2, hF2⟩ := ihr (done ++ [id]) res1 res₂ hgood1 hlen1
              ⟨F + 1, hinv1⟩ hf
            refine ⟨hlen2, F2, ?_⟩
            intro id2 hid2
            apply hF2
            rw [List.append_assoc]
            simpa using hid2
          · rw [if_neg hlt] at hstep
            simp at hstep

/-- The collection loop never changes any slot's hash component, and its
last emitted entry is the last ordered id paired with that slot's hash. -/
theorem collect_fold_hash :
    ∀ (rest : List Nat) (done : List (Nat × List Nat × List Nat))
      (res : List (List Nat × Nat × List Nat))
      (fin : List (Nat × List Nat × List Nat) × List (List Nat × Nat × List Nat)),
      rest.foldlM collectStep (done, res) = .ok fin →
      (∀ j, (fin.2.get? j).map (fun t => t.1) = (res.get? j).map (fun t => t.1)) ∧
      (∀ lid, rest.getLast? = some lid →
        ∃ hh ser, fin.1.getLast? = some (lid, hh, ser) ∧
          (res.get? lid).map (fun t => t.1) = some hh) := by
  intro rest
  induction rest with
  | nil =>
    intro done res fin hf
    simp only [List.foldlM_nil, pure, Except.pure, Except.ok.injEq] at hf
    subst hf
    exact ⟨fun j => rfl, fun lid hl => absurd hl (by simp)⟩
  | cons id rest ihr =>
    intro done res fin hf
    rw [List.foldlM_cons] at hf
    cases hstep : collectStep (done, res) id with
    | error e => rw [hstep] at hf; simp [bind, Except.bind] at hf
    | ok acc1 =>
      rw [hstep] at hf
      simp only [bind, Except.bind] at hf
      unfold collectStep at hstep
      dsimp only at hstep
      cases hgr : res.get? id with
      | none => rw [hgr] at hstep; simp at hstep
      | some t =>
        obtain ⟨hh, mm, ser⟩ := t
        rw [hgr] at hstep
        dsimp only at hstep
        simp only [Except.ok.injEq] at hstep
        subst hstep
        obtain ⟨hview, hlast⟩ := ihr _ _ fin hf
        have hsv : ∀ j, ((res.set id (hh, mm, ([] : List Nat))).get? j).map
            (fun t => t.1) = (res.get? j).map (fun t => t.1) := by
          intro j
          by_cases hji : j = id
          · subst hji
            rw [get?_set_self _ _ _ (get?_some_lt _ _ _ hgr), hgr]
            rfl
          · rw [get?_set_ne _ _ _ _ hji]
        refine ⟨fun j => (hview j).trans (hsv j), ?_⟩
        intro lid hl
        cases rest with
        | nil =>
          simp only [List.foldlM_nil, pure, Except.pure, Except.ok.injEq] at hf
          subst hf
          have hlid : id = lid := by simpa using hl
          subst hlid
          refine ⟨hh, ser, ?_, ?_⟩
          · exact List.getLast?_concat _
          · rw [hgr]
            rfl
        | cons b rest2 =>
          have hl2 : (b :: rest2).getLast? = some lid := by
            rw [List.getLast?_cons_cons] at hl
            exact hl
          obtain ⟨h2, ser2, hfin1, hres2⟩ := hlast lid hl2
          exact ⟨h2, ser2, hfin1, (hsv lid).symm.trans hres2⟩

/-- When slot 0 resolves, the `MemTrieChanges` pipeline's final hash (the
hash paired with the last post-order entry) is exactly that resolution. -/
theorem mem_trie_changes_internal_root_hash (A : Arena) (fuel : Nat) (s : UpdState)
    (mtc : MemTrieChanges') (hs : List (List Nat × List Nat))
    (F : Nat) (h0 : List Nat) (m0 : Nat) (ser0 : List Nat)
    (href : refNodeInfo A s.updated_nodes F 0 = .ok (h0, m0, ser0))
    (hok : to_mem_trie_changes_internal A fuel s = .ok (mtc, hs)) :
    ((mtc.node_ids_with_hashes.getLast?).map Prod.snd).getD zeroHash = h0 := by
  unfold to_mem_trie_changes_internal at hok
  simp only [bind, Except.bind] at hok
  cases hpo : post_order_traverse_updated_nodes s fuel 0 [] with
  | error e => rw [hpo] at hok; simp at hok
  | ok ordered =>
    rw [hpo] at hok
    dsimp only at hok
    cases hch : compute_hashes_and_serialized_nodes A s ordered with
    | error e => rw [hch] at hok; simp at hok
    | ok out =>
      rw [hch] at hok
      simp only [pure, Except.pure, Except.ok.injEq, Prod.mk.injEq] at hok
      obtain ⟨hmtc, -⟩ := hok
      obtain ⟨hgood, h0mem⟩ := post_order_good A s fuel 0 [] ordered F _ hpo href
        (GoodList_nil _)
      unfold compute_hashes_and_serialized_nodes at hch
      simp only [bind, Except.bind] at hch
      cases hfold : ordered.foldlM (computeFoldStep A s)
          (List.replicate s.updated_nodes.length (zeroHash, 0, [])) with
      | error e => rw [hfold] at hch; simp at hch
      | ok res₂ =>
        rw [hfold] at hch
        dsimp only at hch
        cases hcol : ordered.foldlM collectStep
            (([] : List (Nat × List Nat × List Nat)), res₂) with
        | error e => rw [hcol] at hch; simp at hch
        | ok fin =>
          rw [hcol] at hch
          simp only [pure, Except.pure, Except.ok.injEq] at hch
          obtain ⟨-, F2, hF2⟩ := compute_fold_refines A s ordered [] _ res₂
            (by simpa using hgood) (by simp)
            ⟨0, fun id hmem => absurd hmem (by simp)⟩ hfold
          obtain ⟨hh, mm, sr, hr2, hres2⟩ := hF2 0 (by simpa using h0mem)
          have hdet := refNodeInfo_det A s.updated_nodes F2 F 0 _ _ hr2 href
          obtain ⟨n, hgn, hnE⟩ := refNodeInfo_some A s.updated_nodes F 0 _ href
          obtain ⟨l₀, hl₀⟩ := post_order_last s fuel 0 [] ordered n
            ((get_node_ok_iff s 0 n).mpr hgn) hnE hpo
          have hlast : ordered.getLast? = some 0 := by
            rw [hl₀]
            exact List.getLast?_concat _
          obtain ⟨-, hcollast⟩ := collect_fold_hash ordered [] res₂ fin hcol
          obtain ⟨hh2, ser2, hfin1, hres0⟩ := hcollast 0 hlast
          have hhh : hh2 = h0 := by
            rw [hres2] at hres0
            injection hres0 with hres0
            have hbeta : hh = hh2 := hres0
            injection hdet with hd1 hd2
            rw [← hbeta, hd1]
          subst hmtc
          dsimp only
          rw [hch] at hfin1
          rw [getLast?_map', hfin1]
          simp [hhh]

/-- When slot 0 holds `Empty`, the pipeline's final hash defaults to the
zero hash. -/
theorem mem_trie_changes_internal_empty_root (A : Arena) (fuel : Nat) (s : UpdState)
    (mtc : MemTrieChanges') (hs : List (List Nat × List Nat))
    (h0 : s.updated_nodes.get? 0 = some (some .Empty))
    (hok : to_mem_trie_changes_internal A fuel s = .ok (mtc, hs)) :
    ((mtc.node_ids_with_hashes.getLast?).map Prod.snd).getD zeroHash = zeroHash := by
  cases fuel with
  | zero =>
    unfold to_mem_trie_changes_internal at hok
    simp [post_order_traverse_updated_nodes, bind, Except.bind] at hok
  | succ fuel =>
    unfold to_mem_trie_changes_internal at hok
    simp only [bind, Except.bind] at hok
    rw [post_order_empty_root s (fuel + 1) []
      ((get_node_ok_iff s 0 .Empty).mpr h0) (by omega)] at hok
    dsimp only at hok
    cases hch : compute_hashes_and_serialized_nodes A s [] with
    | error e => rw [hch] at hok; simp at hok
    | ok out =>
      rw [hch] at hok
      have hout : out = [] := by
        unfold compute_hashes_and_serialized_nodes at hch
        simp only [List.foldlM_nil, bind, Except.bind, pure, Except.pure,
          Except.ok.injEq] at hch
        exact hch.symm
      subst hout
      simp only [pure, Except.pure, Except.ok.injEq, Prod.mk.injEq] at hok
      obtain ⟨hmtc, -⟩ := hok
      subst hmtc
      rfl

/-- When slot 0 resolves, the emitted `new_root` is that resolution's hash. -/
theorem to_trie_changes_new_root_resolved (A : Arena) (fuel : Nat) (s : UpdState)
    (tc : TrieChanges') (acc : TrieAccesses)
    (F : Nat) (h0 : List Nat) (m0 : Nat) (ser0 : List Nat)
    (href : refNodeInfo A s.updated_nodes F 0 = .ok (h0, m0, ser0))
    (hok : to_trie_changes A fuel s = .ok (tc, acc)) :
    tc.new_root = h0 := by
  unfold to_trie_changes at hok
  cases hroot : s.root with
  | none =>
    rw [hroot] at hok
    simp only [bind, Except.bind, pure, Except.pure] at hok
    cases htr : s.tracker with
    | none => rw [htr] at hok; exact absurd hok (by simp)
    | some tr =>
      rw [htr] at hok
      cases hint : to_mem_trie_changes_internal A fuel
          { root := none, updated_nodes := s.updated_nodes, tracker := none } with
      | error e => rw [hint] at hok; exact absurd hok (by simp)
      | ok p =>
        obtain ⟨mtc, hsl⟩ := p
        rw [hint] at hok
        simp only [Except.ok.injEq, Prod.mk.injEq] at hok
        obtain ⟨htc, -⟩ := hok
        subst htc
        exact mem_trie_changes_internal_root_hash A fuel
          { root := none, updated_nodes := s.updated_nodes, tracker := none }
          mtc hsl F h0 m0 ser0 href hint
  | some r =>
    rw [hroot] at hok
    dsimp only at hok
    cases hari : arenaInfo A (r + 1) r with
    | error e =>
      rw [hari] at hok
      simp only [Except.map, bind, Except.bind] at hok
      exact absurd hok (by simp)
    | ok info =>
      rw [hari] at hok
      simp only [Except.map, bind, Except.bind, pure, Except.pure] at hok
      cases htr : s.tracker with
      | none => rw [htr] at hok; exact absurd hok (by simp)
      | some tr =>
        rw [htr] at hok
        cases hint : to_mem_trie_changes_internal A fuel
            { root := some r, updated_nodes := s.updated_nodes, tracker := none } with
        | error e => rw [hint] at hok; exact absurd hok (by simp)
        | ok p =>
          obtain ⟨mtc, hsl⟩ := p
          rw [hint] at hok
          simp only [Except.ok.injEq, Prod.mk.injEq] at hok
          obtain ⟨htc, -⟩ := hok
          subst htc
          exact mem_trie_changes_internal_root_hash A fuel
            { root := some r, updated_nodes := s.updated_nodes, tracker := none }
            mtc hsl F h0 m0 ser0 href hint

/-- When slot 0 holds `Empty`, the emitted `new_root` is the zero hash. -/
theorem to_trie_changes_emitted_empty (A : Arena) (fuel : Nat) (s : UpdState)
    (tc : TrieChanges') (acc : TrieAccesses)
    (h0 : s.updated_nodes.get? 0 = some (some .Empty))
    (hok : to_trie_changes A fuel s = .ok (tc, acc)) :
    tc.new_root = zeroHash := by
  unfold to_trie_changes at hok
  cases hroot : s.root with
  | none =>
    rw [hroot] at hok
    simp only [bind, Except.bind, pure, Except.pure] at hok
    cases htr : s.tracker with
    | none => rw [htr] at hok; exact absurd hok (by simp)
    | some tr =>
      rw [htr] at hok
      cases hint : to_mem_trie_changes_internal A fuel
          { root := none, updated_nodes := s.updated_nodes, tracker := none } with
      | error e => rw [hint] at hok; exact absurd hok (by simp)
      | ok p =>
        obtain ⟨mtc, hsl⟩ := p
        rw [hint] at hok
        simp only [Except.ok.injEq, Prod.mk.injEq] at hok
        obtain ⟨htc, -⟩ := hok
        subst htc
        exact mem_trie_changes_internal_empty_root A fuel
          { root := none, updated_nodes := s.updated_nodes, tracker := none }
          mtc hsl h0 hint
  | some r =>
    rw [hroot] at hok
    dsimp only at hok
    cases hari : arenaInfo A (r + 1) r with
    | error e =>
      rw [hari] at hok
      simp only [Except.map, bind, Except.bind] at hok
      exact absurd hok (by simp)
    | ok info =>
      rw [hari] at hok
      simp only [Except.map, bind, Except.bind, pure, Except.pure] at hok
      cases htr : s.tracker with
      | none => rw [htr] at hok; exact absurd hok (by simp)
      | some tr =>
        rw [htr] at hok
        cases hint : to_mem_trie_changes_internal A fuel
            { root := some r, updated_nodes := s.updated_nodes, tracker := none } with
        | error e => rw [hint] at hok; exact absurd hok (by simp)
        | ok p =>
          obtain ⟨mtc, hsl⟩ := p
          rw [hint] at hok
          simp only [Except.ok.injEq, Prod.mk.injEq] at hok
          obtain ⟨htc, -⟩ := hok
          subst htc
          exact mem_trie_changes_internal_empty_root A fuel
            { root := some r, updated_nodes := s.updated_nodes, tracker := none }
            mtc hsl h0 hint

/-- Deleting from an empty working root is the identity. -/
theorem deleteLoop_empty_root (A : Arena) (fuel : Nat) (s s' : UpdState)
    (pk path : List Nat) (found : Option (List Nat))
    (h0 : s.updated_nodes.get? 0 = some (some .Empty))
    (h : deleteLoop A fuel s 0 pk path = .ok (s', found)) :
    s' = s ∧ found = none := by
  cases fuel with
  | zero => simp [deleteLoop] at h
  | succ fuel =>
    unfold deleteLoop at h
    simp only [bind, Except.bind] at h
    have ht : take_node s 0 = .ok (.Empty,
        { s with updated_nodes := s.updated_nodes.set 0 none }) := by
      unfold take_node
      rw [h0]
    rw [ht] at h
    dsimp only at h
    cases hp : place_node { s with updated_nodes := s.updated_nodes.set 0 none }
        0 .Empty with
    | error e => rw [hp] at h; simp at h
    | ok s2 =>
      rw [hp] at h
      simp only [pure, Except.pure, Except.ok.injEq, Prod.mk.injEq] at h
      have hs2 : s2 = s := take_place_same s 0 .Empty _ s2 ht hp
      exact ⟨h.1.symm.trans hs2, h.2.symm⟩

/-- C3: a key found absent by the descent makes `delete` a successful
no-op — it returns the descent's state without error — and finalizing that
state emits the same `new_root` hash as finalizing the state without the
delete call. -/
theorem delete_absent_noop (A : Arena) (fuel fuel₂ fuel₃ : Nat) (s s' : UpdState)
    (k : List Nat) (tc tc' : TrieChanges') (acc acc' : TrieAccesses)
    (hwf : wfArena A)
    (hroot : (∃ F x, refNodeInfo A s.updated_nodes F 0 = .ok x) ∨
      s.updated_nodes.get? 0 = some (some .Empty))
    (hdel : deleteLoop A fuel s 0 (nibblesOfBytes k) [] = .ok (s', none))
    (hfin : to_trie_changes A fuel₂ s = .ok (tc, acc))
    (hfin' : to_trie_changes A fuel₃ s' = .ok (tc', acc')) :
    delete A fuel s k = .ok s' ∧ tc'.new_root = tc.new_root := by
  constructor
  · unfold delete
    simp only [bind, Except.bind]
    rw [hdel]
    rfl
  · rcases hroot with ⟨F, x, href⟩ | hEmp
    · obtain ⟨h0, m0, ser0⟩ := x
      have h1 : tc.new_root = h0 :=
        to_trie_changes_new_root_resolved A fuel₂ s tc acc F h0 m0 ser0 href hfin
      obtain ⟨hchain, -⟩ := deleteLoop_absent_chain A fuel s 0 _ [] s' hdel
      obtain ⟨F2, href'⟩ := refNodeInfo_convChain A hwf _ _ hchain F 0 _ href
      have h2 : tc'.new_root = h0 :=
        to_trie_changes_new_root_resolved A fuel₃ s' tc' acc' F2 h0 m0 ser0
          href' hfin'
      rw [h1, h2]
    · obtain ⟨hs', -⟩ := deleteLoop_empty_root A fuel s s' _ [] none hEmp hdel
      rw [hs'] at hfin'
      rw [to_trie_changes_emitted_empty A fuel₂ s tc acc hEmp hfin,
        to_trie_changes_emitted_empty A fuel₃ s tc' acc' hEmp hfin']

/-- Concrete arena for the C3 witness: a leaf under a one-child branch. -/
def wArenaC3 : Arena :=
  ⟨[.leafA [32] (.inlined [7]),
    .branchA ([some 0] ++ List.replicate 15 none) none]⟩

/-- Tracking session on `wArenaC3` with the branch converted into slot 0. -/
def wStateC3 : UpdState :=
  ⟨some 1,
   [some (.Branch ([some (.Old 0)] ++ List.replicate 15 none) none)],
   some ⟨[], ⟨[], []⟩⟩⟩

/-- Serialized leaf node of `wArenaC3`. -/
def wLeafSerC3 : List Nat := [0, 1, 32, 1, 1, 7, 103]

/-- Hash of the leaf node of `wArenaC3`. -/
def wLeafHashC3 : List Nat := 1 :: wLeafSerC3

/-- Serialized branch (root) node of `wArenaC3`. -/
def wRootSerC3 : List Nat := 2 :: 1 :: (wLeafHashC3 ++ List.replicate 15 0 ++ [153])

/-- Hash of the branch (root) node of `wArenaC3`. -/
def wRootHashC3 : List Nat := 1 :: wRootSerC3

/-- State after the absent-key descent `delete [0]` on `wStateC3`: the leaf
child was converted, the key was found absent at it. -/
def wStateC3x : UpdState :=
  ⟨some 1,
   [some (.Branch ([some (.Updated 1)] ++ List.replicate 15 none) none),
    some (.Leaf [32] (.inlined [7]))],
   some ⟨[(wLeafHashC3, -1, none)], ⟨[(wLeafHashC3, wLeafSerC3)], []⟩⟩⟩

/-- `TrieChanges` emitted for `wStateC3`. -/
def wTcC3 : TrieChanges' :=
  { old_root := wRootHashC3, new_root := wRootHashC3,
    insertions := [(wRootHashC3, wRootSerC3, 1)], deletions := [],
    mem_trie_changes := some
      { node_ids_with_hashes := [(0, wRootHashC3)],
        updated_nodes :=
          [some (.Branch ([some (.Old 0)] ++ List.replicate 15 none) none)] } }

/-- `TrieAccesses` emitted for `wStateC3`. -/
def wAccC3 : TrieAccesses := ⟨[], []⟩

/-- `TrieChanges` emitted for `wStateC3x`. -/
def wTcC3x : TrieChanges' :=
  { old_root := wRootHashC3, new_root := wRootHashC3,
    insertions := [(wRootHashC3, wRootSerC3, 1)], deletions := [],
    mem_trie_changes := some
      { node_ids_with_hashes := [(1, wLeafHashC3), (0, wRootHashC3)],
        updated_nodes :=
          [some (.Branch ([some (.Updated 1)] ++ List.replicate 15 none) none),
           some (.Leaf [32] (.inlined [7]))] } }

/-- `TrieAccesses` emitted for `wStateC3x`. -/
def wAccC3x : TrieAccesses := ⟨[(wLeafHashC3, wLeafSerC3)], []⟩

/-- `wArenaC3` satisfies the arena contract. -/
theorem wArenaC3_wf : wfArena wArenaC3 := by
  intro h
  match h with
  | 0 => exact trivial
  | 1 => exact (by decide :
      ∀ c ∈ (([some 0] ++ List.replicate 15 none : List (Option Nat)).filterMap id),
        c < 1)
  | (n + 2) => exact trivial

/-- Witness for C3 at a concrete arena, state and key. -/
theorem delete_absent_noop_witness :
    delete wArenaC3 9 wStateC3 [0] = .ok wStateC3x ∧
    wTcC3x.new_root = wTcC3.new_root :=
  delete_absent_noop wArenaC3 9 9 9 wStateC3 wStateC3x [0] wTcC3 wTcC3x wAccC3 wAccC3x
    wArenaC3_wf (Or.inl ⟨2, (wRootHashC3, 153, wRootSerC3), rfl⟩) rfl rfl rfl

/-- Setting the slot just before an appended element. -/
theorem set_append_last {α : Type} :
    ∀ (l : List α) (a b : α), (l ++ [a]).set l.length b = l ++ [b] := by
  intro l
  induction l with
  | nil => intro a b; rfl
  | cons x t ih =>
    intro a b
    show x :: ((t ++ [a]).set t.length b) = x :: (t ++ [b])
    rw [ih a b]

/-- A list ending in `a` decomposes as an append. -/
theorem getLast?_decomp {α : Type} :
    ∀ (l : List α) (a : α), l.getLast? = some a → ∃ l2, l = l2 ++ [a] := by
  intro l
  induction l with
  | nil => intro a h; simp at h
  | cons x t ih =>
    intro a h
    cases t with
    | nil =>
      simp only [List.getLast?_singleton, Option.some.injEq] at h
      exact ⟨[], by rw [h]; rfl⟩
    | cons y t2 =>
      rw [List.getLast?_cons_cons] at h
      obtain ⟨l2, hl2⟩ := ih a h
      exact ⟨x :: l2, by rw [hl2]; rfl⟩

/-- The hash component of an `arenaInfo` triple is the hash of its
serialized component. -/
theorem arenaInfo_hash (A : Arena) :
    ∀ f h x, arenaInfo A f h = .ok x → x.1 = hashBytes x.2.2 := by
  intro f h x hx
  cases f with
  | zero => simp [arenaInfo] at hx
  | succ f =>
    unfold arenaInfo at hx
    cases hA : A.nodes.get? h with
    | none => simp only [hA] at hx; exact absurd hx (by simp)
    | some an =>
      simp only [hA] at hx
      cases an with
      | leafA e v =>
        dsimp only at hx
        injection hx with hx
        rw [← hx]
      | extensionA e c =>
        dsimp only at hx
        cases hc : arenaInfo A f c with
        | error e2 => rw [hc] at hx; exact absurd hx (by simp)
        | ok y =>
          rw [hc] at hx
          injection hx with hx
          rw [← hx]
      | branchA cs v =>
        dsimp only at hx
        cases hfc : cs.foldlM (fun (acc : List (Option (List Nat)) × Nat) c =>
            (match c with
            | none => .ok (acc.1 ++ [none], acc.2)
            | some ch =>
              (arenaInfo A f ch).map (fun info =>
                (acc.1 ++ [some info.1], u64add acc.2 info.2.1))
            : Except TErr (List (Option (List Nat)) × Nat)))
            ([], TRIE_COSTS.node_cost) with
        | error e2 => rw [hfc] at hx; exact absurd hx (by simp)
        | ok p =>
          rw [hfc] at hx
          injection hx with hx
          rw [← hx]

/-- Lengths agree along a chain. -/
theorem Chain_lengths (A : Arena) :
    ∀ hs ns xs, Chain A hs ns xs →
      ns.length = hs.length ∧ xs.length = hs.length ∧ 0 < hs.length := by
  intro hs ns xs hch
  induction hch with
  | base r an x hA hx => simp
  | stepB hs ns xs r cs v idx r2 an2 x2 hprev hc hA2 hx2 ih =>
    simp only [List.length_append, List.length_singleton] at ih ⊢
    omega
  | stepE hs ns xs r e r2 an2 x2 hprev hA2 hx2 ih =>
    simp only [List.length_append, List.length_singleton] at ih ⊢
    omega

/-- The last slot of a chain is a pristine conversion. -/
theorem Chain_last (A : Arena) (hs : List Nat)
    (ns : List (Option UpdatedMemTrieNode)) (xs : List (List Nat × Nat × List Nat))
    (hch : Chain A hs ns xs) :
    ∃ r an x, A.nodes.get? r = some an ∧ arenaInfo A (r + 1) r = .ok x ∧
      hs.getLast? = some r ∧ xs.getLast? = some x ∧
      ns.getLast? = some (some (from_existing_node_view an)) := by
  cases hch with
  | base r an x hA hx => exact ⟨r, an, x, hA, hx, rfl, rfl, rfl⟩
  | stepB hs ns xs r cs v idx r2 an2 x2 hprev hc hA2 hx2 =>
    exact ⟨r2, an2, x2, hA2, hx2, List.getLast?_concat _, List.getLast?_concat _,
      List.getLast?_concat _⟩
  | stepE hs ns xs r e r2 an2 x2 hprev hA2 hx2 =>
    exact ⟨r2, an2, x2, hA2, hx2, List.getLast?_concat _, List.getLast?_concat _,
      List.getLast?_concat _⟩

/-- Every triple recorded along a chain is an `arenaInfo` output. -/
theorem Chain_mem_arenaInfo (A : Arena) :
    ∀ hs ns xs, Chain A hs ns xs →
      ∀ x ∈ xs, ∃ r, arenaInfo A (r + 1) r = .ok x := by
  intro hs ns xs hch
  induction hch with
  | base r an x hA hx =>
    intro y hy
    rw [List.mem_singleton] at hy
    subst hy
    exact ⟨r, hx⟩
  | stepB hs ns xs r cs v idx r2 an2 x2 hprev hc hA2 hx2 ih =>
    intro y hy
    rcases List.mem_append.mp hy with hy | hy
    · exact ih y hy
    · rw [List.mem_singleton] at hy
      subst hy
      exact ⟨r2, hx2⟩
  | stepE hs ns xs r e r2 an2 x2 hprev hA2 hx2 ih =>
    intro y hy
    rcases List.mem_append.mp hy with hy | hy
    · exact ih y hy
    · rw [List.mem_singleton] at hy
      subst hy
      exact ⟨r2, hx2⟩

/-- Every slot of a chain resolves to its source's `arenaInfo` triple. -/
theorem Chain_resolve (A : Arena) (hwf : wfArena A) :
    ∀ hs ns xs, Chain A hs ns xs →
      ∀ i x, xs.get? i = some x → ∃ F, refNodeInfo A ns F i = .ok x := by
  intro hs ns xs hch
  induction hch with
  | base r an x hA hx =>
    intro i y hy
    cases i with
    | zero =>
      injection hy with hy
      subst hy
      exact ⟨1, refNodeInfo_pristine A hwf _ 0 0 r an x hA rfl hx⟩
    | succ i => simp at hy
  | stepB hs ns xs r cs v idx r2 an2 x2 hprev hc hA2 hx2 ih =>
    have hlen := Chain_lengths A _ _ _ hprev
    have hq : (ns ++ [some (from_existing_node_view (.branchA cs v))]).get?
        ns.length = some (some (.Branch (cs.map (Option.map NodeOrIndex.Old)) v)) :=
      get?_append_self _ _
    have hcc : (cs.map (Option.map NodeOrIndex.Old)).get? idx =
        some (some (.Old r2)) := by
      rw [List.get?_map, hc]
      rfl
    have hstep := ConvStep.branchC
      (ns ++ [some (from_existing_node_view (.branchA cs v))]) ns.length idx r2
      (cs.map (Option.map NodeOrIndex.Old)) v an2 hq hcc hA2
    have htarg :
        ((ns ++ [some (from_existing_node_view (.branchA cs v))] ++
          [some (from_existing_node_view an2)]).set ns.length
          (some (.Branch ((cs.map (Option.map NodeOrIndex.Old)).set idx
            (some (.Updated (ns ++
              [some (from_existing_node_view (.branchA cs v))]).length))) v))) =
        ((ns ++ [some (.Branch ((cs.map (Option.map NodeOrIndex.Old)).set idx
            (some (.Updated (ns.length + 1)))) v)]) ++
          [some (from_existing_node_view an2)]) := by
      rw [← set_append_left _ _ _ _ (by simp)]
      rw [set_append_last]
      simp
    rw [htarg] at hstep
    intro i y hy
    rcases Nat.lt_trichotomy i xs.length with hlt | heq | hgt
    · rw [List.get?_append hlt] at hy
      obtain ⟨F, hF⟩ := ih i y hy
      exact ⟨2 * F, refNodeInfo_convStep A hwf _ _ hstep F i y hF⟩
    · subst heq
      rw [get?_append_self] at hy
      injection hy with hy
      subst hy
      have hxl : xs.length = ns.length + 1 := by
        have h1 := hlen.1
        have h2 := hlen.2.1
        simp only [List.length_append, List.length_singleton] at h1 h2
        omega
      rw [hxl]
      refine ⟨1, refNodeInfo_pristine A hwf _ 0 (ns.length + 1) r2 an2 x2 hA2 ?_ hx2⟩
      have hlen2 : (ns ++ [some (UpdatedMemTrieNode.Branch
          ((cs.map (Option.map NodeOrIndex.Old)).set idx
          (some (.Updated (ns.length + 1)))) v)]).length = ns.length + 1 := by simp
      have hga := get?_append_self
        (ns ++ [some (UpdatedMemTrieNode.Branch
          ((cs.map (Option.map NodeOrIndex.Old)).set idx
          (some (.Updated (ns.length + 1)))) v)])
        (some (from_existing_node_view an2))
      rw [hlen2] at hga
      exact hga
    · rw [List.get?_eq_none.mpr (by simp; omega)] at hy
      exact absurd hy (by simp)
  | stepE hs ns xs r e r2 an2 x2 hprev hA2 hx2 ih =>
    have hlen := Chain_lengths A _ _ _ hprev
    have hq : (ns ++ [some (from_existing_node_view (.extensionA e r2))]).get?
        ns.length = some (some (.Extension e (.Old r2))) :=
      get?_append_self _ _
    have hstep := ConvStep.extC
      (ns ++ [some (from_existing_node_view (.extensionA e r2))]) ns.length r2
      e an2 hq hA2
    have htarg :
        ((ns ++ [some (from_existing_node_view (.extensionA e r2))] ++
          [some (from_existing_node_view an2)]).set ns.length
          (some (.Extension e (.Updated (ns ++
            [some (from_existing_node_view (.extensionA e r2))]).length)))) =
        ((ns ++ [some (.Extension e (.Updated (ns.length + 1)))]) ++
          [some (from_existing_node_view an2)]) := by
      rw [← set_append_left _ _ _ _ (by simp)]
      rw [set_append_last]
      simp
    rw [htarg] at hstep
    intro i y hy
    rcases Nat.lt_trichotomy i xs.length with hlt | heq | hgt
    · rw [List.get?_append hlt] at hy
      obtain ⟨F, hF⟩ := ih i y hy
      exact ⟨2 * F, refNodeInfo_convStep A hwf _ _ hstep F i y hF⟩
    · subst heq
      rw [get?_append_self] at hy
      injection hy with hy
      subst hy
      have hxl : xs.length = ns.length + 1 := by
        have h1 := hlen.1
        have h2 := hlen.2.1
        simp only [List.length_append, List.length_singleton] at h1 h2
        omega
      rw [hxl]
      refine ⟨1, refNodeInfo_pristine A hwf _ 0 (ns.length + 1) r2 an2 x2 hA2 ?_ hx2⟩
      have hlen2 : (ns ++ [some (UpdatedMemTrieNode.Extension e
          (.Updated (ns.length + 1)))]).length = ns.length + 1 := by simp
      have hga := get?_append_self
        (ns ++ [some (UpdatedMemTrieNode.Extension e (.Updated (ns.length + 1)))])
        (some (from_existing_node_view an2))
      rw [hlen2] at hga
      exact hga
    · rw [List.get?_eq_none.mpr (by simp; omega)] at hy
      exact absurd hy (by simp)

/-- `set` decomposes as take/cons/drop. -/
theorem set_decomp {α : Type} :
    ∀ (l : List α) (i : Nat) (a : α), i < l.length →
      l.set i a = l.take i ++ a :: l.drop (i + 1) := by
  intro l
  induction l with
  | nil => intro i a h; simp at h
  | cons x t ih =>
    intro i a h
    cases i with
    | zero => rfl
    | succ i =>
      show x :: t.set i a = x :: (t.take i ++ a :: t.drop (i + 1))
      rw [ih i a (by simpa using h)]

/-- Mapped-`Old` children are never `Updated` references. -/
theorem mapOld_no_updated (cs : List (Option Nat)) :
    ∀ c ∈ cs.map (Option.map NodeOrIndex.Old), ∀ j, c ≠ some (.Updated j) := by
  intro c hc j
  obtain ⟨c0, -, rfl⟩ := List.mem_map.mp hc
  cases c0 with
  | none => simp
  | some h2 => simp

/-- The slot shapes of a chain: every slot is non-empty; the last slot has
only `Old` children; every earlier slot points, by exactly one `Updated`
reference, at the next slot. -/
theorem Chain_shape (A : Arena) :
    ∀ hs ns xs, Chain A hs ns xs →
      ∀ i n, ns.get? i = some (some n) →
        n ≠ .Empty ∧
        (i + 1 = ns.length → childrenOld n = true) ∧
        (i + 1 < ns.length →
          (∃ e, n = .Extension e (.Updated (i + 1))) ∨
          (∃ cs v, n = .Branch cs v ∧ oneUpdatedChild cs (i + 1))) := by
  intro hs ns xs hch
  induction hch with
  | base r an x hA hx =>
    intro i n hget
    cases i with
    | zero =>
      injection hget with hget
      injection hget with hget
      subst hget
      refine ⟨by cases an <;> simp [from_existing_node_view], ?_, ?_⟩
      · intro _; exact childrenOld_from_existing an
      · intro hlt; simp at hlt
    | succ i => simp at hget
  | stepB hs ns xs r cs v idx r2 an2 x2 hprev hc hA2 hx2 ih =>
    intro i n hget
    have hidx : idx < cs.length := get?_some_lt _ _ _ hc
    rcases Nat.lt_trichotomy i ns.length with hlt | heq | hgt
    · have hget0 : ns.get? i = some (some n) := by
        rw [List.get?_append (by simp; omega), List.get?_append hlt] at hget
        exact hget
      have hgetp : (ns ++ [some (from_existing_node_view (.branchA cs v))]).get? i =
          some (some n) := get?_append_of_some _ _ _ _ hget0
      obtain ⟨hne, -, hsh⟩ := ih i n hgetp
      refine ⟨hne, ?_, ?_⟩
      · intro heq2
        simp only [List.length_append, List.length_cons, List.length_nil] at heq2
        omega
      · intro hlt4
        refine hsh ?_
        simp only [List.length_append, List.length_cons, List.length_nil]
        omega
    · subst heq
      have hget2 : ((ns ++ [some (UpdatedMemTrieNode.Branch
          ((cs.map (Option.map NodeOrIndex.Old)).set idx
            (some (.Updated (ns.length + 1)))) v)]) ++
          [some (from_existing_node_view an2)]).get? ns.length =
          some (some (.Branch ((cs.map (Option.map NodeOrIndex.Old)).set idx
            (some (.Updated (ns.length + 1)))) v)) := by
        rw [List.get?_append (by simp)]
        exact get?_append_self _ _
      rw [hget2] at hget
      injection hget with hget
      injection hget with hget
      subst hget
      refine ⟨by simp, ?_, ?_⟩
      · intro heq2
        simp only [List.length_append, List.length_cons, List.length_nil] at heq2
        omega
      · intro hlt4
        refine Or.inr ⟨_, v, rfl, ?_⟩
        have hidx2 : idx < (cs.map (Option.map NodeOrIndex.Old)).length := by
          simpa using hidx
        refine ⟨(cs.map (Option.map NodeOrIndex.Old)).take idx,
          (cs.map (Option.map NodeOrIndex.Old)).drop (idx + 1),
          set_decomp _ _ _ hidx2, ?_, ?_⟩
        · intro c hcm j2
          exact mapOld_no_updated cs c (List.mem_of_mem_take hcm) j2
        · intro c hcm j2
          exact mapOld_no_updated cs c (List.mem_of_mem_drop hcm) j2
    · have hlen2 : ((ns ++ [some (UpdatedMemTrieNode.Branch
          ((cs.map (Option.map NodeOrIndex.Old)).set idx
            (some (.Updated (ns.length + 1)))) v)]) ++
          [some (from_existing_node_view an2)]).length = ns.length + 2 := by simp
      rcases Nat.lt_trichotomy i (ns.length + 1) with hlt2 | heq2 | hgt2
      · omega
      · subst heq2
        have hget2 : ((ns ++ [some (UpdatedMemTrieNode.Branch
            ((cs.map (Option.map NodeOrIndex.Old)).set idx
              (some (.Updated (ns.length + 1)))) v)]) ++
            [some (from_existing_node_view an2)]).get? (ns.length + 1) =
            some (some (from_existing_node_view an2)) := by
          have hga := get?_append_self
            (ns ++ [some (UpdatedMemTrieNode.Branch
              ((cs.map (Option.map NodeOrIndex.Old)).set idx
              (some (.Updated (ns.length + 1)))) v)])
            (some (from_existing_node_view an2))
          simpa using hga
        rw [hget2] at hget
        injection hget with hget
        injection hget with hget
        subst hget
        refine ⟨by cases an2 <;> simp [from_existing_node_view], ?_, ?_⟩
        · intro _; exact childrenOld_from_existing an2
        · intro hlt3; rw [hlen2] at hlt3; omega
      · rw [List.get?_eq_none.mpr (by rw [hlen2]; omega)] at hget
        exact absurd hget (by simp)
  | stepE hs ns xs r e r2 an2 x2 hprev hA2 hx2 ih =>
    intro i n hget
    rcases Nat.lt_trichotomy i ns.length with hlt | heq | hgt
    · have hget0 : ns.get? i = some (some n) := by
        rw [List.get?_append (by simp; omega), List.get?_append hlt] at hget
        exact hget
      have hgetp : (ns ++ [some (from_existing_node_view (.extensionA e r2))]).get? i =
          some (some n) := get?_append_of_some _ _ _ _ hget0
      obtain ⟨hne, -, hsh⟩ := ih i n hgetp
      refine ⟨hne, ?_, ?_⟩
      · intro heq2
        simp only [List.length_append, List.length_cons, List.length_nil] at heq2
        omega
      · intro hlt4
        refine hsh ?_
        simp only [List.length_append, List.length_cons, List.length_nil]
        omega
    · subst heq
      have hget2 : ((ns ++ [some (UpdatedMemTrieNode.Extension e (.Updated (ns.length + 1)))]) ++
          [some (from_existing_node_view an2)]).get? ns.length =
          some (some (.Extension e (.Updated (ns.length + 1)))) := by
        rw [List.get?_append (by simp)]
        exact get?_append_self _ _
      rw [hget2] at hget
      injection hget with hget
      injection hget with hget
      subst hget
      refine ⟨by simp, ?_, ?_⟩
      · intro heq2
        simp only [List.length_append, List.length_cons, List.length_nil] at heq2
        omega
      · intro hlt4
        exact Or.inl ⟨e, rfl⟩
    · have hlen2 : ((ns ++ [some (UpdatedMemTrieNode.Extension e (.Updated (ns.length + 1)))]) ++
          [some (from_existing_node_view an2)]).length = ns.length + 2 := by simp
      rcases Nat.lt_trichotomy i (ns.length + 1) with hlt2 | heq2 | hgt2
      · omega
      · subst heq2
        have hget2 : ((ns ++ [some (UpdatedMemTrieNode.Extension e (.Updated (ns.length + 1)))]) ++
            [some (from_existing_node_view an2)]).get? (ns.length + 1) =
            some (some (from_existing_node_view an2)) := by
          have hga := get?_append_self
            (ns ++ [some (UpdatedMemTrieNode.Extension e
              (.Updated (ns.length + 1)))])
            (some (from_existing_node_view an2))
          simpa using hga
        rw [hget2] at hget
        injection hget with hget
        injection hget with hget
        subst hget
        refine ⟨by cases an2 <;> simp [from_existing_node_view], ?_, ?_⟩
        · intro _; exact childrenOld_from_existing an2
        · intro hlt3; rw [hlen2] at hlt3; omega
      · rw [List.get?_eq_none.mpr (by rw [hlen2]; omega)] at hget
        exact absurd hget (by simp)

/-- The post-order child fold passes straight through children that hold no
`Updated` reference. -/
theorem post_order_fold_pass (s : UpdState) (fuel : Nat) :
    ∀ (cs : List (Option NodeOrIndex)) (acc : List Nat),
      (∀ c ∈ cs, ∀ j, c ≠ some (.Updated j)) →
      cs.foldlM (fun a child =>
        match child with
        | some (.Updated cid) => post_order_traverse_updated_nodes s fuel cid a
        | _ => pure a) acc = .ok acc := by
  intro cs
  induction cs with
  | nil => intro acc _; rfl
  | cons c rest ih =>
    intro acc hno
    rw [List.foldlM_cons]
    cases c with
    | none =>
      simp only [bind, Except.bind, pure, Except.pure]
      exact ih acc (fun c2 hc2 => hno c2 (List.mem_cons_of_mem _ hc2))
    | some x =>
      cases x with
      | Old p =>
        simp only [bind, Except.bind, pure, Except.pure]
        exact ih acc (fun c2 hc2 => hno c2 (List.mem_cons_of_mem _ hc2))
      | Updated j =>
        exact absurd rfl (hno _ (List.mem_cons_self _ _) j)

/-- On a chain-shaped buffer, a successful post-order traversal from slot
`k` returns exactly the deeper slots in reverse order, `[n-1, …, k]`. -/
theorem chain_post_order_inv (s : UpdState) (n : Nat)
    (hn : n = s.updated_nodes.length)
    (hshape : ∀ i m, s.updated_nodes.get? i = some (some m) →
      m ≠ .Empty ∧
      (i + 1 = n → childrenOld m = true) ∧
      (i + 1 < n →
        (∃ e, m = .Extension e (.Updated (i + 1))) ∨
        (∃ cs v, m = .Branch cs v ∧ oneUpdatedChild cs (i + 1)))) :
    ∀ fuel k acc l, k < n →
      post_order_traverse_updated_nodes s fuel k acc = .ok l →
      l = acc ++ (List.range (n - k)).map (fun t => n - 1 - t) := by
  intro fuel
  induction fuel with
  | zero => intro k acc l _ h; simp [post_order_traverse_updated_nodes] at h
  | succ fuel ih =>
    intro k acc l hk h
    unfold post_order_traverse_updated_nodes at h
    cases hg : get_node s k with
    | error e => rw [hg] at h; exact absurd h (by simp [bind, Except.bind])
    | ok node =>
      rw [hg] at h
      simp only [bind, Except.bind] at h
      have hbuf : s.updated_nodes.get? k = some (some node) :=
        (get_node_ok_iff s k node).mp hg
      obtain ⟨hne, hlast, hpoint⟩ := hshape k node hbuf
      have hseg : k + 1 < n →
          (List.range (n - k)).map (fun t => n - 1 - t) =
          ((List.range (n - (k + 1))).map (fun t => n - 1 - t)) ++ [k] := by
        intro hk1
        have hm : n - k = (n - (k + 1)) + 1 := by omega
        rw [hm, List.range_succ, List.map_append, List.map_cons, List.map_nil]
        have hval : n - 1 - (n - (k + 1)) = k := by omega
        rw [hval]
      have hseg1 : k + 1 = n →
          (List.range (n - k)).map (fun t => n - 1 - t) = [k] := by
        intro hk1
        have hm : n - k = 1 := by omega
        rw [hm]
        rw [show List.range 1 = [0] from rfl, List.map_cons, List.map_nil]
        have hval : n - 1 - 0 = k := by omega
        rw [hval]
      cases node with
      | Empty => exact absurd rfl hne
      | Leaf e v =>
        dsimp only at h
        simp only [pure, Except.pure, Except.ok.injEq] at h
        rcases Nat.lt_or_ge (k + 1) n with hk1 | hk1
        · rcases hpoint hk1 with ⟨e2, hEq⟩ | ⟨cs, v2, hEq, -⟩ <;>
            exact absurd hEq (by simp)
        · have hk2 : k + 1 = n := by omega
          rw [hseg1 hk2]
          exact h.symm
      | Extension e c =>
        dsimp only at h
        rcases Nat.lt_or_ge (k + 1) n with hk1 | hk1
        · rcases hpoint hk1 with ⟨e2, hEq⟩ | ⟨cs, v2, hEq, -⟩
          · injection hEq with h1 h2
            subst h2
            dsimp only at h
            cases hrec : post_order_traverse_updated_nodes s fuel (k + 1) acc with
            | error e3 => rw [hrec] at h; simp at h
            | ok mid =>
              rw [hrec] at h
              simp only [pure, Except.pure, Except.ok.injEq] at h
              rw [hseg hk1, ← List.append_assoc]
              rw [← ih (k + 1) acc mid hk1 hrec]
              exact h.symm
          · exact absurd hEq (by simp)
        · have hk2 : k + 1 = n := by omega
          have hco := hlast hk2
          cases c with
          | Updated j => simp [childrenOld] at hco
          | Old p =>
            dsimp only at h
            simp only [pure, Except.pure, Except.ok.injEq] at h
            rw [hseg1 hk2]
            exact h.symm
      | Branch children v =>
        dsimp only at h
        rcases Nat.lt_or_ge (k + 1) n with hk1 | hk1
        · rcases hpoint hk1 with ⟨e2, hEq⟩ | ⟨cs, v2, hEq, hone⟩
          · exact absurd hEq (by simp)
          · injection hEq with h1 h2
            subst h1
            subst h2
            obtain ⟨l₁, l₂, hdec, hno1, hno2⟩ := hone
            rw [hdec] at h
            rw [List.foldlM_append] at h
            rw [post_order_fold_pass s fuel l₁ acc hno1] at h
            simp only [bind, Except.bind] at h
            rw [List.foldlM_cons] at h
            dsimp only at h
            cases hrec : post_order_traverse_updated_nodes s fuel (k + 1) acc with
            | error e3 => rw [hrec] at h; simp [bind, Except.bind] at h
            | ok mid =>
              rw [hrec] at h
              simp only [bind, Except.bind] at h
              rw [post_order_fold_pass s fuel l₂ mid hno2] at h
              simp only [pure, Except.pure, Except.ok.injEq] at h
              rw [hseg hk1, ← List.append_assoc]
              rw [← ih (k + 1) acc mid hk1 hrec]
              exact h.symm
        · have hk2 : k + 1 = n := by omega
          have hco := hlast hk2
          have hno : ∀ c ∈ children, ∀ j, c ≠ some (.Updated j) := by
            intro c hc j hEq
            subst hEq
            simp only [childrenOld, List.all_eq_true] at hco
            have := hco _ hc
            simp at this
          rw [post_order_fold_pass s fuel children acc hno] at h
          simp only [pure, Except.pure, Except.ok.injEq] at h
          rw [hseg1 hk2]
          exact h.symm

/-- Pointwise-equal functions map equally. -/
theorem map_congr_mem {α β : Type} :
    ∀ (l : List α) (f g : α → β), (∀ a ∈ l, f a = g a) → l.map f = l.map g := by
  intro l
  induction l with
  | nil => intro f g _; rfl
  | cons a rest ih =>
    intro f g hfg
    rw [List.map_cons, List.map_cons, hfg a (List.mem_cons_self _ _),
      ih f g (fun a2 ha2 => hfg a2 (List.mem_cons_of_mem _ ha2))]

/-- On distinct ids, the collection loop emits exactly one entry per id,
carrying the id's hash and serialized bytes from the result array. -/
theorem collect_fold_entries :
    ∀ (rest : List Nat) (done : List (Nat × List Nat × List Nat))
      (res : List (List Nat × Nat × List Nat))
      (fin : List (Nat × List Nat × List Nat) × List (List Nat × Nat × List Nat)),
      rest.foldlM collectStep (done, res) = .ok fin →
      rest.Nodup →
      fin.1 = done ++ rest.map (fun id =>
        (id, ((res.get? id).getD (zeroHash, 0, [])).1,
          ((res.get? id).getD (zeroHash, 0, [])).2.2)) := by
  intro rest
  induction rest with
  | nil =>
    intro done res fin hf _
    simp only [List.foldlM_nil, pure, Except.pure, Except.ok.injEq] at hf
    subst hf
    simp
  | cons id rest ihr =>
    intro done res fin hf hnd
    rw [List.foldlM_cons] at hf
    cases hstep : collectStep (done, res) id with
    | error e => rw [hstep] at hf; simp [bind, Except.bind] at hf
    | ok acc1 =>
      rw [hstep] at hf
      simp only [bind, Except.bind] at hf
      unfold collectStep at hstep
      dsimp only at hstep
      cases hgr : res.get? id with
      | none => rw [hgr] at hstep; simp at hstep
      | some t =>
        obtain ⟨hh, mm, ser⟩ := t
        rw [hgr] at hstep
        dsimp only at hstep
        simp only [Except.ok.injEq] at hstep
        subst hstep
        have hnd2 := hnd
        rw [List.nodup_cons] at hnd2
        have hrest := ihr _ _ fin hf hnd2.2
        rw [hrest]
        rw [List.map_cons]
        have hmap : rest.map (fun id2 =>
            (id2, (((res.set id (hh, mm, [])).get? id2).getD (zeroHash, 0, [])).1,
              (((res.set id (hh, mm, [])).get? id2).getD (zeroHash, 0, [])).2.2)) =
            rest.map (fun id2 =>
            (id2, ((res.get? id2).getD (zeroHash, 0, [])).1,
              ((res.get? id2).getD (zeroHash, 0, [])).2.2)) := by
          apply map_congr_mem
          intro id2 hid2
          have hne : id2 ≠ id := by
            intro hEq
            subst hEq
            exact hnd2.1 hid2
          rw [get?_set_ne _ _ _ _ hne]
        rw [hmap, hgr]
        simp

/-- The keys recorded in a refcount-delta map. -/
def rcKeys (m : RcMap) : List (List Nat) := m.map (fun e => e.1)

/-- `rcLookup` after `rcSub`. -/
theorem rcLookup_rcSub' :
    ∀ (m : RcMap) (h h2 : List Nat) (rc : Int),
      rcLookup (rcSub m h rc) h2 =
        rcLookup m h2 - (if h2 = h then rc else 0) := by
  intro m
  induction m with
  | nil =>
    intro h h2 rc
    by_cases hn : h2 = h
    · subst hn; simp [rcSub, rcLookup]
    · simp [rcSub, rcLookup, hn, Ne.symm hn]
  | cons e rest ih =>
    intro h h2 rc
    obtain ⟨k, d, p⟩ := e
    simp only [rcSub]
    by_cases hk : k = h
    · rw [if_pos hk]
      simp only [rcLookup]
      by_cases h2k : k = h2
      · rw [if_pos h2k, if_pos h2k, if_pos (by rw [← h2k, hk])]
      · rw [if_neg h2k, if_neg h2k, if_neg (fun hx => h2k (hk.trans hx.symm))]
        omega
    · rw [if_neg hk]
      simp only [rcLookup]
      by_cases h2k : k = h2
      · rw [if_pos h2k, if_pos h2k, if_neg (fun hx => hk (h2k.trans hx))]
        omega
      · rw [if_neg h2k, if_neg h2k]
        exact ih h h2 rc

/-- `rcLookup` after `rcAdd`. -/
theorem rcLookup_rcAdd' :
    ∀ (m : RcMap) (h : List Nat) (payload : List Nat) (h2 : List Nat) (rc : Int),
      rcLookup (rcAdd m h payload rc) h2 =
        rcLookup m h2 + (if h2 = h then rc else 0) := by
  intro m
  induction m with
  | nil =>
    intro h payload h2 rc
    by_cases hn : h2 = h
    · subst hn; simp [rcAdd, rcLookup]
    · simp [rcAdd, rcLookup, hn, Ne.symm hn]
  | cons e rest ih =>
    intro h payload h2 rc
    obtain ⟨k, d, p⟩ := e
    simp only [rcAdd]
    by_cases hk : k = h
    · rw [if_pos hk]
      simp only [rcLookup]
      by_cases h2k : k = h2
      · rw [if_pos h2k, if_pos h2k, if_pos (by rw [← h2k, hk])]
      · rw [if_neg h2k, if_neg h2k, if_neg (fun hx => h2k (hk.trans hx.symm))]
        omega
    · rw [if_neg hk]
      simp only [rcLookup]
      by_cases h2k : k = h2
      · rw [if_pos h2k, if_pos h2k, if_neg (fun hx => hk (h2k.trans hx))]
        omega
      · rw [if_neg h2k, if_neg h2k]
        exact ih h payload h2 rc

/-- `rcLookup` after a fold of unit subtractions. -/
theorem rcLookup_subFold :
    ∀ (l : List (List Nat)) (m : RcMap) (h2 : List Nat),
      rcLookup (l.foldl (fun m h => rcSub m h 1) m) h2 =
        rcLookup m h2 - (l.count h2 : Int) := by
  intro l
  induction l with
  | nil => intro m h2; simp
  | cons a rest ih =>
    intro m h2
    rw [List.foldl_cons, ih, rcLookup_rcSub']
    rw [List.count_cons]
    simp only [beq_iff_eq]
    by_cases hn : h2 = a
    · rw [if_pos hn, if_pos hn.symm]
      push_cast
      omega
    · rw [if_neg hn, if_neg (fun hx => hn hx.symm)]
      push_cast
      omega

/-- `rcLookup` after a fold of unit additions. -/
theorem rcLookup_addFold :
    ∀ (l : List (List Nat × List Nat)) (m : RcMap) (h2 : List Nat),
      rcLookup (l.foldl (fun m q => rcAdd m q.1 q.2 1) m) h2 =
        rcLookup m h2 + ((l.map Prod.fst).count h2 : Int) := by
  intro l
  induction l with
  | nil => intro m h2; simp
  | cons a rest ih =>
    intro m h2
    rw [List.foldl_cons, ih, rcLookup_rcAdd']
    rw [List.map_cons, List.count_cons]
    simp only [beq_iff_eq]
    by_cases hn : h2 = a.1
    · rw [if_pos hn, if_pos hn.symm]
      push_cast
      omega
    · rw [if_neg hn, if_neg (fun hx => hn hx.symm)]
      push_cast
      omega

/-- Keys after `rcSub`: unchanged, or the new key appended. -/
theorem rcKeys_rcSub :
    ∀ (m : RcMap) (h : List Nat) (rc : Int),
      rcKeys (rcSub m h rc) =
        if h ∈ rcKeys m then rcKeys m else rcKeys m ++ [h] := by
  intro m
  induction m with
  | nil => intro h rc; simp [rcSub, rcKeys]
  | cons e rest ih =>
    intro h rc
    obtain ⟨k, d, p⟩ := e
    simp only [rcSub, rcKeys, List.map_cons]
    by_cases hk : k = h
    · rw [if_pos hk]
      rw [if_pos (by simp [rcKeys, hk.symm])]
      simp [hk]
    · rw [if_neg hk]
      have ihh := ih h rc
      simp only [rcKeys] at ihh
      by_cases hmem : h ∈ rest.map (fun e => e.1)
      · rw [if_pos hmem] at ihh
        rw [if_pos (by simp [rcKeys]; right; simpa using hmem)]
        simp only [List.map_cons, ihh]
      · rw [if_neg hmem] at ihh
        rw [if_neg (by simp [rcKeys]; exact ⟨fun hx => hk hx.symm, by simpa using hmem⟩)]
        simp only [List.map_cons, ihh]
        rfl

/-- Keys after `rcAdd`: unchanged, or the new key appended. -/
theorem rcKeys_rcAdd :
    ∀ (m : RcMap) (h : List Nat) (payload : List Nat) (rc : Int),
      rcKeys (rcAdd m h payload rc) =
        if h ∈ rcKeys m then rcKeys m else rcKeys m ++ [h] := by
  intro m
  induction m with
  | nil => intro h payload rc; simp [rcAdd, rcKeys]
  | cons e rest ih =>
    intro h payload rc
    obtain ⟨k, d, p⟩ := e
    simp only [rcAdd, rcKeys, List.map_cons]
    by_cases hk : k = h
    · rw [if_pos hk]
      rw [if_pos (by simp [rcKeys, hk.symm])]
      simp [hk]
    · rw [if_neg hk]
      have ihh := ih h payload rc
      simp only [rcKeys] at ihh
      by_cases hmem : h ∈ rest.map (fun e => e.1)
      · rw [if_pos hmem] at ihh
        rw [if_pos (by simp [rcKeys]; right; simpa using hmem)]
        simp only [List.map_cons, ihh]
      · rw [if_neg hmem] at ihh
        rw [if_neg (by simp [rcKeys]; exact ⟨fun hx => hk hx.symm, by simpa using hmem⟩)]
        simp only [List.map_cons, ihh]
        rfl

/-- `rcSub` preserves distinct keys. -/
theorem rcNodup_rcSub (m : RcMap) (h : List Nat) (rc : Int)
    (hnd : (rcKeys m).Nodup) : (rcKeys (rcSub m h rc)).Nodup := by
  rw [rcKeys_rcSub]
  by_cases hmem : h ∈ rcKeys m
  · rw [if_pos hmem]; exact hnd
  · rw [if_neg hmem]
    rw [← List.concat_eq_append]
    exact List.Nodup.concat hmem hnd

/-- `rcAdd` preserves distinct keys. -/
theorem rcNodup_rcAdd (m : RcMap) (h payload : List Nat) (rc : Int)
    (hnd : (rcKeys m).Nodup) : (rcKeys (rcAdd m h payload rc)).Nodup := by
  rw [rcKeys_rcAdd]
  by_cases hmem : h ∈ rcKeys m
  · rw [if_pos hmem]; exact hnd
  · rw [if_neg hmem]
    rw [← List.concat_eq_append]
    exact List.Nodup.concat hmem hnd

/-- Sub-folds preserve distinct keys. -/
theorem rcNodup_subFold :
    ∀ (l : List (List Nat)) (m : RcMap), (rcKeys m).Nodup →
      (rcKeys (l.foldl (fun m h => rcSub m h 1) m)).Nodup := by
  intro l
  induction l with
  | nil => intro m hnd; exact hnd
  | cons a rest ih =>
    intro m hnd
    rw [List.foldl_cons]
    exact ih _ (rcNodup_rcSub m a 1 hnd)

/-- Add-folds preserve distinct keys. -/
theorem rcNodup_addFold :
    ∀ (l : List (List Nat × List Nat)) (m : RcMap), (rcKeys m).Nodup →
      (rcKeys (l.foldl (fun m q => rcAdd m q.1 q.2 1) m)).Nodup := by
  intro l
  induction l with
  | nil => intro m hnd; exact hnd
  | cons a rest ih =>
    intro m hnd
    rw [List.foldl_cons]
    exact ih _ (rcNodup_rcAdd m a.1 a.2 1 hnd)

/-- An entry of a distinct-key map records its own net delta. -/
theorem rcLookup_entry :
    ∀ (m : List (List Nat × Int × Option (List Nat))), (rcKeys m).Nodup →
      ∀ e ∈ m, rcLookup m e.1 = e.2.1 := by
  intro m
  induction m with
  | nil => intro _ e he; simp at he
  | cons q rest ih =>
    intro hnd e he
    obtain ⟨k, d, p⟩ := q
    simp only [rcKeys, List.map_cons, List.nodup_cons] at hnd
    rcases List.mem_cons.mp he with hEq | hmem
    · subst hEq
      simp [rcLookup]
    · simp only [rcLookup]
      have hne : k ≠ e.1 := by
        intro hEq
        exact hnd.1 (by rw [hEq]; exact List.mem_map.mpr ⟨e, hmem, rfl⟩)
      rw [if_neg hne]
      exact ih (by simpa [rcKeys] using hnd.2) e hmem

/-- A distinct-key delta map with zero net deltas splits into no insertions
and no deletions. -/
theorem rcIntoChanges_zero (m : List (List Nat × Int × Option (List Nat)))
    (hnd : (rcKeys m).Nodup)
    (hz : ∀ h, rcLookup m h = 0) : rcIntoChanges m = ([], []) := by
  unfold rcIntoChanges
  rw [List.filterMap_eq_nil.mpr, List.filterMap_eq_nil.mpr]
  · intro e he
    have hze : e.2.1 = 0 := by rw [← rcLookup_entry m hnd e he, hz]
    rw [hze]
    simp
  · intro e he
    have hze : e.2.1 = 0 := by rw [← rcLookup_entry m hnd e he, hz]
    rw [hze]
    simp

/-- Lookup after inserting a different key. -/
theorem accLookup_accInsert_ne {α : Type} :
    ∀ (m : List (List Nat × α)) (k k2 : List Nat) (v : α), k2 ≠ k →
      accLookup (accInsert m k v) k2 = accLookup m k2 := by
  intro m
  induction m with
  | nil =>
    intro k k2 v hne
    simp [accInsert, accLookup, Ne.symm hne]
  | cons q rest ih =>
    intro k k2 v hne
    obtain ⟨k3, v3⟩ := q
    simp only [accInsert]
    by_cases hk : k3 = k
    · rw [if_pos hk]
      simp only [accLookup]
      rw [if_neg (fun hx => hne hx.symm), if_neg (by rw [hk]; exact fun hx => hne hx.symm)]
    · rw [if_neg hk]
      simp only [accLookup]
      by_cases h3 : k3 = k2
      · rw [if_pos h3, if_pos h3]
      · rw [if_neg h3, if_neg h3]
        exact ih k k2 v hne

/-- Folding inserts with keys different from `k` preserves `k`'s binding. -/
theorem accLookup_fold_ne {α : Type} :
    ∀ (pairs : List (List Nat × α)) (m : List (List Nat × α)) (k : List Nat),
      (∀ p ∈ pairs, p.1 ≠ k) →
      accLookup (pairs.foldl (fun m q => accInsert m q.1 q.2) m) k = accLookup m k := by
  intro pairs
  induction pairs with
  | nil => intro m k _; rfl
  | cons q rest ih =>
    intro m k hne
    rw [List.foldl_cons]
    rw [ih _ k (fun p hp => hne p (List.mem_cons_of_mem _ hp))]
    exact accLookup_accInsert_ne _ _ _ _
      (fun hx => hne q (List.mem_cons_self _ _) hx.symm)

/-- Folding inserts binds every inserted key to its (key-determined)
value. -/
theorem accLookup_fold {α : Type} :
    ∀ (pairs : List (List Nat × α)) (m : List (List Nat × α)) (k : List Nat) (v : α),
      (k, v) ∈ pairs →
      (∀ p ∈ pairs, p.1 = k → p.2 = v) →
      accLookup (pairs.foldl (fun m q => accInsert m q.1 q.2) m) k = some v := by
  intro pairs
  induction pairs with
  | nil => intro m k v hm _; simp at hm
  | cons q rest ih =>
    intro m k v hm hsame
    rw [List.foldl_cons]
    by_cases hmem : (k, v) ∈ rest
    · exact ih _ k v hmem (fun p hp => hsame p (List.mem_cons_of_mem _ hp))
    · have hq : q = (k, v) := by
        rcases List.mem_cons.mp hm with hEq | hmem2
        · exact hEq.symm
        · exact absurd hmem2 hmem
      subst hq
      have hrest : ∀ p ∈ rest, p.1 ≠ k := by
        intro p hp hpk
        have hpv : p.2 = v := hsame p (List.mem_cons_of_mem _ hp) hpk
        have hpe : p = (k, v) := by
          obtain ⟨p1, p2⟩ := p
          simp only at hpk hpv
          rw [hpk, hpv]
        exact hmem (hpe ▸ hp)
      rw [accLookup_fold_ne rest _ k hrest]
      exact accLookup_accInsert_self _ _ _

/-- Characterization of a tracked conversion: the arena node is appended,
and the tracker gains one −1 refcount and one accessed-node record. -/
theorem convert_tracked_ok (A : Arena) (s : UpdState) (h j : Nat) (s₂ : UpdState)
    (tr : TrieChangesTracker) (htr : s.tracker = some tr)
    (hc : convert_existing_to_updated A s (some h) = .ok (j, s₂)) :
    ∃ an x, A.nodes.get? h = some an ∧ arenaInfo A (h + 1) h = .ok x ∧
      j = s.updated_nodes.length ∧
      s₂ = ⟨s.root, s.updated_nodes ++ [some (from_existing_node_view an)],
        some ⟨rcSub tr.refcount_changes x.1 1,
          ⟨accInsert tr.accesses.nodes x.1 x.2.2, tr.accesses.values⟩⟩⟩ := by
  unfold convert_existing_to_updated at hc
  dsimp only at hc
  cases hA : A.nodes.get? h with
  | none => rw [hA] at hc; exact absurd hc (by simp)
  | some an =>
    rw [hA] at hc
    rw [htr] at hc
    cases hinfo : arenaInfo A (h + 1) h with
    | error e => rw [hinfo] at hc; exact absurd hc (by simp)
    | ok x =>
      obtain ⟨nh, mm, ser⟩ := x
      rw [hinfo] at hc
      simp only [new_updated_node, Except.ok.injEq, Prod.mk.injEq] at hc
      obtain ⟨hj, hs⟩ := hc
      refine ⟨an, (nh, mm, ser), rfl, rfl, hj.symm, ?_⟩
      rw [← hs]

/-- Characterization of a fresh tracking session over an existing root:
slot 0 is the root's pristine conversion and the tracker records exactly
that conversion. -/
theorem newUpdate_some_ok (A : Arena) (r : Nat) (s₀ : UpdState)
    (h : newUpdate A (some r) true = .ok s₀) :
    ∃ an x, A.nodes.get? r = some an ∧ arenaInfo A (r + 1) r = .ok x ∧
      s₀ = ⟨some r, [some (from_existing_node_view an)], some (trackerOf [x])⟩ := by
  unfold newUpdate at h
  simp only [bind, Except.bind, if_true] at h
  cases hc : convert_existing_to_updated A
      ⟨some r, [], some ⟨[], ⟨[], []⟩⟩⟩ (some r) with
  | error e => rw [hc] at h; simp at h
  | ok pr =>
    obtain ⟨id, s⟩ := pr
    rw [hc] at h
    dsimp only at h
    obtain ⟨an, x, hA, hx, hid, hs⟩ := convert_tracked_ok A _ r id s _ rfl hc
    subst hid
    rw [if_pos (show ([] : List (Option UpdatedMemTrieNode)).length = 0 from rfl)] at h
    simp only [pure, Except.pure, Except.ok.injEq] at h
    subst h
    exact ⟨an, x, hA, hx, by rw [hs]; rfl⟩

/-- A descent at the last slot of a chain that reports the key absent
leaves a chain: every state change is a recorded conversion extending the
chain. -/
theorem deleteLoop_chain (A : Arena) :
    ∀ fuel s pk path s' node_id hs ns xs,
      Chain A hs ns xs →
      s.updated_nodes = ns →
      s.tracker = some (trackerOf xs) →
      node_id + 1 = ns.length →
      deleteLoop A fuel s node_id pk path = .ok (s', none) →
      ∃ hs2 ns2 xs2, Chain A hs2 ns2 xs2 ∧ s'.updated_nodes = ns2 ∧
        s'.tracker = some (trackerOf xs2) ∧ s'.root = s.root := by
  intro fuel
  induction fuel with
  | zero => intro s pk path s' node_id hs ns xs _ _ _ _ h; simp [deleteLoop] at h
  | succ fuel ih =>
    intro s pk path s' node_id hs ns xs hch hsn hst hnid h
    obtain ⟨r, an, x, hAr, hxr, hlastH, hlastX, hlastN⟩ := Chain_last A hs ns xs hch
    obtain ⟨ns₀, hns₀⟩ := getLast?_decomp ns _ hlastN
    obtain ⟨hs₀, hhs₀⟩ := getLast?_decomp hs _ hlastH
    have hns₀len : node_id = ns₀.length := by
      rw [hns₀] at hnid
      simp only [List.length_append, List.length_cons, List.length_nil] at hnid
      omega
    have hgetq : ns.get? node_id = some (some (from_existing_node_view an)) := by
      rw [hns₀, hns₀len]
      exact get?_append_self _ _
    unfold deleteLoop at h
    simp only [bind, Except.bind] at h
    have ht : take_node s node_id = .ok (from_existing_node_view an,
        { s with updated_nodes := s.updated_nodes.set node_id none }) := by
      unfold take_node
      rw [hsn, hgetq]
    rw [ht] at h
    dsimp only at h
    cases an with
    | leafA ext v =>
      simp only [from_existing_node_view] at h
      by_cases hmatch : (decodeNibbles ext).fst = pk
      · rw [if_pos hmatch] at h
        cases hp : place_node (subtract_refcount_for_value
            { s with updated_nodes := s.updated_nodes.set node_id none } v)
            node_id .Empty with
        | error e => rw [hp] at h; simp at h
        | ok s2 =>
          rw [hp] at h
          simp only [pure, Except.pure, Except.ok.injEq, Prod.mk.injEq] at h
          exact absurd h.2 (by simp)
      · rw [if_neg hmatch] at h
        cases hp : place_node { s with updated_nodes := s.updated_nodes.set node_id none }
            node_id (.Leaf ext v) with
        | error e => rw [hp] at h; simp at h
        | ok s2 =>
          rw [hp] at h
          simp only [pure, Except.pure, Except.ok.injEq, Prod.mk.injEq] at h
          have hs2 : s2 = s := take_place_same s node_id _ _ s2
            (by rw [ht]; rfl) hp
          rw [← h.1, hs2]
          exact ⟨hs, ns, xs, hch, hsn, hst, rfl⟩
    | branchA cs v =>
      simp only [from_existing_node_view] at h
      by_cases hempty : pk.isEmpty = true
      · rw [if_pos hempty] at h
        cases v with
        | none =>
          dsimp only at h
          cases hp : place_node { s with updated_nodes := s.updated_nodes.set node_id none }
              node_id (.Branch (cs.map (Option.map NodeOrIndex.Old)) none) with
          | error e => rw [hp] at h; simp at h
          | ok s2 =>
            rw [hp] at h
            simp only [pure, Except.pure, Except.ok.injEq, Prod.mk.injEq] at h
            have hs2 : s2 = s := take_place_same s node_id _ _ s2
              (by rw [ht]; rfl) hp
            rw [← h.1, hs2]
            exact ⟨hs, ns, xs, hch, hsn, hst, rfl⟩
        | some vv =>
          dsimp only at h
          cases hp : place_node (subtract_refcount_for_value
              { s with updated_nodes := s.updated_nodes.set node_id none } vv)
              node_id (.Branch (cs.map (Option.map NodeOrIndex.Old)) none) with
          | error e => rw [hp] at h; simp at h
          | ok s2 =>
            rw [hp] at h
            simp only [pure, Except.pure, Except.ok.injEq, Prod.mk.injEq] at h
            exact absurd h.2 (by simp)
      · rw [if_neg hempty] at h
        cases hcg : childGet (cs.map (Option.map NodeOrIndex.Old)) (pk.headD 0) with
        | error e => rw [hcg] at h; simp at h
        | ok child =>
          rw [hcg] at h
          dsimp only at h
          have hcget := childGet_ok _ _ _ hcg
          rw [List.get?_map] at hcget
          cases hcs0 : cs.get? (pk.headD 0) with
          | none => rw [hcs0] at hcget; simp at hcget
          | some c0 =>
            rw [hcs0] at hcget
            injection hcget with hcget
            cases c0 with
            | none =>
              simp only [Option.map_none'] at hcget
              subst hcget
              dsimp only at h
              cases hp : place_node
                  { s with updated_nodes := s.updated_nodes.set node_id none }
                  node_id (.Branch (cs.map (Option.map NodeOrIndex.Old)) v) with
              | error e => rw [hp] at h; simp at h
              | ok s2 =>
                rw [hp] at h
                simp only [pure, Except.pure, Except.ok.injEq, Prod.mk.injEq] at h
                have hs2 : s2 = s := take_place_same s node_id _ _ s2
                  (by rw [ht]; rfl) hp
                rw [← h.1, hs2]
                exact ⟨hs, ns, xs, hch, hsn, hst, rfl⟩
            | some r2 =>
              simp only [Option.map_some'] at hcget
              subst hcget
              dsimp only at h
              cases hen : convert_existing_to_updated A
                  { s with updated_nodes := s.updated_nodes.set node_id none }
                  (some r2) with
              | error e =>
                rw [show ensure_updated A
                  { s with updated_nodes := s.updated_nodes.set node_id none }
                  (.Old r2) = convert_existing_to_updated A
                  { s with updated_nodes := s.updated_nodes.set node_id none }
                  (some r2) from rfl, hen] at h
                simp at h
              | ok pr2 =>
                obtain ⟨ncid, s2⟩ := pr2
                rw [show ensure_updated A
                  { s with updated_nodes := s.updated_nodes.set node_id none }
                  (.Old r2) = convert_existing_to_updated A
                  { s with updated_nodes := s.updated_nodes.set node_id none }
                  (some r2) from rfl, hen] at h
                dsimp only at h
                obtain ⟨an2, x2, hA2, hx2, hncid, hs2⟩ :=
                  convert_tracked_ok A _ r2 ncid s2 _ (by rw [hst]) hen
                cases hcset : childSet (cs.map (Option.map NodeOrIndex.Old))
                    (pk.headD 0) (some (.Updated ncid)) with
                | error e => rw [hcset] at h; simp at h
                | ok new_children =>
                  rw [hcset] at h
                  dsimp only at h
                  cases hp : place_node s2 node_id (.Branch new_children v) with
                  | error e => rw [hp] at h; simp at h
                  | ok s3 =>
                    rw [hp] at h
                    obtain ⟨-, hs3⟩ := place_node_ok s2 node_id _ s3 hp
                    have hncid2 : ncid = ns.length := by
                      rw [hncid, hsn]
                      simp
                    have hchain2 : Chain A ((hs₀ ++ [r]) ++ [r2])
                        ((ns₀ ++ [some (.Branch ((cs.map (Option.map NodeOrIndex.Old)).set
                          (pk.headD 0) (some (.Updated (ns₀.length + 1)))) v)]) ++
                          [some (from_existing_node_view an2)])
                        (xs ++ [x2]) := by
                      refine Chain.stepB hs₀ ns₀ xs r cs v (pk.headD 0) r2 an2 x2 ?_
                        hcs0 hA2 hx2
                      rw [← hns₀, ← hhs₀]
                      exact hch
                    have hns3 : s3.updated_nodes =
                        ((ns₀ ++ [some (.Branch ((cs.map (Option.map NodeOrIndex.Old)).set
                          (pk.headD 0) (some (.Updated (ns₀.length + 1)))) v)]) ++
                          [some (from_existing_node_view an2)]) := by
                      rw [hs3]
                      show s2.updated_nodes.set node_id (some (.Branch new_children v)) = _
                      rw [hs2]
                      show (s.updated_nodes.set node_id none ++
                        [some (from_existing_node_view an2)]).set node_id
                          (some (.Branch new_children v)) = _
                      rw [childSet_ok _ _ _ _ hcset, hncid2, hsn, hns₀]
                      rw [set_append_left _ _ _ _ (by simp; omega), List.set_set]
                      rw [← set_append_left _ _ _ _ (by simp; omega)]
                      rw [show ((ns₀ ++ [some (from_existing_node_view
                        (.branchA cs v))]).length) = ns₀.length + 1 by simp]
                      rw [hns₀len]
                      rw [set_append_last]
                    have htr3 : s3.tracker = some (trackerOf (xs ++ [x2])) := by
                      rw [hs3]
                      show s2.tracker = _
                      rw [hs2]
                      show some _ = some (trackerOf (xs ++ [x2]))
                      unfold trackerOf
                      rw [List.foldl_append, List.foldl_append]
                      rfl
                    have hlen3 : ncid + 1 =
                        ((ns₀ ++ [some (UpdatedMemTrieNode.Branch
                          ((cs.map (Option.map NodeOrIndex.Old)).set
                          (pk.headD 0) (some (.Updated (ns₀.length + 1)))) v)]) ++
                          [some (from_existing_node_view an2)]).length := by
                      rw [hncid2, hns₀]
                      simp
                    obtain ⟨hs4, ns4, xs4, hch4, hn4, ht4, hr4⟩ :=
                      ih s3 (pk.drop 1) (path ++ [node_id]) s' ncid
                        ((hs₀ ++ [r]) ++ [r2]) _ (xs ++ [x2]) hchain2 hns3 htr3 hlen3 h
                    refine ⟨hs4, ns4, xs4, hch4, hn4, ht4, ?_⟩
                    rw [hr4, hs3]
                    show s2.root = s.root
                    rw [hs2]
    | extensionA ext c =>
      simp only [from_existing_node_view] at h
      by_cases hcp : commonPrefixLen (decodeNibbles ext).fst pk =
          (decodeNibbles ext).fst.length
      · rw [if_pos hcp] at h
        cases hen : convert_existing_to_updated A
            { s with updated_nodes := s.updated_nodes.set node_id none }
            (some c) with
        | error e =>
          rw [show ensure_updated A
            { s with updated_nodes := s.updated_nodes.set node_id none }
            (.Old c) = convert_existing_to_updated A
            { s with updated_nodes := s.updated_nodes.set node_id none }
            (some c) from rfl, hen] at h
          simp at h
        | ok pr2 =>
          obtain ⟨ncid, s2⟩ := pr2
          rw [show ensure_updated A
            { s with updated_nodes := s.updated_nodes.set node_id none }
            (.Old c) = convert_existing_to_updated A
            { s with updated_nodes := s.updated_nodes.set node_id none }
            (some c) from rfl, hen] at h
          dsimp only at h
          obtain ⟨an2, x2, hA2, hx2, hncid, hs2⟩ :=
            convert_tracked_ok A _ c ncid s2 _ (by rw [hst]) hen
          cases hp : place_node s2 node_id (.Extension ext (.Updated ncid)) with
          | error e => rw [hp] at h; simp at h
          | ok s3 =>
            rw [hp] at h
            obtain ⟨-, hs3⟩ := place_node_ok s2 node_id _ s3 hp
            have hncid2 : ncid = ns.length := by
              rw [hncid, hsn]
              simp
            have hchain2 : Chain A ((hs₀ ++ [r]) ++ [c])
                ((ns₀ ++ [some (.Extension ext (.Updated (ns₀.length + 1)))]) ++
                  [some (from_existing_node_view an2)])
                (xs ++ [x2]) := by
              refine Chain.stepE hs₀ ns₀ xs r ext c an2 x2 ?_ hA2 hx2
              rw [← hns₀, ← hhs₀]
              exact hch
            have hns3 : s3.updated_nodes =
                ((ns₀ ++ [some (.Extension ext (.Updated (ns₀.length + 1)))]) ++
                  [some (from_existing_node_view an2)]) := by
              rw [hs3]
              show s2.updated_nodes.set node_id (some (.Extension ext (.Updated ncid))) = _
              rw [hs2]
              show (s.updated_nodes.set node_id none ++
                [some (from_existing_node_view an2)]).set node_id
                  (some (.Extension ext (.Updated ncid))) = _
              rw [hncid2, hsn, hns₀]
              rw [set_append_left _ _ _ _ (by simp; omega), List.set_set]
              rw [← set_append_left _ _ _ _ (by simp; omega)]
              rw [show ((ns₀ ++ [some (from_existing_node_view
                (.extensionA ext c))]).length) = ns₀.length + 1 by simp]
              rw [hns₀len]
              rw [set_append_last]
            have htr3 : s3.tracker = some (trackerOf (xs ++ [x2])) := by
              rw [hs3]
              show s2.tracker = _
              rw [hs2]
              show some _ = some (trackerOf (xs ++ [x2]))
              unfold trackerOf
              rw [List.foldl_append, List.foldl_append]
              rfl
            have hlen3 : ncid + 1 =
                ((ns₀ ++ [some (UpdatedMemTrieNode.Extension ext
                  (.Updated (ns₀.length + 1)))]) ++
                  [some (from_existing_node_view an2)]).length := by
              rw [hncid2, hns₀]
              simp
            obtain ⟨hs4, ns4, xs4, hch4, hn4, ht4, hr4⟩ :=
              ih s3 (pk.drop ((decodeNibbles ext).fst.length)) (path ++ [node_id])
                s' ncid ((hs₀ ++ [r]) ++ [c]) _ (xs ++ [x2]) hchain2 hns3 htr3 hlen3 h
            refine ⟨hs4, ns4, xs4, hch4, hn4, ht4, ?_⟩
            rw [hr4, hs3]
            show s2.root = s.root
            rw [hs2]
      · rw [if_neg hcp] at h
        cases hp : place_node { s with updated_nodes := s.updated_nodes.set node_id none }
            node_id (.Extension ext (.Old c)) with
        | error e => rw [hp] at h; simp at h
        | ok s2 =>
          rw [hp] at h
          simp only [pure, Except.pure, Except.ok.injEq, Prod.mk.injEq] at h
          have hs2 : s2 = s := take_place_same s node_id _ _ s2
            (by rw [ht]; rfl) hp
          rw [← h.1, hs2]
          exact ⟨hs, ns, xs, hch, hsn, hst, rfl⟩

/-- The descending map over `range` is its reverse. -/
theorem range_rev_map : ∀ n : Nat,
    (List.range n).map (fun t => n - 1 - t) = (List.range n).reverse := by
  intro n
  induction n with
  | zero => rfl
  | succ n ih =>
    nth_rewrite 2 [List.range_succ]
    rw [List.range_succ_eq_map, List.map_cons, List.map_map, List.reverse_append]
    have hfe : ((fun t => n + 1 - 1 - t) ∘ Nat.succ) = (fun t => n - 1 - t) := by
      funext t
      simp only [Function.comp]
      omega
    rw [hfe, ih]
    simp

/-- Mapping a projection over the indices of a list is mapping it over the
list. -/
theorem map_range_get {α β : Type} (d : α) (gg : α → β) :
    ∀ (l : List α),
      (List.range l.length).map (fun i => gg ((l.get? i).getD d)) = l.map gg := by
  intro l
  induction l with
  | nil => rfl
  | cons a t ih =>
    rw [List.length_cons, List.range_succ_eq_map, List.map_cons, List.map_map]
    have hfe : ((fun i => gg (((a :: t).get? i).getD d)) ∘ Nat.succ) =
        (fun i => gg ((t.get? i).getD d)) := by
      funext i
      rfl
    rw [hfe, ih]
    rfl

/-- The idealized hash is injective. -/
theorem hashBytes_inj (a b : List Nat) (h : hashBytes a = hashBytes b) : a = b := by
  unfold hashBytes at h
  injection h

/-- For a chain-shaped buffer, the finalizer's internal pipeline emits the
chain's `(hash, serialized)` pairs, in reverse slot order. -/
theorem internal_chain_output (A : Arena) (hwf : wfArena A) (fuel : Nat)
    (s : UpdState) (hs : List Nat) (xs : List (List Nat × Nat × List Nat))
    (mtc : MemTrieChanges') (hser : List (List Nat × List Nat))
    (hch : Chain A hs s.updated_nodes xs)
    (hok : to_mem_trie_changes_internal A fuel s = .ok (mtc, hser)) :
    hser = ((List.range s.updated_nodes.length).reverse).map (fun id =>
      (((xs.get? id).getD (zeroHash, 0, [])).1,
       ((xs.get? id).getD (zeroHash, 0, [])).2.2)) := by
  obtain ⟨hlen1, hlen2, hlen3⟩ := Chain_lengths A hs s.updated_nodes xs hch
  unfold to_mem_trie_changes_internal at hok
  simp only [bind, Except.bind] at hok
  cases hpo : post_order_traverse_updated_nodes s fuel 0 [] with
  | error e => rw [hpo] at hok; simp at hok
  | ok ordered =>
  rw [hpo] at hok
  dsimp only at hok
  cases hchn : compute_hashes_and_serialized_nodes A s ordered with
  | error e => rw [hchn] at hok; simp at hok
  | ok out =>
  rw [hchn] at hok
  simp only [pure, Except.pure, Except.ok.injEq, Prod.mk.injEq] at hok
  obtain ⟨-, hout⟩ := hok
  have hshape := Chain_shape A hs s.updated_nodes xs hch
  have hordered := chain_post_order_inv s s.updated_nodes.length rfl hshape
    fuel 0 [] ordered (by rw [hlen1]; exact hlen3) hpo
  rw [List.nil_append, Nat.sub_zero, range_rev_map] at hordered
  have hnd : ordered.Nodup := by
    rw [hordered]
    exact List.nodup_reverse.mpr (List.nodup_range _)
  obtain ⟨xf, hxf⟩ : ∃ xf, xs.get? 0 = some xf := by
    cases hq : xs.get? 0 with
    | some xf => exact ⟨xf, rfl⟩
    | none =>
      rw [List.get?_eq_none] at hq
      omega
  obtain ⟨F0, hF0⟩ := Chain_resolve A hwf hs s.updated_nodes xs hch 0 xf hxf
  obtain ⟨hgood, h0mem⟩ :=
    post_order_good A s fuel 0 [] ordered F0 xf hpo hF0 (GoodList_nil _)
  unfold compute_hashes_and_serialized_nodes at hchn
  simp only [bind, Except.bind] at hchn
  cases hfold : ordered.foldlM (computeFoldStep A s)
      (List.replicate s.updated_nodes.length (zeroHash, 0, [])) with
  | error e => rw [hfold] at hchn; simp at hchn
  | ok res₂ =>
  rw [hfold] at hchn
  dsimp only at hchn
  cases hcol : ordered.foldlM collectStep
      (([] : List (Nat × List Nat × List Nat)), res₂) with
  | error e => rw [hcol] at hchn; simp at hchn
  | ok fin =>
  rw [hcol] at hchn
  simp only [pure, Except.pure, Except.ok.injEq] at hchn
  obtain ⟨-, F2, hF2⟩ := compute_fold_refines A s ordered [] _ res₂
    (by simpa using hgood) (by simp) ⟨0, fun id hmem => absurd hmem (by simp)⟩ hfold
  have hres_id : ∀ id ∈ ordered,
      ∃ xid, xs.get? id = some xid ∧ res₂.get? id = some xid := by
    intro id hid
    have hlt : id < s.updated_nodes.length := by
      rw [hordered, List.mem_reverse, List.mem_range] at hid
      exact hid
    obtain ⟨xid, hxid⟩ : ∃ xid, xs.get? id = some xid := by
      cases hq : xs.get? id with
      | some y => exact ⟨y, rfl⟩
      | none =>
        rw [List.get?_eq_none] at hq
        omega
    obtain ⟨F3, hF3⟩ := Chain_resolve A hwf hs s.updated_nodes xs hch id xid hxid
    obtain ⟨hh, mm, ser, hri, hresq⟩ := hF2 id (by simpa using hid)
    have hdet := refNodeInfo_det A s.updated_nodes F2 F3 id _ _ hri hF3
    exact ⟨xid, hxid, by rw [hresq, hdet]⟩
  have hfin1 := collect_fold_entries ordered [] res₂ fin hcol hnd
  rw [List.nil_append] at hfin1
  have hout2 : out = ordered.map (fun id =>
      (id, ((xs.get? id).getD (zeroHash, 0, [])).1,
        ((xs.get? id).getD (zeroHash, 0, [])).2.2)) := by
    rw [← hchn, hfin1]
    exact map_congr_mem _ _ _ (fun id hid => by
      obtain ⟨xid, hx, hr⟩ := hres_id id hid
      rw [hr, hx])
  rw [← hout, hout2, List.map_map, hordered]
  rfl

/-- C10: in a change-tracking session over an existing root, deleting an
absent key succeeds, the final update buffer is a chain of pristine
conversions of old nodes (the nodes touched by the descent), the emitted
`TrieAccesses.nodes` map records the serialized payload of every converted
old node under its hash, and every refcount delta cancels at finalization:
the emitted `TrieChanges` has no insertions and no deletions. -/
theorem delete_absent_tracks (A : Arena) (fuel fuel₂ r : Nat)
    (s₀ s' : UpdState) (k : List Nat) (tc : TrieChanges') (acc : TrieAccesses)
    (hwf : wfArena A)
    (hnew : newUpdate A (some r) true = .ok s₀)
    (hdel : deleteLoop A fuel s₀ 0 (nibblesOfBytes k) [] = .ok (s', none))
    (hfin : to_trie_changes A fuel₂ s' = .ok (tc, acc)) :
    delete A fuel s₀ k = .ok s' ∧
    (∃ hs2 xs2, Chain A hs2 s'.updated_nodes xs2 ∧
      ∀ x ∈ xs2, accLookup acc.nodes x.1 = some x.2.2) ∧
    tc.insertions = [] ∧ tc.deletions = [] := by
  obtain ⟨an0, x0, hA0, hx0, hs0eq⟩ := newUpdate_some_ok A r s₀ hnew
  have hch0 : Chain A [r] [some (from_existing_node_view an0)] [x0] :=
    Chain.base r an0 x0 hA0 hx0
  obtain ⟨hs2, ns2, xs2, hch2, hn2, ht2, hr2⟩ :=
    deleteLoop_chain A fuel s₀ (nibblesOfBytes k) [] s' 0 [r]
      [some (from_existing_node_view an0)] [x0] hch0 (by rw [hs0eq])
      (by rw [hs0eq]) rfl hdel
  have hdelete : delete A fuel s₀ k = .ok s' := by
    unfold delete
    rw [hdel]
    rfl
  have hroot' : s'.root = some r := by rw [hr2, hs0eq]
  unfold to_trie_changes at hfin
  rw [hroot'] at hfin
  dsimp only at hfin
  rw [hx0] at hfin
  simp only [Except.map, bind, Except.bind] at hfin
  rw [ht2] at hfin
  simp only [bind, Except.bind, pure, Except.pure] at hfin
  cases hint : to_mem_trie_changes_internal A fuel₂
      { root := some r, updated_nodes := s'.updated_nodes, tracker := none } with
  | error e => rw [hint] at hfin; exact absurd hfin (by simp)
  | ok p =>
  obtain ⟨mtc, hser⟩ := p
  rw [hint] at hfin
  have hchS : Chain A hs2
      ((⟨some r, s'.updated_nodes, none⟩ : UpdState).updated_nodes) xs2 := by
    show Chain A hs2 s'.updated_nodes xs2
    rw [hn2]
    exact hch2
  have hserEq0 := internal_chain_output A hwf fuel₂ _ hs2 xs2 mtc hser hchS hint
  obtain ⟨hl1, hl2, hl3⟩ := Chain_lengths A hs2 ns2 xs2 hch2
  have hserEq : hser = ((List.range xs2.length).reverse).map (fun id =>
      (((xs2.get? id).getD (zeroHash, 0, [])).1,
       ((xs2.get? id).getD (zeroHash, 0, [])).2.2)) := by
    rw [hserEq0]
    have hle : ((⟨some r, s'.updated_nodes, none⟩ : UpdState).updated_nodes).length
        = xs2.length := by
      show s'.updated_nodes.length = xs2.length
      rw [hn2]
      omega
    rw [hle]
  have hcnt : ∀ h2 : List Nat,
      (hser.map Prod.fst).count h2 = (xs2.map (fun q => q.1)).count h2 := by
    intro h2
    have h1 : hser.map Prod.fst = ((List.range xs2.length).map (fun i =>
        ((xs2.get? i).getD (zeroHash, 0, [])).1)).reverse := by
      rw [hserEq, List.map_map, List.map_reverse]
      rfl
    have h2' : (List.range xs2.length).map (fun i =>
        ((xs2.get? i).getD (zeroHash, 0, [])).1) = xs2.map (fun q => q.1) :=
      map_range_get (zeroHash, 0, []) (fun q => q.1) xs2
    rw [h1, h2', List.count_reverse]
  have hsubEq : (trackerOf xs2).refcount_changes =
      (xs2.map (fun q => q.1)).foldl (fun m h => rcSub m h 1) [] :=
    (List.foldl_map (fun q : List Nat × Nat × List Nat => q.1)
      (fun m h => rcSub m h 1) xs2 []).symm
  have hrc0 : rcIntoChanges (hser.foldl (fun rc p => rcAdd rc p.1 p.2 1)
      (trackerOf xs2).refcount_changes) = ([], []) := by
    apply rcIntoChanges_zero
    · apply rcNodup_addFold
      rw [hsubEq]
      exact rcNodup_subFold _ [] (by simp [rcKeys])
    · intro h2
      rw [rcLookup_addFold, hsubEq, rcLookup_subFold, hcnt h2]
      have hz : rcLookup ([] : RcMap) h2 = 0 := rfl
      rw [hz]
      omega
  dsimp only at hfin
  rw [hrc0] at hfin
  simp only [pure, Except.pure, Except.ok.injEq, Prod.mk.injEq] at hfin
  obtain ⟨htc, hacc⟩ := hfin
  refine ⟨hdelete, ⟨hs2, xs2, ?_, ?_⟩, ?_, ?_⟩
  · rw [hn2]
    exact hch2
  · intro x hx
    have haccn : acc.nodes = xs2.foldl (fun m q => accInsert m q.1 q.2.2) [] := by
      rw [← hacc]
      rfl
    rw [haccn]
    rw [show xs2.foldl (fun m q => accInsert m q.1 q.2.2) [] =
        (xs2.map (fun q => (q.1, q.2.2))).foldl (fun m q => accInsert m q.1 q.2) []
      from (List.foldl_map (fun q => (q.1, q.2.2))
        (fun m q => accInsert m q.1 q.2) xs2 []).symm]
    apply accLookup_fold
    · exact List.mem_map.mpr ⟨x, hx, rfl⟩
    · intro p hp hpk
      obtain ⟨y, hy, hpy⟩ := List.mem_map.mp hp
      obtain ⟨ry, hry⟩ := Chain_mem_arenaInfo A hs2 ns2 xs2 hch2 y hy
      obtain ⟨rx, hrx⟩ := Chain_mem_arenaInfo A hs2 ns2 xs2 hch2 x hx
      have hyh := arenaInfo_hash A (ry + 1) ry y hry
      have hxh := arenaInfo_hash A (rx + 1) rx x hrx
      have hy1 : y.1 = x.1 := by
        rw [← hpy] at hpk
        exact hpk
      have h22 : y.2.2 = x.2.2 :=
        hashBytes_inj _ _ (by rw [← hyh, ← hxh, hy1])
      rw [← hpy]
      exact h22
  · rw [← htc]
  · rw [← htc]

/-- Witness arena for C10: a leaf in arena slot 0 under a branch root in
arena slot 1 (the session's root handle). -/
def wArenaC10 : Arena := ⟨[.leafA [32] (.inlined [7]),
  .branchA ([some 0] ++ List.replicate 15 none) none]⟩

/-- `wArenaC10` is well-formed: children live below their parents. -/
theorem wArenaC10_wf : wfArena wArenaC10 := by
  intro h
  match h with
  | 0 => exact trivial
  | 1 => exact (by decide :
      ∀ c ∈ (([some 0] ++ List.replicate 15 none : List (Option Nat)).filterMap id),
        c < 1)
  | (n + 2) => exact trivial

/-- Serialized form of the C10 witness arena's leaf. -/
def wLeafSerC10 : List Nat := [0, 1, 32, 1, 1, 7, 103]

/-- Hash of the C10 witness arena's leaf. -/
def wLeafHashC10 : List Nat := 1 :: wLeafSerC10

/-- Serialized form of the C10 witness arena's root branch. -/
def wRootSerC10 : List Nat := 2 :: 1 :: (wLeafHashC10 ++ List.replicate 15 0 ++ [153])

/-- Hash of the C10 witness arena's root branch. -/
def wRootHashC10 : List Nat := 1 :: wRootSerC10

/-- The C10 witness session right after opening against root handle 1. -/
def wS0C10 : UpdState :=
  ⟨some 1, [some (.Branch ([some (.Old 0)] ++ List.replicate 15 none) none)],
   some ⟨[(wRootHashC10, -1, none)], ⟨[(wRootHashC10, wRootSerC10)], []⟩⟩⟩

/-- The C10 witness session after the failed descent for key `[0]`: the
root and the leaf under nibble 0 were both converted, nothing else
changed. -/
def wS1C10 : UpdState :=
  ⟨some 1,
   [some (.Branch ([some (.Updated 1)] ++ List.replicate 15 none) none),
    some (.Leaf [32] (.inlined [7]))],
   some ⟨[(wRootHashC10, -1, none), (wLeafHashC10, -1, none)],
     ⟨[(wRootHashC10, wRootSerC10), (wLeafHashC10, wLeafSerC10)], []⟩⟩⟩

/-- The `TrieChanges` emitted by the C10 witness session. -/
def wTcC10 : TrieChanges' :=
  { old_root := wRootHashC10, new_root := wRootHashC10,
    insertions := [], deletions := [],
    mem_trie_changes := some
      { node_ids_with_hashes := [(1, wLeafHashC10), (0, wRootHashC10)],
        updated_nodes := wS1C10.updated_nodes } }

/-- The `TrieAccesses` emitted by the C10 witness session. -/
def wAccC10 : TrieAccesses :=
  ⟨[(wRootHashC10, wRootSerC10), (wLeafHashC10, wLeafSerC10)], []⟩

/-- Witness for C10 at a concrete arena and absent key. -/
theorem delete_absent_tracks_witness :
    delete wArenaC10 9 wS0C10 [0] = .ok wS1C10 ∧
    (∃ hs2 xs2, Chain wArenaC10 hs2 wS1C10.updated_nodes xs2 ∧
      ∀ x ∈ xs2, accLookup wAccC10.nodes x.1 = some x.2.2) ∧
    wTcC10.insertions = [] ∧ wTcC10.deletions = [] :=
  delete_absent_tracks wArenaC10 9 9 1 wS0C10 wS1C10 [0] wTcC10 wAccC10
    wArenaC10_wf rfl rfl rfl

/-! ## Canonical form: slotwise characterization -/

/-- Kind code of an arena node: 1 leaf, 2 extension, 3 branch. -/
def kindOfA (A : Arena) (h : Nat) : Option Nat :=
  match A.nodes.get? h with
  | none => none
  | some (.leafA _ _) => some 1
  | some (.extensionA _ _) => some 2
  | some (.branchA _ _) => some 3

/-- Kind code of an updated node: 0 empty, 1 leaf, 2 extension, 3 branch. -/
def kindOfN : UpdatedMemTrieNode → Nat
  | .Empty => 0
  | .Leaf _ _ => 1
  | .Extension _ _ => 2
  | .Branch _ _ => 3

/-- Kind code of a node reference, resolved through the buffer or arena. -/
def kindOf (A : Arena) (ns : List (Option UpdatedMemTrieNode)) : NodeOrIndex → Option Nat
  | .Old h => kindOfA A h
  | .Updated j =>
    match ns.get? j with
    | some (some n) => some (kindOfN n)
    | _ => none

/-- Arena child handles of an arena node. -/
def childHandlesA : ArenaNode → List Nat
  | .leafA _ _ => []
  | .extensionA _ c => [c]
  | .branchA cs _ => cs.filterMap id

/-- Local canonical form of an arena node: an extension's child is a branch,
a branch's children exist and are at least two or accompany a value. -/
def localCanonA (A : Arena) (h : Nat) : Bool :=
  match A.nodes.get? h with
  | none => false
  | some (.leafA _ _) => true
  | some (.extensionA _ c) => kindOfA A c == some 3
  | some (.branchA cs v) =>
    let n := (cs.filterMap id).length
    (!(n == 0 && v.isNone)) && (!(n == 1 && v.isNone)) &&
    (cs.filterMap id).all (fun c => (kindOfA A c).isSome)

/-- Branch child-count constraints of canonical form. -/
def countsOk (cs : List (Option NodeOrIndex)) (v : Option FlatStateValue) : Bool :=
  let n := (cs.filterMap id).length
  (!(n == 0 && v.isNone)) && (!(n == 1 && v.isNone))

/-- Whether a reference is the exempt one. -/
def isExempt (e : Option Nat) (c : NodeOrIndex) : Bool :=
  match e, c with
  | some p, .Updated j => j == p
  | _, _ => false

/-- A kind code names a present, non-empty node. -/
def kOkB : Option Nat → Bool
  | some (m + 1) => true
  | _ => false

/-- A branch child reference is acceptable: exempt, or resolving to a
non-empty node. -/
def childOk (A : Arena) (ns : List (Option UpdatedMemTrieNode)) (e : Option Nat)
    (c : NodeOrIndex) : Bool :=
  isExempt e c || kOkB (kindOf A ns c)

/-- An extension child reference is acceptable: exempt, or resolving to a
branch. -/
def extChildOk (A : Arena) (ns : List (Option UpdatedMemTrieNode)) (e : Option Nat)
    (c : NodeOrIndex) : Bool :=
  isExempt e c || kindOf A ns c == some 3

/-- Local canonical form of one buffer slot, with the references to the slot
named by `e` exempt from the child-kind requirements. Missing slots and
holes are vacuously fine. -/
def localCanon (A : Arena) (ns : List (Option UpdatedMemTrieNode)) (e : Option Nat)
    (i : Nat) : Bool :=
  match ns.get? i with
  | none => true
  | some none => true
  | some (some .Empty) => true
  | some (some (.Leaf _ _)) => true
  | some (some (.Extension _ c)) => extChildOk A ns e c
  | some (some (.Branch cs v)) =>
    countsOk cs v && (cs.filterMap id).all (childOk A ns e)

/-- Updated-slot references of one buffer entry. -/
def updRefs : Option UpdatedMemTrieNode → List Nat
  | some (.Extension _ (.Updated j)) => [j]
  | some (.Branch cs _) =>
    cs.filterMap (fun c => match c with | some (.Updated j) => some j | _ => none)
  | _ => []

/-- Number of buffer references to slot `t`. -/
def nrefs (ns : List (Option UpdatedMemTrieNode)) (t : Nat) : Nat :=
  ns.foldr (fun en acc => (updRefs en).count t + acc) 0

/-- The reference discipline the mutators preserve: every slot has at most
one referrer, the root slot has none, references stay in bounds. -/
def refsOk (ns : List (Option UpdatedMemTrieNode)) : Prop :=
  (∀ t, nrefs ns t ≤ 1) ∧ nrefs ns 0 = 0 ∧ (∀ t, ns.length ≤ t → nrefs ns t = 0)

/-- Old-arena references of an updated node. -/
def oldRefs : UpdatedMemTrieNode → List Nat
  | .Extension _ (.Old h) => [h]
  | .Branch cs _ =>
    cs.filterMap (fun c => match c with | some (.Old h) => some h | _ => none)
  | _ => []

/-- Every old-arena reference of the buffer lies in the handle set `R`. -/
def oldRefsIn (ns : List (Option UpdatedMemTrieNode)) (R : Nat → Prop) : Prop :=
  ∀ i nd, ns.get? i = some (some nd) → ∀ h ∈ oldRefs nd, R h

/-- The node kind left at the insertion slot by `insert_impl`, as a function
of the node found there and the remaining partial key. -/
def kindAfterIns (n : UpdatedMemTrieNode) (pk : List Nat) : Nat :=
  match n with
  | .Empty => 1
  | .Leaf extension _ =>
    let ek := (decodeNibbles extension).fst
    let cp := commonPrefixLen pk ek
    if cp = ek.length ∧ cp = pk.length then 1 else if cp = 0 then 3 else 2
  | .Branch _ _ => 3
  | .Extension extension _ =>
    let ek := (decodeNibbles extension).fst
    let cp := commonPrefixLen pk ek
    if cp = 0 then 3 else 2

/-! ## Canonical-form bookkeeping lemmas -/

/-- `nrefs` of the empty buffer. -/
theorem nrefs_nil (t : Nat) : nrefs [] t = 0 := rfl

/-- `nrefs` unfolds over a cons. -/
theorem nrefs_cons (en : Option UpdatedMemTrieNode)
    (ns : List (Option UpdatedMemTrieNode)) (t : Nat) :
    nrefs (en :: ns) t = (updRefs en).count t + nrefs ns t := rfl

/-- `nrefs` after appending one entry. -/
theorem nrefs_append (ns : List (Option UpdatedMemTrieNode))
    (x : Option UpdatedMemTrieNode) (t : Nat) :
    nrefs (ns ++ [x]) t = nrefs ns t + (updRefs x).count t := by
  induction ns with
  | nil => simp [nrefs]
  | cons a rest ih =>
    rw [List.cons_append, nrefs_cons, nrefs_cons, ih]
    omega

/-- `nrefs` after overwriting one entry. -/
theorem nrefs_set :
    ∀ (ns : List (Option UpdatedMemTrieNode)) (q : Nat)
      (en x : Option UpdatedMemTrieNode) (t : Nat),
      ns.get? q = some en →
      nrefs (ns.set q x) t + (updRefs en).count t =
        nrefs ns t + (updRefs x).count t := by
  intro ns
  induction ns with
  | nil => intro q en x t h; simp at h
  | cons a rest ih =>
    intro q en x t h
    cases q with
    | zero =>
      simp only [List.get?] at h
      injection h with h
      subst h
      rw [List.set_cons_zero, nrefs_cons, nrefs_cons]
      omega
    | succ q =>
      simp only [List.get?] at h
      rw [List.set_cons_succ, nrefs_cons, nrefs_cons]
      have := ih q en x t h
      omega

/-- One entry's references are part of the buffer total. -/
theorem nrefs_entry_le :
    ∀ (ns : List (Option UpdatedMemTrieNode)) (i : Nat)
      (en : Option UpdatedMemTrieNode) (t : Nat),
      ns.get? i = some en → (updRefs en).count t ≤ nrefs ns t := by
  intro ns
  induction ns with
  | nil => intro i en t h; simp at h
  | cons a rest ih =>
    intro i en t h
    cases i with
    | zero =>
      simp only [List.get?] at h
      injection h with h
      subst h
      rw [nrefs_cons]
      omega
    | succ i =>
      simp only [List.get?] at h
      rw [nrefs_cons]
      have := ih i en t h
      omega

/-- Membership in a branch entry's references. -/
theorem mem_updRefs_branch (cs : List (Option NodeOrIndex))
    (v : Option FlatStateValue) (j : Nat) :
    j ∈ updRefs (some (.Branch cs v)) ↔ some (.Updated j) ∈ cs := by
  show j ∈ cs.filterMap _ ↔ _
  rw [List.mem_filterMap]
  constructor
  · rintro ⟨a, ha, hfa⟩
    cases a with
    | none => simp at hfa
    | some c =>
      cases c with
      | Old h2 => simp at hfa
      | Updated j2 =>
        simp only [Option.some.injEq] at hfa
        subst hfa
        exact ha
  · intro h
    exact ⟨some (.Updated j), h, rfl⟩

/-- Membership in an extension entry's references. -/
theorem mem_updRefs_ext (e : List Nat) (c : NodeOrIndex) (j : Nat) :
    j ∈ updRefs (some (.Extension e c)) ↔ c = .Updated j := by
  cases c with
  | Old h2 =>
    show j ∈ ([] : List Nat) ↔ _
    simp
  | Updated j2 =>
    show j ∈ [j2] ↔ _
    simp [eq_comm]

/-- The exempt test characterized. -/
theorem isExempt_iff (p : Nat) (c : NodeOrIndex) :
    isExempt (some p) c = true ↔ c = .Updated p := by
  cases c with
  | Old h2 => simp [isExempt]
  | Updated j => simp [isExempt]

/-- No reference is exempt from `none`. -/
theorem isExempt_none (c : NodeOrIndex) : isExempt none c = false := by
  cases c <;> rfl

/-- The kind test characterized. -/
theorem kOkB_iff (k : Option Nat) : kOkB k = true ↔ ∃ m, 0 < m ∧ k = some m := by
  match k with
  | none => simp [kOkB]
  | some 0 => simp [kOkB]
  | some (m + 1) =>
    simp only [kOkB]
    constructor
    · intro h
      exact ⟨m + 1, by omega, rfl⟩
    · intro h
      trivial

/-- Kind evolution that preserves acceptability: branches stay branches,
present non-empty nodes stay present non-empty. -/
def kindsLe (k k2 : Option Nat) : Prop :=
  (k = some 3 → k2 = some 3) ∧
  (∀ m, k = some m → 0 < m → ∃ m2, 0 < m2 ∧ k2 = some m2)

/-- `kindsLe` is reflexive. -/
theorem kindsLe_refl (k : Option Nat) : kindsLe k k :=
  ⟨fun h => h, fun m h hm => ⟨m, hm, h⟩⟩

/-- Kinds of `Old` references never change. -/
theorem kindOf_old (A : Arena) (ns : List (Option UpdatedMemTrieNode)) (h : Nat) :
    kindOf A ns (.Old h) = kindOfA A h := rfl

/-- Kind of a reference untouched by an overwrite. -/
theorem kindOf_set_ne (A : Arena) (ns : List (Option UpdatedMemTrieNode))
    (q : Nat) (x : Option UpdatedMemTrieNode) (j : Nat) (hne : j ≠ q) :
    kindOf A (ns.set q x) (.Updated j) = kindOf A ns (.Updated j) := by
  unfold kindOf
  dsimp only
  rw [get?_set_ne _ _ _ _ hne]

/-- Kind of an in-bounds reference after appending. -/
theorem kindOf_append (A : Arena) (ns xs : List (Option UpdatedMemTrieNode))
    (j : Nat) (hlt : j < ns.length) :
    kindOf A (ns ++ xs) (.Updated j) = kindOf A ns (.Updated j) := by
  unfold kindOf
  dsimp only
  rw [List.get?_append hlt]

/-- Kind of the overwritten slot. -/
theorem kindOf_set_self (A : Arena) (ns : List (Option UpdatedMemTrieNode))
    (q : Nat) (n : UpdatedMemTrieNode) (hlt : q < ns.length) :
    kindOf A (ns.set q (some n)) (.Updated q) = some (kindOfN n) := by
  unfold kindOf
  dsimp only
  rw [get?_set_self _ _ _ hlt]

/-- Local canonical form transfers to a buffer with the same entry and
compatible kinds at the non-exempt references. -/
theorem localCanon_compat (A : Arena) (ns ns2 : List (Option UpdatedMemTrieNode))
    (e : Option Nat) (i : Nat)
    (hsame : ns2.get? i = ns.get? i)
    (hck : ∀ c, isExempt e c = false → kindsLe (kindOf A ns c) (kindOf A ns2 c))
    (h : localCanon A ns e i = true) : localCanon A ns2 e i = true := by
  unfold localCanon at h ⊢
  rw [hsame]
  cases hgi : ns.get? i with
  | none => trivial
  | some en =>
    rw [hgi] at h
    cases en with
    | none => trivial
    | some n =>
      cases n with
      | Empty => trivial
      | Leaf ex v => trivial
      | Extension ex c =>
        dsimp only at h ⊢
        unfold extChildOk at h ⊢
        cases hex : isExempt e c with
        | true => rw [Bool.true_or]
        | false =>
          rw [hex, Bool.false_or] at h
          rw [Bool.false_or]
          rw [beq_iff_eq] at h ⊢
          exact (hck c hex).1 h
      | Branch cs v =>
        dsimp only at h ⊢
        simp only [Bool.and_eq_true] at h ⊢
        obtain ⟨hc1, hc2⟩ := h
        refine ⟨hc1, ?_⟩
        rw [List.all_eq_true] at hc2 ⊢
        intro c hcmem
        have hcc := hc2 c hcmem
        unfold childOk at hcc ⊢
        cases hex : isExempt e c with
        | true => rw [Bool.true_or]
        | false =>
          rw [hex, Bool.false_or] at hcc
          rw [Bool.false_or]
          obtain ⟨m, hm, hk⟩ := (kOkB_iff _).mp hcc
          obtain ⟨m2, hm2, hk2⟩ := (hck c hex).2 m hk hm
          exact (kOkB_iff _).mpr ⟨m2, hm2, hk2⟩

/-- Plain local canonical form implies any exempt variant. -/
theorem localCanon_weaken (A : Arena) (ns : List (Option UpdatedMemTrieNode))
    (e : Option Nat) (i : Nat)
    (h : localCanon A ns none i = true) : localCanon A ns e i = true := by
  unfold localCanon at h ⊢
  cases hgi : ns.get? i with
  | none => trivial
  | some en =>
    rw [hgi] at h
    cases en with
    | none => trivial
    | some n =>
      cases n with
      | Empty => trivial
      | Leaf ex v => trivial
      | Extension ex c =>
        dsimp only at h ⊢
        unfold extChildOk at h ⊢
        rw [isExempt_none, Bool.false_or] at h
        rw [h, Bool.or_true]
      | Branch cs v =>
        dsimp only at h ⊢
        simp only [Bool.and_eq_true] at h ⊢
        obtain ⟨hc1, hc2⟩ := h
        refine ⟨hc1, ?_⟩
        rw [List.all_eq_true] at hc2 ⊢
        intro c hcmem
        have hcc := hc2 c hcmem
        unfold childOk at hcc ⊢
        rw [isExempt_none, Bool.false_or] at hcc
        rw [hcc, Bool.or_true]

/-- A slot that does not reference the exempt slot is plainly canonical. -/
theorem localCanon_noref (A : Arena) (ns : List (Option UpdatedMemTrieNode))
    (p i : Nat) (en : Option UpdatedMemTrieNode)
    (hgi : ns.get? i = some en)
    (hcnt : (updRefs en).count p = 0)
    (h : localCanon A ns (some p) i = true) : localCanon A ns none i = true := by
  rw [List.count_eq_zero] at hcnt
  unfold localCanon at h ⊢
  rw [hgi] at h ⊢
  cases en with
  | none => trivial
  | some n =>
    cases n with
    | Empty => trivial
    | Leaf ex v => trivial
    | Extension ex c =>
      dsimp only at h ⊢
      unfold extChildOk at h ⊢
      rw [isExempt_none, Bool.false_or]
      cases hex : isExempt (some p) c with
      | false =>
        rw [hex, Bool.false_or] at h
        exact h
      | true =>
        have hc := (isExempt_iff p c).mp hex
        subst hc
        exact absurd ((mem_updRefs_ext ex _ p).mpr rfl) hcnt
    | Branch cs v =>
      dsimp only at h ⊢
      simp only [Bool.and_eq_true] at h ⊢
      obtain ⟨hc1, hc2⟩ := h
      refine ⟨hc1, ?_⟩
      rw [List.all_eq_true] at hc2 ⊢
      intro c hcmem
      have hcc := hc2 c hcmem
      unfold childOk at hcc ⊢
      rw [isExempt_none, Bool.false_or]
      cases hex : isExempt (some p) c with
      | false =>
        rw [hex, Bool.false_or] at hcc
        exact hcc
      | true =>
        have hc := (isExempt_iff p c).mp hex
        subst hc
        rw [List.mem_filterMap] at hcmem
        obtain ⟨a, ha, hfa⟩ := hcmem
        have hmem : some (NodeOrIndex.Updated p) ∈ cs := by
          cases a with
          | none => exact Option.noConfusion hfa
          | some c2 =>
            injection hfa with h2
            subst h2
            exact ha
        exact absurd ((mem_updRefs_branch cs v p).mpr hmem) hcnt

/-- A set of slots whose incoming references all come from the set itself:
the descent below a slot outside the set can never modify them. -/
def protClosed (ns : List (Option UpdatedMemTrieNode)) (prot : List Nat) : Prop :=
  ∀ t ∈ prot, ∀ i en, ns.get? i = some en → t ∈ updRefs en → i ∈ prot

/-- Two distinct entries together contribute at most the buffer total. -/
theorem nrefs_two_entries :
    ∀ (ns : List (Option UpdatedMemTrieNode)) (i j : Nat)
      (en1 en2 : Option UpdatedMemTrieNode) (t : Nat), i ≠ j →
      ns.get? i = some en1 → ns.get? j = some en2 →
      (updRefs en1).count t + (updRefs en2).count t ≤ nrefs ns t := by
  intro ns
  induction ns with
  | nil => intro i j en1 en2 t hne h1 h2; simp at h1
  | cons a rest ih =>
    intro i j en1 en2 t hne h1 h2
    cases i with
    | zero =>
      simp only [List.get?] at h1
      injection h1 with h1
      subst h1
      cases j with
      | zero => exact absurd rfl hne
      | succ j =>
        simp only [List.get?] at h2
        rw [nrefs_cons]
        have := nrefs_entry_le rest j en2 t h2
        omega
    | succ i =>
      simp only [List.get?] at h1
      cases j with
      | zero =>
        simp only [List.get?] at h2
        injection h2 with h2
        subst h2
        rw [nrefs_cons]
        have := nrefs_entry_le rest i en1 t h1
        omega
      | succ j =>
        simp only [List.get?] at h2
        rw [nrefs_cons]
        have := ih i j en1 en2 t (fun hx => hne (by rw [hx])) h1 h2
        omega

/-- A pristine conversion has no buffer references. -/
theorem updRefs_pristine (an : ArenaNode) :
    updRefs (some (from_existing_node_view an)) = [] := by
  cases an with
  | leafA e v => rfl
  | extensionA e c => rfl
  | branchA cs v =>
    show (cs.map (Option.map NodeOrIndex.Old)).filterMap _ = []
    rw [List.filterMap_map, List.filterMap_eq_nil]
    intro a _
    cases a with
    | none => rfl
    | some h2 => rfl

/-- The mapped children of a pristine branch. -/
theorem filterMap_id_map_old (cs : List (Option Nat)) :
    (cs.map (Option.map NodeOrIndex.Old)).filterMap id =
      (cs.filterMap id).map NodeOrIndex.Old := by
  induction cs with
  | nil => rfl
  | cons a rest ih =>
    cases a with
    | none => simpa [List.filterMap_cons] using ih
    | some h2 => simpa [List.filterMap_cons] using ih

/-- A pristine conversion's arena references are the source node's child
handles. -/
theorem oldRefs_pristine (an : ArenaNode) :
    oldRefs (from_existing_node_view an) = childHandlesA an := by
  cases an with
  | leafA e v => rfl
  | extensionA e c => rfl
  | branchA cs v =>
    show (cs.map (Option.map NodeOrIndex.Old)).filterMap _ = cs.filterMap id
    rw [List.filterMap_map]
    induction cs with
    | nil => rfl
    | cons a rest ih =>
      cases a with
      | none => simpa [List.filterMap_cons] using ih
      | some h2 => simpa [List.filterMap_cons] using ih

/-- The kind of an arena handle through its pristine conversion. -/
theorem kindOfA_view (A : Arena) (h2 : Nat) (an : ArenaNode)
    (hg : A.nodes.get? h2 = some an) :
    kindOfA A h2 = some (kindOfN (from_existing_node_view an)) := by
  unfold kindOfA
  rw [hg]
  cases an <;> rfl

/-- Arena kinds are positive. -/
theorem kindOfA_pos (A : Arena) (h2 k : Nat) (h : kindOfA A h2 = some k) : 0 < k := by
  unfold kindOfA at h
  cases hg : A.nodes.get? h2 with
  | none => rw [hg] at h; exact absurd h (by simp)
  | some an =>
    rw [hg] at h
    cases an with
    | leafA e v => injection h with h; omega
    | extensionA e c => injection h with h; omega
    | branchA cs v => injection h with h; omega

/-- A slot holding a pristine conversion of a locally canonical arena node
is locally canonical. -/
theorem localCanon_pristine (A : Arena) (ns : List (Option UpdatedMemTrieNode))
    (q h2 : Nat) (an : ArenaNode)
    (hq : ns.get? q = some (some (from_existing_node_view an)))
    (hg : A.nodes.get? h2 = some an) (hA : localCanonA A h2 = true) :
    localCanon A ns none q = true := by
  unfold localCanonA at hA
  rw [hg] at hA
  unfold localCanon
  rw [hq]
  cases an with
  | leafA e v => trivial
  | extensionA e c =>
    show extChildOk A ns none (.Old c) = true
    unfold extChildOk
    rw [isExempt_none, Bool.false_or]
    exact hA
  | branchA cs v =>
    show (countsOk (cs.map (Option.map NodeOrIndex.Old)) v &&
      ((cs.map (Option.map NodeOrIndex.Old)).filterMap id).all
        (childOk A ns none)) = true
    dsimp only at hA
    simp only [Bool.and_eq_true] at hA ⊢
    obtain ⟨⟨hA1, hA2⟩, hA3⟩ := hA
    constructor
    · unfold countsOk
      rw [filterMap_id_map_old, List.length_map]
      simp only [Bool.and_eq_true]
      exact ⟨hA1, hA2⟩
    · rw [List.all_eq_true]
      intro c hc
      rw [filterMap_id_map_old, List.mem_map] at hc
      obtain ⟨h3, hh3, rfl⟩ := hc
      unfold childOk
      rw [isExempt_none, Bool.false_or, kindOf_old]
      rw [List.all_eq_true] at hA3
      have := hA3 h3 hh3
      rw [Option.isSome_iff_exists] at this
      obtain ⟨k, hk⟩ := this
      exact (kOkB_iff _).mpr ⟨k, kindOfA_pos A h3 k hk, hk⟩

/-- Buffer effect of a successful `ensure_updated`: either the reference was
already a slot, or a pristine conversion was appended. -/
theorem ensure_updated_buf (A : Arena) (s : UpdState) (c : NodeOrIndex)
    (j : Nat) (s1 : UpdState) (h : ensure_updated A s c = .ok (j, s1)) :
    (c = .Updated j ∧ s1.updated_nodes = s.updated_nodes ∧ s1.root = s.root) ∨
    (∃ h2 an, c = .Old h2 ∧ A.nodes.get? h2 = some an ∧
      j = s.updated_nodes.length ∧
      s1.updated_nodes = s.updated_nodes ++ [some (from_existing_node_view an)] ∧
      s1.root = s.root) := by
  cases c with
  | Updated j2 =>
    unfold ensure_updated at h
    simp only [Except.ok.injEq, Prod.mk.injEq] at h
    obtain ⟨h1, h2⟩ := h
    subst h1
    exact Or.inl ⟨rfl, by rw [h2], by rw [h2]⟩
  | Old h2 =>
    unfold ensure_updated convert_existing_to_updated at h
    dsimp only at h
    cases hg : A.nodes.get? h2 with
    | none => rw [hg] at h; exact absurd h (by simp)
    | some an =>
      rw [hg] at h
      cases htr : s.tracker with
      | none =>
        rw [htr] at h
        injection h with hp
        unfold new_updated_node at hp
        injection hp with hj hs
        exact Or.inr ⟨h2, an, rfl, hg, hj.symm, by rw [← hs], by rw [← hs]⟩
      | some tr =>
        rw [htr] at h
        cases hai : arenaInfo A (h2 + 1) h2 with
        | error e => rw [hai] at h; exact absurd h (by simp)
        | ok info =>
          obtain ⟨ih1, ih2, ih3⟩ := info
          rw [hai] at h
          injection h with hp
          unfold new_updated_node at hp
          injection hp with hj hs
          exact Or.inr ⟨h2, an, rfl, hg, hj.symm, by rw [← hs], by rw [← hs]⟩

/-- Value-refcount subtraction does not touch the buffer. -/
theorem subtract_refcount_buf (s : UpdState) (v : FlatStateValue) :
    (subtract_refcount_for_value s v).updated_nodes = s.updated_nodes ∧
    (subtract_refcount_for_value s v).root = s.root := by
  unfold subtract_refcount_for_value
  cases s.tracker with
  | none => exact ⟨rfl, rfl⟩
  | some tr => exact ⟨rfl, rfl⟩

/-- Value-refcount addition does not touch the buffer. -/
theorem add_refcount_buf (s : UpdState) (h2 : List Nat) (v : Option (List Nat))
    (s1 : UpdState) (h : add_refcount_to_value s h2 v = .ok s1) :
    s1.updated_nodes = s.updated_nodes ∧ s1.root = s.root := by
  unfold add_refcount_to_value at h
  cases htr : s.tracker with
  | none =>
    rw [htr] at h
    simp only [Except.ok.injEq] at h
    rw [← h]
    exact ⟨rfl, rfl⟩
  | some tr =>
    rw [htr] at h
    cases v with
    | none => exact absurd h (by simp)
    | some vv =>
      simp only [Except.ok.injEq] at h
      rw [← h]
      exact ⟨rfl, rfl⟩

/-- Precondition on the node at the insertion slot: a leaf, an empty slot,
an extension over a branch, or a branch whose children resolve and whose
counts are either canonical or a lone child off the key's next nibble. -/
def Pnode (A : Arena) (ns : List (Option UpdatedMemTrieNode))
    (n : UpdatedMemTrieNode) (pk : List Nat) : Prop :=
  match n with
  | .Empty => True
  | .Leaf _ _ => True
  | .Extension _ c => kindOf A ns c = some 3
  | .Branch cs v =>
    (∀ c ∈ cs.filterMap id, kOkB (kindOf A ns c) = true) ∧
    (countsOk cs v = true ∨
      (v = none ∧ ∃ jx, (cs.filterMap id).length = 1 ∧
        (∀ k c2, cs.get? k = some (some c2) → k = jx) ∧ pk.headD 16 ≠ jx))

/-- Count of a `filterMap` over a cons. -/
theorem count_filterMap_cons {α : Type} (f : α → Option Nat) (a : α) (l : List α)
    (t : Nat) :
    ((a :: l).filterMap f).count t =
      (f a).toList.count t + (l.filterMap f).count t := by
  rw [List.filterMap_cons]
  cases hfa : f a with
  | none => simp
  | some b => simp [List.count_cons]; omega

/-- Count of a `filterMap` after overwriting one entry. -/
theorem count_filterMap_set {α : Type} (f : α → Option Nat) :
    ∀ (cs : List α) (idx : Nat) (x y : α) (t : Nat), cs.get? idx = some y →
      ((cs.set idx x).filterMap f).count t + (f y).toList.count t =
        (cs.filterMap f).count t + (f x).toList.count t := by
  intro cs
  induction cs with
  | nil => intro idx x y t h; simp at h
  | cons a rest ih =>
    intro idx x y t h
    cases idx with
    | zero =>
      simp only [List.get?] at h
      injection h with h
      subst h
      rw [List.set_cons_zero, count_filterMap_cons, count_filterMap_cons]
      omega
    | succ idx =>
      simp only [List.get?] at h
      rw [List.set_cons_succ, count_filterMap_cons, count_filterMap_cons]
      have := ih idx x y t h
      omega

/-- Length of `filterMap id` after filling an absent child. -/
theorem filterMap_len_set_none {α : Type} :
    ∀ (cs : List (Option α)) (idx : Nat) (x : α), cs.get? idx = some none →
      ((cs.set idx (some x)).filterMap id).length = (cs.filterMap id).length + 1 := by
  intro cs
  induction cs with
  | nil => intro idx x h; simp at h
  | cons a rest ih =>
    intro idx x h
    cases idx with
    | zero =>
      simp only [List.get?] at h
      injection h with h
      subst h
      rw [List.set_cons_zero]
      simp [List.filterMap_cons]
    | succ idx =>
      simp only [List.get?] at h
      rw [List.set_cons_succ]
      cases a with
      | none => simp only [List.filterMap_cons]; exact ih idx x h
      | some b =>
        simp only [List.filterMap_cons, id, List.length_cons]
        rw [ih idx x h]

/-- Length of `filterMap id` after replacing a present child. -/
theorem filterMap_len_set_some {α : Type} :
    ∀ (cs : List (Option α)) (idx : Nat) (x y : α), cs.get? idx = some (some y) →
      ((cs.set idx (some x)).filterMap id).length = (cs.filterMap id).length := by
  intro cs
  induction cs with
  | nil => intro idx x y h; simp at h
  | cons a rest ih =>
    intro idx x y h
    cases idx with
    | zero =>
      simp only [List.get?] at h
      injection h with h
      subst h
      rw [List.set_cons_zero]
      simp [List.filterMap_cons]
    | succ idx =>
      simp only [List.get?] at h
      rw [List.set_cons_succ]
      cases a with
      | none => simp only [List.filterMap_cons]; exact ih idx x y h
      | some b =>
        simp only [List.filterMap_cons, id, List.length_cons]
        rw [ih idx x y h]

/-- Membership in `filterMap id` after overwriting a child. -/
theorem mem_filterMap_set {α : Type} :
    ∀ (cs : List (Option α)) (idx : Nat) (x c : α),
      c ∈ (cs.set idx (some x)).filterMap id → c = x ∨ c ∈ cs.filterMap id := by
  intro cs
  induction cs with
  | nil => intro idx x c h; simp at h
  | cons a rest ih =>
    intro idx x c h
    cases idx with
    | zero =>
      rw [List.set_cons_zero] at h
      simp only [List.filterMap_cons] at h ⊢
      rcases List.mem_cons.mp h with hEq | hmem
      · exact Or.inl hEq
      · cases a with
        | none => exact Or.inr hmem
        | some b => exact Or.inr (List.mem_cons_of_mem _ hmem)
    | succ idx =>
      rw [List.set_cons_succ] at h
      cases a with
      | none =>
        simp only [List.filterMap_cons] at h ⊢
        exact ih idx x c h
      | some b =>
        simp only [List.filterMap_cons] at h ⊢
        rcases List.mem_cons.mp h with hEq | hmem
        · exact Or.inr (List.mem_cons.mpr (Or.inl hEq))
        · rcases ih idx x c hmem with h1 | h1
          · exact Or.inl h1
          · exact Or.inr (List.mem_cons_of_mem _ h1)

/-- `nrefs` distributes over append. -/
theorem nrefs_append_list (l l2 : List (Option UpdatedMemTrieNode)) (t : Nat) :
    nrefs (l ++ l2) t = nrefs l t + nrefs l2 t := by
  induction l with
  | nil => simp [nrefs_nil, nrefs]
  | cons a rest ih =>
    rw [List.cons_append, nrefs_cons, nrefs_cons, ih]
    omega

/-- `kindsLe` out of an unresolved kind. -/
theorem kindsLe_none (k : Option Nat) : kindsLe none k :=
  ⟨fun h => Option.noConfusion h, fun m h => Option.noConfusion h⟩

/-- Reading an untouched slot through a take-append-place step. -/
theorem stepC_get_lt (ns : List (Option UpdatedMemTrieNode)) (node_id : Nat)
    (apps : List (Option UpdatedMemTrieNode)) (en : Option UpdatedMemTrieNode)
    (i : Nat) (hi : i ≠ node_id) (hlt : i < ns.length) :
    (((ns.set node_id none) ++ apps).set node_id en).get? i = ns.get? i := by
  rw [get?_set_ne _ _ _ _ hi]
  rw [List.get?_append (by rw [List.length_set]; exact hlt)]
  rw [get?_set_ne _ _ _ _ hi]

/-- Reading the re-placed slot through a take-append-place step. -/
theorem stepC_get_self (ns : List (Option UpdatedMemTrieNode)) (node_id : Nat)
    (apps : List (Option UpdatedMemTrieNode)) (en : Option UpdatedMemTrieNode)
    (hlt : node_id < ns.length) :
    (((ns.set node_id none) ++ apps).set node_id en).get? node_id = some en := by
  apply get?_set_self
  rw [List.length_append, List.length_set]
  omega

/-- Reading an appended slot through a take-append-place step. -/
theorem stepC_get_app (ns : List (Option UpdatedMemTrieNode)) (node_id : Nat)
    (apps : List (Option UpdatedMemTrieNode)) (en : Option UpdatedMemTrieNode)
    (k : Nat) (hlt : node_id < ns.length) :
    (((ns.set node_id none) ++ apps).set node_id en).get? (ns.length + k) =
      apps.get? k := by
  rw [get?_set_ne _ _ _ _ (by omega)]
  rw [List.get?_append_right (by rw [List.length_set]; omega)]
  rw [List.length_set]
  congr 1
  omega

/-- Length through a take-append-place step. -/
theorem stepC_len (ns : List (Option UpdatedMemTrieNode)) (node_id : Nat)
    (apps : List (Option UpdatedMemTrieNode)) (en : Option UpdatedMemTrieNode) :
    (((ns.set node_id none) ++ apps).set node_id en).length =
      ns.length + apps.length := by
  rw [List.length_set, List.length_append, List.length_set]

/-- Reference counts through a take-append-place step. -/
theorem stepC_nrefs (ns : List (Option UpdatedMemTrieNode)) (node_id : Nat)
    (apps : List (Option UpdatedMemTrieNode)) (n : UpdatedMemTrieNode)
    (en : Option UpdatedMemTrieNode) (t : Nat)
    (hn : ns.get? node_id = some (some n)) :
    nrefs (((ns.set node_id none) ++ apps).set node_id en) t +
        (updRefs (some n)).count t =
      nrefs ns t + nrefs apps t + (updRefs en).count t := by
  have hlt : node_id < ns.length := get?_some_lt _ _ _ hn
  have h1 := nrefs_set ns node_id (some n) none t hn
  have h2 := nrefs_append_list (ns.set node_id none) apps t
  have hmid : (ns.set node_id none ++ apps).get? node_id = some none :=
    get?_append_of_some _ _ _ _ (get?_set_self _ _ _ hlt)
  have h3 := nrefs_set (ns.set node_id none ++ apps) node_id none en t hmid
  have hz : (updRefs (none : Option UpdatedMemTrieNode)).count t = 0 := rfl
  omega

/-- Kinds of references other than the stepped slot survive a
take-append-place step. -/
theorem stepC_kindsLe (A : Arena) (ns : List (Option UpdatedMemTrieNode))
    (node_id : Nat) (apps : List (Option UpdatedMemTrieNode))
    (en : Option UpdatedMemTrieNode) (c : NodeOrIndex)
    (hc : c ≠ .Updated node_id) :
    kindsLe (kindOf A ns c) (kindOf A (((ns.set node_id none) ++ apps).set node_id en) c) := by
  cases c with
  | Old h2 => exact kindsLe_refl _
  | Updated j =>
    have hne : j ≠ node_id := fun hx => hc (by rw [hx])
    by_cases hlt : j < ns.length
    · have : kindOf A (((ns.set node_id none) ++ apps).set node_id en) (.Updated j) =
          kindOf A ns (.Updated j) := by
        unfold kindOf
        dsimp only
        rw [stepC_get_lt _ _ _ _ _ hne hlt]
      rw [this]
      exact kindsLe_refl _
    · have : kindOf A ns (.Updated j) = none := by
        unfold kindOf
        dsimp only
        rw [List.get?_eq_none.mpr (by omega)]
      rw [this]
      exact kindsLe_none _

/-- Local canonical form of untouched slots survives a take-append-place
step. -/
theorem stepC_localCanon (A : Arena) (ns : List (Option UpdatedMemTrieNode))
    (node_id : Nat) (apps : List (Option UpdatedMemTrieNode))
    (en : Option UpdatedMemTrieNode) (i : Nat) (hi : i ≠ node_id)
    (hlt : i < ns.length)
    (h : localCanon A ns (some node_id) i = true) :
    localCanon A (((ns.set node_id none) ++ apps).set node_id en) (some node_id) i = true := by
  apply localCanon_compat A ns _ (some node_id) i (stepC_get_lt _ _ _ _ _ hi hlt)
  · intro c hex
    apply stepC_kindsLe
    intro hx
    rw [hx] at hex
    simp [isExempt] at hex
  · exact h

/-- The common prefix is bounded by the left operand. -/
theorem cpl_le_left : ∀ a b : List Nat, commonPrefixLen a b ≤ a.length := by
  intro a
  induction a with
  | nil => intro b; cases b <;> simp [commonPrefixLen]
  | cons x as2 ih =>
    intro b
    cases b with
    | nil => simp [commonPrefixLen]
    | cons y bs =>
      unfold commonPrefixLen
      by_cases hxy : x = y
      · rw [if_pos hxy]
        have := ih bs
        simp only [List.length_cons]
        omega
      · rw [if_neg hxy]
        omega

/-- The common prefix is bounded by the right operand. -/
theorem cpl_le_right : ∀ a b : List Nat, commonPrefixLen a b ≤ b.length := by
  intro a
  induction a with
  | nil => intro b; cases b <;> simp [commonPrefixLen]
  | cons x as2 ih =>
    intro b
    cases b with
    | nil => simp [commonPrefixLen]
    | cons y bs =>
      unfold commonPrefixLen
      by_cases hxy : x = y
      · rw [if_pos hxy]
        have := ih bs
        simp only [List.length_cons]
        omega
      · rw [if_neg hxy]
        omega

/-- Beyond the common prefix the sequences immediately diverge. -/
theorem cpl_drop : ∀ a b : List Nat,
    commonPrefixLen (a.drop (commonPrefixLen a b)) (b.drop (commonPrefixLen a b)) = 0 := by
  intro a
  induction a with
  | nil => intro b; cases b <;> rfl
  | cons x as2 ih =>
    intro b
    cases b with
    | nil => rfl
    | cons y bs =>
      by_cases hxy : x = y
      · show commonPrefixLen ((x :: as2).drop (if x = y then commonPrefixLen as2 bs + 1 else 0))
          ((y :: bs).drop (if x = y then commonPrefixLen as2 bs + 1 else 0)) = 0
        rw [if_pos hxy, List.drop_succ_cons, List.drop_succ_cons]
        exact ih bs
      · show commonPrefixLen ((x :: as2).drop (if x = y then commonPrefixLen as2 bs + 1 else 0))
          ((y :: bs).drop (if x = y then commonPrefixLen as2 bs + 1 else 0)) = 0
        rw [if_neg hxy, List.drop_zero, List.drop_zero]
        show (if x = y then commonPrefixLen as2 bs + 1 else 0) = 0
        rw [if_neg hxy]

/-- A zero common prefix of two nonempty sequences means differing heads. -/
theorem cpl_zero_ne (x y : Nat) (as2 bs : List Nat)
    (h : commonPrefixLen (x :: as2) (y :: bs) = 0) : x ≠ y := by
  intro hxy
  unfold commonPrefixLen at h
  rw [if_pos hxy] at h
  exact absurd h (by omega)

/-- Unpacked nibbles are in range. -/
theorem unpackPairs_lt16 : ∀ (l : List Nat) (x : Nat), x ∈ unpackPairs l → x < 16 := by
  intro l
  induction l with
  | nil => intro x h; simp [unpackPairs] at h
  | cons b rest ih =>
    intro x h
    unfold unpackPairs at h
    rcases List.mem_cons.mp h with h1 | h2
    · subst h1; omega
    · rcases List.mem_cons.mp h2 with h3 | h4
      · subst h3; omega
      · exact ih x h4

/-- Decoded nibbles are in range. -/
theorem decodeNibbles_lt16 (bytes : List Nat) (x : Nat)
    (h : x ∈ (decodeNibbles bytes).fst) : x < 16 := by
  unfold decodeNibbles at h
  cases bytes with
  | nil => simp at h
  | cons b rest =>
    dsimp only at h
    by_cases hodd : (16 ≤ b % 32)
    · rw [if_pos (by simpa using hodd)] at h
      rcases List.mem_cons.mp h with h1 | h2
      · subst h1; omega
      · exact unpackPairs_lt16 rest x h2
    · rw [if_neg (by simpa using hodd)] at h
      exact unpackPairs_lt16 rest x h

/-- Packing then unpacking, fuel-indexed helper. -/
theorem unpack_pack_fuel : ∀ (n : Nat) (l : List Nat), l.length ≤ n →
    (∀ x ∈ l, x < 16) → l.length % 2 = 0 → unpackPairs (packPairs l) = l := by
  intro n
  induction n with
  | zero =>
    intro l hl hv hev
    match l with
    | [] => rfl
    | a :: rest => simp at hl
  | succ n ih =>
    intro l hl hv hev
    match l with
    | [] => rfl
    | [a] => simp at hev
    | a :: b :: rest =>
      have ha : a < 16 := hv a (by simp)
      have hb : b < 16 := hv b (by simp)
      show unpackPairs ((a * 16 + b) :: packPairs rest) = _
      unfold unpackPairs
      have h1 : (a * 16 + b) / 16 % 16 = a := by omega
      have h2 : (a * 16 + b) % 16 = b := by omega
      rw [h1, h2, ih rest (by simp at hl; omega)
        (fun x hx => hv x (by simp [hx])) (by simp at hev; omega)]

/-- Packing then unpacking an even-length valid nibble sequence is the
identity. -/
theorem unpack_pack (l : List Nat) (hv : ∀ x ∈ l, x < 16)
    (hev : l.length % 2 = 0) : unpackPairs (packPairs l) = l :=
  unpack_pack_fuel l.length l (le_refl _) hv hev

/-- Decoding inverts encoding on valid nibble sequences. -/
theorem decode_encode (nibs : List Nat) (lf : Bool) (hv : ∀ x ∈ nibs, x < 16) :
    decodeNibbles (encodeNibbles nibs lf) = (nibs, lf) := by
  unfold encodeNibbles
  by_cases hodd : nibs.length % 2 = 1
  · rw [if_pos hodd]
    match nibs, hodd with
    | hd :: tl, hodd =>
      have hhd : hd < 16 := hv hd (by simp)
      have htl : tl.length % 2 = 0 := by
        simp only [List.length_cons] at hodd
        omega
      unfold decodeNibbles
      dsimp only
      cases lf with
      | true =>
        rw [show (if (true = true) then (32 : Nat) else 0) = 32 from rfl]
        have h64 : (32 + 16 + (hd :: tl).headD 0) % 64 = 48 + hd := by
          show (32 + 16 + hd) % 64 = 48 + hd
          omega
        have h32 : (32 + 16 + (hd :: tl).headD 0) % 32 = 16 + hd := by
          show (32 + 16 + hd) % 32 = 16 + hd
          omega
        have h16 : (32 + 16 + (hd :: tl).headD 0) % 16 = hd := by
          show (32 + 16 + hd) % 16 = hd
          omega
        rw [h64, h32, h16]
        rw [if_pos (by simp)]
        show ((hd :: unpackPairs (packPairs tl)), _) = _
        rw [unpack_pack tl (fun x hx => hv x (by simp [hx])) htl]
        simp
        omega
      | false =>
        rw [show (if (false = true) then (32 : Nat) else 0) = 0 from rfl]
        have h64 : (0 + 16 + (hd :: tl).headD 0) % 64 = 16 + hd := by
          show (0 + 16 + hd) % 64 = 16 + hd
          omega
        have h32 : (0 + 16 + (hd :: tl).headD 0) % 32 = 16 + hd := by
          show (0 + 16 + hd) % 32 = 16 + hd
          omega
        have h16 : (0 + 16 + (hd :: tl).headD 0) % 16 = hd := by
          show (0 + 16 + hd) % 16 = hd
          omega
        rw [h64, h32, h16]
        rw [if_pos (by simp)]
        show ((hd :: unpackPairs (packPairs tl)), _) = _
        rw [unpack_pack tl (fun x hx => hv x (by simp [hx])) htl]
        simp
        omega
  · rw [if_neg hodd]
    have hev : nibs.length % 2 = 0 := by omega
    unfold decodeNibbles
    cases lf with
    | true =>
      dsimp only
      rw [show (if (true = true) then (32 : Nat) else 0) = 32 from rfl]
      rw [if_neg (by simp)]
      rw [unpack_pack nibs hv hev]
      simp
    | false =>
      dsimp only
      rw [show (if (false = true) then (32 : Nat) else 0) = 0 from rfl]
      rw [if_neg (by simp)]
      rw [unpack_pack nibs hv hev]
      simp

/-- Out-of-range slots are vacuously canonical. -/
theorem localCanon_out (A : Arena) (ns : List (Option UpdatedMemTrieNode))
    (e : Option Nat) (i : Nat) (h : ns.length ≤ i) : localCanon A ns e i = true := by
  unfold localCanon
  rw [List.get?_eq_none.mpr h]

/-- Acceptable kinds survive compatible evolution. -/
theorem kOkB_of_kindsLe (k k2 : Option Nat) (h : kOkB k = true)
    (hle : kindsLe k k2) : kOkB k2 = true := by
  obtain ⟨m, hm, hk⟩ := (kOkB_iff k).mp h
  obtain ⟨m2, hm2, hk2⟩ := hle.2 m hk hm
  exact (kOkB_iff k2).mpr ⟨m2, hm2, hk2⟩

/-- A branch kind names a branch arena node. -/
theorem kindOfA_three (A : Arena) (h2 : Nat) (hk : kindOfA A h2 = some 3) :
    ∃ an, A.nodes.get? h2 = some an ∧ ∃ cs v, an = .branchA cs v := by
  unfold kindOfA at hk
  cases hg : A.nodes.get? h2 with
  | none => rw [hg] at hk; exact absurd hk (by simp)
  | some an =>
    rw [hg] at hk
    cases an with
    | leafA e v => injection hk with hk; omega
    | extensionA e c => injection hk with hk; omega
    | branchA cs v => exact ⟨_, rfl, cs, v, rfl⟩

/-- Reading the all-empty child array. -/
theorem emptyChildren_get (k : Nat) :
    emptyChildren.get? k = if k < 16 then some none else none := by
  by_cases hk : k < 16
  · rw [if_pos hk]
    unfold emptyChildren
    interval_cases k <;> rfl
  · rw [if_neg hk]
    apply List.get?_eq_none.mpr
    unfold emptyChildren
    simp
    omega

/-- The all-empty child array has no present children. -/
theorem emptyChildren_filterMap : emptyChildren.filterMap id = [] := rfl

/-- In the all-empty array with one child set, only that position is
present. -/
theorem emptyChildren_set_oneAt (idx : Nat) (x : NodeOrIndex) (k : Nat)
    (c2 : NodeOrIndex) (h : (emptyChildren.set idx (some x)).get? k = some (some c2)) :
    k = idx := by
  by_contra hne
  rw [get?_set_ne _ _ _ _ hne, emptyChildren_get] at h
  by_cases hk : k < 16
  · rw [if_pos hk] at h
    exact Option.noConfusion (Option.some.inj h)
  · rw [if_neg hk] at h
    exact Option.noConfusion h

/-- Counts of present children after setting one child in the empty
array. -/
theorem emptyChildren_set_len (idx : Nat) (x : NodeOrIndex) (hidx : idx < 16) :
    ((emptyChildren.set idx (some x)).filterMap id).length = 1 := by
  rw [filterMap_len_set_none emptyChildren idx x (by rw [emptyChildren_get, if_pos hidx])]
  rfl

/-- Membership in the children of the empty array with one child set. -/
theorem emptyChildren_set_mem (idx : Nat) (x c : NodeOrIndex)
    (h : c ∈ (emptyChildren.set idx (some x)).filterMap id) : c = x := by
  rcases mem_filterMap_set emptyChildren idx x c h with h1 | h1
  · exact h1
  · rw [emptyChildren_filterMap] at h1
    exact absurd h1 (List.not_mem_nil c)

/-- Dropping an exemption when the exempt slot's kind satisfies every
referrer: non-empty for branch children, a branch for extension parents. -/
theorem localCanon_unexempt (A : Arena) (ns : List (Option UpdatedMemTrieNode))
    (p i : Nat) (k0 : Nat)
    (hk : kindOf A ns (.Updated p) = some k0) (hpos : 0 < k0)
    (hext : ∀ ex, ns.get? i = some (some (.Extension ex (.Updated p))) → k0 = 3)
    (h : localCanon A ns (some p) i = true) : localCanon A ns none i = true := by
  unfold localCanon at h ⊢
  cases hgi : ns.get? i with
  | none => trivial
  | some en =>
    rw [hgi] at h
    cases en with
    | none => trivial
    | some n =>
      cases n with
      | Empty => trivial
      | Leaf ex v => trivial
      | Extension ex c =>
        dsimp only at h ⊢
        unfold extChildOk at h ⊢
        rw [isExempt_none, Bool.false_or]
        cases hex : isExempt (some p) c with
        | false =>
          rw [hex, Bool.false_or] at h
          exact h
        | true =>
          have hc := (isExempt_iff p c).mp hex
          subst hc
          have h3 := hext ex hgi
          subst h3
          rw [beq_iff_eq]
          exact hk
      | Branch cs v =>
        dsimp only at h ⊢
        simp only [Bool.and_eq_true] at h ⊢
        obtain ⟨hc1, hc2⟩ := h
        refine ⟨hc1, ?_⟩
        rw [List.all_eq_true] at hc2 ⊢
        intro c hcmem
        have hcc := hc2 c hcmem
        unfold childOk at hcc ⊢
        rw [isExempt_none, Bool.false_or]
        cases hex : isExempt (some p) c with
        | false =>
          rw [hex, Bool.false_or] at hcc
          exact hcc
        | true =>
          have hc := (isExempt_iff p c).mp hex
          subst hc
          exact (kOkB_iff _).mpr ⟨k0, hpos, hk⟩

/-- Arena references stay in `R` through a take-append-place step whose new
contents also point into `R`. -/
theorem oldRefsIn_stepC (A : Arena) (R : Nat → Prop)
    (ns : List (Option UpdatedMemTrieNode)) (node_id : Nat)
    (apps : List (Option UpdatedMemTrieNode)) (en : Option UpdatedMemTrieNode)
    (hlt : node_id < ns.length)
    (hpre : oldRefsIn ns R)
    (hen : ∀ nd, en = some nd → ∀ h2 ∈ oldRefs nd, R h2)
    (happs : ∀ k enk, apps.get? k = some enk → ∀ nd, enk = some nd →
      ∀ h2 ∈ oldRefs nd, R h2) :
    oldRefsIn (((ns.set node_id none) ++ apps).set node_id en) R := by
  intro i nd hget h2 hh2
  by_cases hi : i = node_id
  · subst hi
    rw [stepC_get_self _ _ _ _ hlt] at hget
    injection hget with hget
    exact hen nd hget h2 hh2
  · by_cases hilt : i < ns.length
    · rw [stepC_get_lt _ _ _ _ _ hi hilt] at hget
      exact hpre i nd hget h2 hh2
    · by_cases hila : i < ns.length + apps.length
      · obtain ⟨k, rfl⟩ : ∃ k, i = ns.length + k := ⟨i - ns.length, by omega⟩
        rw [stepC_get_app _ _ _ _ _ hlt] at hget
        exact happs k (some nd) hget nd rfl h2 hh2
      · have : (((ns.set node_id none) ++ apps).set node_id en).get? i = none := by
          apply List.get?_eq_none.mpr
          rw [stepC_len]
          omega
        rw [this] at hget
        exact absurd hget (by simp)

/-- The protected set stays closed through a take-append-place step that
adds no references into it. -/
theorem protClosed_stepC (ns : List (Option UpdatedMemTrieNode)) (node_id : Nat)
    (apps : List (Option UpdatedMemTrieNode)) (en : Option UpdatedMemTrieNode)
    (prot : List Nat)
    (hlt : node_id < ns.length)
    (hpc : protClosed ns prot)
    (hen : ∀ t ∈ prot, t ∉ updRefs en)
    (happs : ∀ k enk, apps.get? k = some enk → ∀ t ∈ prot, t ∉ updRefs enk) :
    protClosed (((ns.set node_id none) ++ apps).set node_id en) prot := by
  intro t ht i eni hget hmem
  by_cases hi : i = node_id
  · subst hi
    rw [stepC_get_self _ _ _ _ hlt] at hget
    injection hget with hget
    subst hget
    exact absurd hmem (hen t ht)
  · by_cases hilt : i < ns.length
    · rw [stepC_get_lt _ _ _ _ _ hi hilt] at hget
      exact hpc t ht i eni hget hmem
    · by_cases hila : i < ns.length + apps.length
      · obtain ⟨k, rfl⟩ : ∃ k, i = ns.length + k := ⟨i - ns.length, by omega⟩
        rw [stepC_get_app _ _ _ _ _ hlt] at hget
        exact absurd hmem (happs k eni hget t ht)
      · have : (((ns.set node_id none) ++ apps).set node_id en).get? i = none := by
          apply List.get?_eq_none.mpr
          rw [stepC_len]
          omega
        rw [this] at hget
        exact absurd hget (by simp)

/-- A resolved buffer reference names a real slot. -/
theorem kindOf_updated_inv (A : Arena) (ns : List (Option UpdatedMemTrieNode))
    (j k : Nat) (h : kindOf A ns (.Updated j) = some k) :
    ∃ nd, ns.get? j = some (some nd) ∧ kindOfN nd = k := by
  unfold kindOf at h
  dsimp only at h
  cases hg : ns.get? j with
  | none => rw [hg] at h; exact absurd h (by simp)
  | some en =>
    rw [hg] at h
    cases en with
    | none => exact absurd h (by simp)
    | some nd =>
      injection h with h
      exact ⟨nd, rfl, h⟩

/-- A successful `childSet` certifies the index bound. -/
theorem childSet_lt (cs : List (Option NodeOrIndex)) (i : Nat) (c : Option NodeOrIndex)
    (out : List (Option NodeOrIndex)) (h : childSet cs i c = .ok out) :
    i < cs.length := by
  unfold childSet at h
  by_cases hlt : i < cs.length
  · exact hlt
  · rw [if_neg hlt] at h
    exact absurd h (by simp)

/-- Untouched slots of a step re-exempted towards the next descent target. -/
theorem stepC_reexempt (A : Arena) (ns : List (Option UpdatedMemTrieNode))
    (node_id : Nat) (apps : List (Option UpdatedMemTrieNode))
    (n2 : UpdatedMemTrieNode) (next : Nat)
    (hlt : node_id < ns.length)
    (hpos : 0 < kindOfN n2)
    (hke : ∀ i2 ex, ns.get? i2 = some (some (.Extension ex (.Updated node_id))) →
      kindOfN n2 = 3)
    (HA : ∀ i, i ≠ node_id → localCanon A ns (some node_id) i = true)
    (i : Nat) (hi : i ≠ node_id) (hilt : i < ns.length) :
    localCanon A (((ns.set node_id none) ++ apps).set node_id (some n2)) (some next) i = true := by
  have h1 : localCanon A (((ns.set node_id none) ++ apps).set node_id (some n2))
      (some node_id) i = true :=
    stepC_localCanon A ns node_id apps (some n2) i hi hilt (HA i hi)
  have hk : kindOf A (((ns.set node_id none) ++ apps).set node_id (some n2))
      (.Updated node_id) = some (kindOfN n2) := by
    unfold kindOf
    dsimp only
    rw [stepC_get_self _ _ _ _ hlt]
  have h2 := localCanon_unexempt A _ node_id i (kindOfN n2) hk hpos
    (fun ex hget => by
      rw [stepC_get_lt _ _ _ _ _ hi hilt] at hget
      exact hke i ex hget) h1
  exact localCanon_weaken A _ (some next) i h2

end MemTrie
